import Mathlib

/-!
# TensorBase: the structural scanner of `baseops.c` and the runtime kernels

A shallow embedding of `crates/base_ops/libbops/baseops.c` (namespace `Baseops`) and of
`crates/runtime/ker_lib/ker_runner.c`, `crates/runtime/ker_lib/ker_lib.c` and
`crates/runtime/tests/basic_check_c_lib.h` (namespace `Runtime`), and theorems about them.
All definitions come first, the theorems follow.

Conventions of the embedding of `baseops.c`.

* A byte buffer `const uint8_t *buf` is a function `Nat → Nat` giving the byte stored at
  each offset from the pointer; the length `len` is passed separately, as in C.
* The output array `uint32_t *indexes` is a function `Nat → Nat` from slot number to the
  stored value; a store replaces the value of one slot.
* `uint64_t` and `uint32_t` values are natural numbers; every operation that can leave the
  range is followed by an explicit `% 2 ^ 64` or `% 2 ^ 32`. Signed values (`int`,
  `int64_t`) are integers.
* `size_t` arithmetic on `idx` and `len` is done in `Nat`: every `size_t` value the
  function computes is at most `len`, so nothing wraps for `len < 2 ^ 64`.
* A `__m256i` register is seen as its 32 byte lanes (lane `i` is byte `i` in memory
  order); a `__m128i` register is the 128-bit number it holds.
* `__builtin_ctzll(0)` has no defined result; the functions that call it take that result
  as the parameter `undef`, and every theorem holds for every value of it.
* Loops with a data-dependent trip count take a `fuel` argument; theorems show that the
  fuel given by the callers is never what ends them.
-/

namespace Baseops

/-! ## Data model -/

/-- The chunk-group depth `#define SIMDCSV_BUFFERSIZE 4`. -/
def SIMDCSV_BUFFERSIZE : Nat := 4

/-- A 256-bit register as byte lanes: lane `i`, for `i < 32`, is byte `i` of the register. -/
abbrev m256i := Nat → Nat

/-- The C `struct simd_input`: the low and the high 32 bytes of a 64-byte chunk. -/
structure simd_input where
  lo : m256i
  hi : m256i

/-- The C `struct ParsedCSV`: the count of valid entries and the array of 32-bit offsets. -/
structure ParsedCSV where
  n_indexes : Nat
  indexes : Nat → Nat

/-- The entries `indexes[0..n_indexes)` of a `ParsedCSV`, in slot order. -/
def ParsedCSV.toList (p : ParsedCSV) : List Nat :=
  (List.range p.n_indexes).map p.indexes

/-! ## Machine-integer conversions -/

/-- Conversion of a signed integer to `uint64_t`. -/
def toUInt64 (x : Int) : Nat := (x % 2 ^ 64).toNat

/-- Conversion of a signed integer to `uint32_t`. -/
def toUInt32 (x : Int) : Nat := (x % 2 ^ 32).toNat

/-- Reinterpretation of a 64-bit pattern as `int64_t` (two's complement). -/
def toInt64 (n : Nat) : Int :=
  if n % 2 ^ 64 < 2 ^ 63 then ((n % 2 ^ 64 : Nat) : Int) else ((n % 2 ^ 64 : Nat) : Int) - 2 ^ 64

/-- Reinterpretation of a 32-bit pattern as `int` (two's complement). -/
def toInt32 (n : Nat) : Int :=
  if n % 2 ^ 32 < 2 ^ 31 then ((n % 2 ^ 32 : Nat) : Int) else ((n % 2 ^ 32 : Nat) : Int) - 2 ^ 32

/-! ## Compiler builtins -/

/-- Number of set bits among the low `w` bits of `x`. -/
def popcount : Nat → Nat → Nat
  | 0, _ => 0
  | w + 1, x => x % 2 + popcount w (x / 2)

/-- Position of the lowest set bit among the low `w` bits of `x` (`w` when there is none). -/
def ctz : Nat → Nat → Nat
  | 0, _ => 0
  | w + 1, x => if x % 2 = 1 then 0 else 1 + ctz w (x / 2)

/-- `trailingzeroes` is `__builtin_ctzll`. Its result for a zero argument is not defined by
the compiler; `undef` stands for whatever that result is, as the unsigned addition that
consumes it sees it. -/
def trailingzeroes (undef : Nat) (input_num : Nat) : Nat :=
  if input_num = 0 then undef else ctz 64 input_num

/-- `hamming` is `__builtin_popcountll`. -/
def hamming (input_num : Nat) : Nat := popcount 64 input_num

/-! ## Vector intrinsics -/

/-- `_mm256_loadu_si256((const __m256i *)(buf + off))`: the 32 bytes from offset `off`. -/
def mm256_loadu_si256 (buf : Nat → Nat) (off : Nat) : m256i := fun i => buf (off + i)

/-- `_mm256_set1_epi8(m)`: every lane holds `m`. -/
def mm256_set1_epi8 (m : Nat) : m256i := fun _ => m

/-- `_mm256_cmpeq_epi8`: lane `i` is `0xFF` when the two lanes are equal and `0` otherwise. -/
def mm256_cmpeq_epi8 (a b : m256i) : m256i := fun i => if a i = b i then 0xFF else 0

/-- The number below `2 ^ n` whose bit `i` is set iff `f i`. -/
def maskOfLanes (f : Nat → Bool) : Nat → Nat
  | 0 => 0
  | n + 1 => maskOfLanes f n ||| (if f n then 2 ^ n else 0)

/-- `_mm256_movemask_epi8`: bit `i` of the result is the top bit of lane `i`; the result is
an `int`, negative when lane 31 has its top bit set. -/
def mm256_movemask_epi8 (a : m256i) : Int :=
  toInt32 (maskOfLanes (fun i => (a i).testBit 7) 32)

/-- `_mm_set_epi64x(hi, lo)`: the 128-bit register with the given halves. -/
def mm_set_epi64x (hi lo : Nat) : Nat := (hi % 2 ^ 64) * 2 ^ 64 + lo % 2 ^ 64

/-- `_mm_set1_epi8(b)` on a 128-bit register: sixteen copies of the byte `b`. -/
def mm_set1_epi8 (b : Nat) : Nat := (b % 256) * ((2 ^ 128 - 1) / 255)

/-- Carry-less product of `a` by `b`, over the low `n` bits of `a`. -/
def clmul (a b : Nat) : Nat → Nat
  | 0 => 0
  | n + 1 => clmul a b n ^^^ (if a.testBit n then b <<< n else 0)

/-- `_mm_clmulepi64_si128(a, b, imm)`: carry-less product of one 64-bit half of `a` by one
64-bit half of `b`; bit 0 of `imm` selects the half of `a`, bit 4 the half of `b`. -/
def mm_clmulepi64_si128 (a b imm : Nat) : Nat :=
  let x := if imm.testBit 0 then a / 2 ^ 64 % 2 ^ 64 else a % 2 ^ 64
  let y := if imm.testBit 4 then b / 2 ^ 64 % 2 ^ 64 else b % 2 ^ 64
  clmul x y 64

/-- `_mm_cvtsi128_si64`: the low 64 bits of the register, as an `int64_t`. -/
def mm_cvtsi128_si64 (a : Nat) : Int := toInt64 (a % 2 ^ 64)

/-! ## `cmp_mask_against_input` and `find_quote_mask` -/

/-- `cmp_mask_against_input(in, m)`. The low movemask is cast to `uint32_t` before it is
widened; the high movemask is widened from `int` directly (sign-extended) and then shifted
left by 32 in 64-bit arithmetic. -/
def cmp_mask_against_input (inp : simd_input) (m : Nat) : Nat :=
  let mask := mm256_set1_epi8 m
  let cmp_res_0 := mm256_cmpeq_epi8 inp.lo mask
  let res_0 := toUInt32 (mm256_movemask_epi8 cmp_res_0)
  let cmp_res_1 := mm256_cmpeq_epi8 inp.hi mask
  let res_1 := toUInt64 (mm256_movemask_epi8 cmp_res_1)
  res_0 ||| ((res_1 <<< 32) % 2 ^ 64)

/-- `find_quote_mask(in, &prev_iter_inside_quote)`: returns the quote mask and the updated
`prev_iter_inside_quote`. -/
def find_quote_mask (inp : simd_input) (prev_iter_inside_quote : Nat) : Nat × Nat :=
  let quote_bits := cmp_mask_against_input inp 0x22
  let quote_mask := toUInt64 (mm_cvtsi128_si64
    (mm_clmulepi64_si128 (mm_set_epi64x 0 quote_bits) (mm_set1_epi8 0xFF) 0))
  let quote_mask := quote_mask ^^^ prev_iter_inside_quote
  (quote_mask, toUInt64 (toInt64 quote_mask >>> (63 : Nat)))

/-! ## `flatten_bits` -/

/-- A store `base_ptr[k] = v` into the output array. -/
def store (base_ptr : Nat → Nat) (k v : Nat) : Nat → Nat :=
  fun s => if s = k then v else base_ptr s

/-- The 64-bit expression `bits & (bits - 1)`, which clears the lowest set bit. -/
def clear_lowest (bits : Nat) : Nat := bits &&& ((bits + 2 ^ 64 - 1) % 2 ^ 64)

/-- One statement pair of the unrolled part of `flatten_bits`:
`base_ptr[(*base) + k] = (uint32_t)(idx) + trailingzeroes(bits); bits = bits & (bits - 1);`
acting on the array and on `bits`. -/
def flatten_store (undef base idx k : Nat) (st : (Nat → Nat) × Nat) : (Nat → Nat) × Nat :=
  (store st.1 ((base + k) % 2 ^ 32) ((idx + trailingzeroes undef st.2) % 2 ^ 32),
   clear_lowest st.2)

/-- The `do { ... } while (bits != 0)` loop of `flatten_bits`, on the array, `*base` and
`bits`; `fuel` bounds the number of iterations. -/
def flatten_loop (undef idx : Nat) : Nat → (Nat → Nat) × Nat × Nat → (Nat → Nat) × Nat × Nat
  | 0, st => st
  | fuel + 1, (base_ptr, base, bits) =>
    let base_ptr := store base_ptr base ((idx + trailingzeroes undef bits) % 2 ^ 32)
    let bits := clear_lowest bits
    let base := (base + 1) % 2 ^ 32
    if bits ≠ 0 then flatten_loop undef idx fuel (base_ptr, base, bits)
    else (base_ptr, base, bits)

/-- `flatten_bits(base_ptr, base, idx, bits)`: returns the array and `*base` after the call.
`idx` is the `uint32_t` parameter. -/
def flatten_bits (undef : Nat) (base_ptr : Nat → Nat) (base idx bits : Nat) :
    (Nat → Nat) × Nat :=
  if bits ≠ 0 then
    let cnt := hamming bits
    let next_base := (base + cnt) % 2 ^ 32
    let st := (base_ptr, bits)
    let st := flatten_store undef base idx 0 st
    let st := flatten_store undef base idx 1 st
    let st := flatten_store undef base idx 2 st
    let st := flatten_store undef base idx 3 st
    let st := flatten_store undef base idx 4 st
    let st := flatten_store undef base idx 5 st
    let st := flatten_store undef base idx 6 st
    let st := flatten_store undef base idx 7 st
    let st :=
      if cnt > 8 then
        let st := flatten_store undef base idx 8 st
        let st := flatten_store undef base idx 9 st
        let st := flatten_store undef base idx 10 st
        let st := flatten_store undef base idx 11 st
        let st := flatten_store undef base idx 12 st
        let st := flatten_store undef base idx 13 st
        let st := flatten_store undef base idx 14 st
        flatten_store undef base idx 15 st
      else st
    let base_ptr :=
      if cnt > 16 then (flatten_loop undef idx 64 (st.1, (base + 16) % 2 ^ 32, st.2)).1
      else st.1
    (base_ptr, next_base)
  else (base_ptr, base)

/-! ## `find_indexes` -/

/-- The 64-bit complement `~x`. -/
def not64 (x : Nat) : Nat := (2 ^ 64 - 1) ^^^ (x % 2 ^ 64)

/-- The statements both loops of `find_indexes` run on the chunk at `idx`, from the two
loads to the cut mask `(end | sep) & ~quote_mask`: returns the cut mask, the updated
`prev_iter_inside_quote` and the updated `prev_iter_cr_end`. -/
def classify_chunk (buf : Nat → Nat) (enable_crlf : Bool) (idx : Nat)
    (prev_iter_inside_quote prev_iter_cr_end : Nat) : Nat × Nat × Nat :=
  let inp : simd_input :=
    { lo := mm256_loadu_si256 buf (idx + 0), hi := mm256_loadu_si256 buf (idx + 32) }
  let q := find_quote_mask inp prev_iter_inside_quote
  let quote_mask := q.1
  let sep := cmp_mask_against_input inp 0x2c
  let e : Nat × Nat :=
    if enable_crlf then
      let cr := cmp_mask_against_input inp 0x0d
      let cr_adjusted := ((cr <<< 1) % 2 ^ 64) ||| prev_iter_cr_end
      let lf := cmp_mask_against_input inp 0x0a
      (lf &&& cr_adjusted, cr >>> 63)
    else
      (cmp_mask_against_input inp 0x0a, prev_iter_cr_end)
  ((e.1 ||| sep) &&& not64 quote_mask, q.2, e.2)

/-- The local variables of `find_indexes` that live across chunks, with the output array. -/
structure ScanState where
  prev_iter_inside_quote : Nat
  prev_iter_cr_end : Nat
  idx : Nat
  base_ptr : Nat → Nat
  base : Nat

/-- One iteration of the buffered loop with group depth `G`: the first inner loop
classifies the `G` chunks into `fields`, the second flattens them, then `idx += 64 * G`. -/
def buffered_body (undef G : Nat) (buf : Nat → Nat) (enable_crlf : Bool) (s : ScanState) :
    ScanState :=
  let c := (List.range G).foldl
    (fun (acc : (Nat → Nat) × Nat × Nat) b =>
      let internal_idx := 64 * b + s.idx
      let r := classify_chunk buf enable_crlf internal_idx acc.2.1 acc.2.2
      (store acc.1 b r.1, r.2.1, r.2.2))
    (fun _ => 0, s.prev_iter_inside_quote, s.prev_iter_cr_end)
  let fields := c.1
  let f := (List.range G).foldl
    (fun (acc : (Nat → Nat) × Nat) b =>
      let internal_idx := 64 * b + s.idx
      flatten_bits undef acc.1 acc.2 (internal_idx % 2 ^ 32) (fields b))
    (s.base_ptr, s.base)
  { prev_iter_inside_quote := c.2.1, prev_iter_cr_end := c.2.2, idx := s.idx + 64 * G,
    base_ptr := f.1, base := f.2 }

/-- The buffered loop `for (; idx < lenminus64 - 64 * G + 1; idx += 64 * G)`; `fuel`
bounds the number of iterations. -/
def buffered_loop (undef G : Nat) (buf : Nat → Nat) (enable_crlf : Bool) (lenminus64 : Nat) :
    Nat → ScanState → ScanState
  | 0, s => s
  | fuel + 1, s =>
    if s.idx < lenminus64 - 64 * G + 1 then
      buffered_loop undef G buf enable_crlf lenminus64 fuel
        (buffered_body undef G buf enable_crlf s)
    else s

/-- One iteration of the tail loop: classify the chunk at `idx`, flatten it, `idx += 64`. -/
def tail_body (undef : Nat) (buf : Nat → Nat) (enable_crlf : Bool) (s : ScanState) :
    ScanState :=
  let r := classify_chunk buf enable_crlf s.idx s.prev_iter_inside_quote s.prev_iter_cr_end
  let field_sep := r.1
  let f := flatten_bits undef s.base_ptr s.base (s.idx % 2 ^ 32) field_sep
  { prev_iter_inside_quote := r.2.1, prev_iter_cr_end := r.2.2, idx := s.idx + 64,
    base_ptr := f.1, base := f.2 }

/-- The tail loop `for (; idx < lenminus64; idx += 64)`; `fuel` bounds the number of
iterations. -/
def tail_loop (undef : Nat) (buf : Nat → Nat) (enable_crlf : Bool) (lenminus64 : Nat) :
    Nat → ScanState → ScanState
  | 0, s => s
  | fuel + 1, s =>
    if s.idx < lenminus64 then
      tail_loop undef buf enable_crlf lenminus64 fuel (tail_body undef buf enable_crlf s)
    else s

/-- The state `find_indexes` starts from. -/
def initial_state (pcsv : ParsedCSV) : ScanState :=
  { prev_iter_inside_quote := 0, prev_iter_cr_end := 0, idx := 0,
    base_ptr := pcsv.indexes, base := 0 }

/-- The function `find_indexes` with the group depth `G` in place of `SIMDCSV_BUFFERSIZE`.
Both loops get `len` iterations of fuel, more than either can use. Returns the `bool`
result and the `ParsedCSV` after the call. -/
def find_indexes_with (G undef : Nat) (buf : Nat → Nat) (len : Nat) (pcsv : ParsedCSV)
    (enable_crlf : Bool) : Bool × ParsedCSV :=
  let lenminus64 := if len < 64 then 0 else len - 64
  let s := initial_state pcsv
  let s :=
    if lenminus64 > 64 * G then buffered_loop undef G buf enable_crlf lenminus64 len s
    else s
  let s := tail_loop undef buf enable_crlf lenminus64 len s
  (true, { n_indexes := s.base, indexes := s.base_ptr })

/-- The function `find_indexes(buf, len, pcsv, enable_crlf)`. -/
def find_indexes (undef : Nat) (buf : Nat → Nat) (len : Nat) (pcsv : ParsedCSV)
    (enable_crlf : Bool) : Bool × ParsedCSV :=
  find_indexes_with SIMDCSV_BUFFERSIZE undef buf len pcsv enable_crlf

/-- The index list `indexes[0..n_indexes)` that `find_indexes` leaves in `pcsv`. -/
def scan (undef : Nat) (buf : Nat → Nat) (len : Nat) (pcsv : ParsedCSV)
    (enable_crlf : Bool) : List Nat :=
  (find_indexes undef buf len pcsv enable_crlf).2.toList

/-! ## Reference notions the theorems compare the code with -/

/-- Exclusive or of `f 0, ..., f (n - 1)`. -/
def prefixXor (f : Nat → Bool) : Nat → Bool
  | 0 => false
  | n + 1 => xor (prefixXor f n) (f n)

/-- Byte `i` of a 64-byte window held in a `simd_input`. -/
def simd_input.byte (inp : simd_input) (i : Nat) : Nat :=
  if i < 32 then inp.lo i else inp.hi (i - 32)

/-- Number of quote bytes among the window positions `0, ..., n - 1`. -/
def chunkQuotes (inp : simd_input) : Nat → Nat
  | 0 => 0
  | n + 1 => chunkQuotes inp n + (if inp.byte n = 0x22 then 1 else 0)

/-- The naive quote automaton: scan the window positions `0, ..., n - 1` from left to right,
toggling the state at every quote byte and recording the state after each byte as bit `i`
of the mask. Returns the mask and the final state. -/
def naive_quote_scan (inp : simd_input) (inside : Bool) : Nat → Nat × Bool
  | 0 => (0, inside)
  | n + 1 =>
    let r := naive_quote_scan inp inside n
    let st := if inp.byte n = 0x22 then !r.2 else r.2
    (r.1 ||| (if st then 2 ^ n else 0), st)

/-- The positions of the set bits of a 64-bit mask, in ascending order. -/
def bitPositions (bits : Nat) : List Nat :=
  (List.range 64).filter (fun i => bits.testBit i)

/-- Number of quote bytes in `buf[0..p)`. -/
def quoteCount (buf : Nat → Nat) : Nat → Nat
  | 0 => 0
  | p + 1 => quoteCount buf p + (if buf p = 0x22 then 1 else 0)

/-- Position `p` holds a line terminator of the mode: a line feed, which in CRLF mode must
come right after a carriage return. -/
def isLineEnd (enable_crlf : Bool) (buf : Nat → Nat) (p : Nat) : Bool :=
  if enable_crlf then decide (buf p = 0x0a) && (decide (1 ≤ p) && decide (buf (p - 1) = 0x0d))
  else decide (buf p = 0x0a)

/-- Position `p` is a cut position: a comma or a line terminator of the mode that is outside
quotes, the number of quote bytes in `buf[0..p]` being even. -/
def isCut (enable_crlf : Bool) (buf : Nat → Nat) (p : Nat) : Bool :=
  (decide (buf p = 0x2c) || isLineEnd enable_crlf buf p) &&
    decide (quoteCount buf (p + 1) % 2 = 0)

/-- The ascending list of the cut positions below `n`. -/
def cutList (enable_crlf : Bool) (buf : Nat → Nat) (n : Nat) : List Nat :=
  (List.range n).filter (isCut enable_crlf buf)

/-- The number of chunks `find_indexes` examines: the chunk starts are the multiples of 64
below `len - 64`. -/
def chunkCount (len : Nat) : Nat := (len - 64 + 63) / 64

/-- The number of leading bytes `find_indexes` examines. -/
def scannedLen (len : Nat) : Nat := 64 * chunkCount len

/-- The 64-byte window loaded at `idx`, as both loops of `find_indexes` load it. -/
def chunkAt (buf : Nat → Nat) (idx : Nat) : simd_input :=
  { lo := mm256_loadu_si256 buf (idx + 0), hi := mm256_loadu_si256 buf (idx + 32) }

/-- The value of `prev_iter_inside_quote` on entry to the chunk at `idx`. -/
def quoteCarry (buf : Nat → Nat) (idx : Nat) : Nat :=
  if quoteCount buf idx % 2 = 1 then 2 ^ 64 - 1 else 0

/-- The value of `prev_iter_cr_end` on entry to the chunk at `idx`. -/
def crCarry (enable_crlf : Bool) (buf : Nat → Nat) (idx : Nat) : Nat :=
  if enable_crlf = true ∧ 1 ≤ idx ∧ buf (idx - 1) = 0x0d then 1 else 0

/-- The unbuffered driver: `find_indexes` without the buffered loop, so that only the
one-chunk-at-a-time tail loop runs, over every chunk start `idx = 0, 64, 128, ...` with
`idx < len - 64`. -/
def find_indexes_unbuffered (undef : Nat) (buf : Nat → Nat) (len : Nat) (pcsv : ParsedCSV)
    (enable_crlf : Bool) : Bool × ParsedCSV :=
  let lenminus64 := if len < 64 then 0 else len - 64
  let s := initial_state pcsv
  let s := tail_loop undef buf enable_crlf lenminus64 len s
  (true, { n_indexes := s.base, indexes := s.base_ptr })

/-- The carried state `prev_iter_inside_quote` after `find_quote_mask` has been applied to
the chunks of the list in order, starting from `0`. -/
def carried_quote_state (chunks : List simd_input) : Nat :=
  chunks.foldl (fun prev c => (find_quote_mask c prev).2) 0

/-- The number of quote bytes in all the chunks of the list. -/
def totalQuotes (chunks : List simd_input) : Nat :=
  (chunks.map (fun c => chunkQuotes c 64)).sum

/-- The buffer that holds the bytes of `l` from offset 0 on, followed by zero bytes. -/
def bufOfList (l : List Nat) : Nat → Nat := fun p => l.getD p 0

/-- The ten bytes of the row `a,"b,c",d` with its line feed. -/
def sampleRow : List Nat := [0x61, 0x2c, 0x22, 0x62, 0x2c, 0x63, 0x22, 0x2c, 0x64, 0x0a]

/-- A `ParsedCSV` whose array holds zeros. -/
def emptyCSV : ParsedCSV := { n_indexes := 0, indexes := fun _ => 0 }

/-- A buffer of more than 4 GiB: a carriage return at offset 0, commas at the offsets 5 and
`2 ^ 32`, and the letter `a` everywhere else. -/
def bigBuf : Nat → Nat :=
  fun p => if p = 0 then 0x0d else if p = 5 then 0x2c else if p = 2 ^ 32 then 0x2c else 0x61

/-- A buffer whose only bytes of interest are a carriage return at offset 63 and a line feed
at offset 64. -/
def splitCrlfBuf : Nat → Nat :=
  fun p => if p = 63 then 0x0d else if p = 64 then 0x0a else 0x61

/-! ## Auxiliary notions for `flatten_bits` -/

/-- The `n` consecutive unrolled statement pairs of `flatten_bits` with offsets
`k, ..., k + n - 1`. -/
def flatten_run (undef base idx : Nat) : Nat → Nat → (Nat → Nat) × Nat → (Nat → Nat) × Nat
  | _, 0, st => st
  | k, n + 1, st => flatten_run undef base idx (k + 1) n (flatten_store undef base idx k st)

/-- The number of slots `flatten_bits` stores into for a non-zero mask with `cnt` set bits:
8 on the first unrolled path, 16 on the second, `cnt` on the loop path. -/
def flatten_span (cnt : Nat) : Nat := if cnt ≤ 8 then 8 else if cnt ≤ 16 then 16 else cnt

/-! ## The stores into the output array -/

/-- The slots the `do { ... } while (bits != 0)` loop of `flatten_bits` stores into, in the
order of the stores, from `*base` and `bits` on entry; `fuel` bounds the number of
iterations as in `flatten_loop`. -/
def flatten_loop_slots : Nat → Nat × Nat → List Nat
  | 0, _ => []
  | fuel + 1, (base, bits) =>
    let bits := clear_lowest bits
    base :: (if bits ≠ 0 then flatten_loop_slots fuel ((base + 1) % 2 ^ 32, bits) else [])

/-- The slots `flatten_bits(base_ptr, base, idx, bits)` stores into, in the order of the
stores: one per assignment `base_ptr[...] = ...` that the call executes. -/
def flatten_bits_slots (base bits : Nat) : List Nat :=
  if bits ≠ 0 then
    let cnt := hamming bits
    [(base + 0) % 2 ^ 32, (base + 1) % 2 ^ 32, (base + 2) % 2 ^ 32, (base + 3) % 2 ^ 32,
     (base + 4) % 2 ^ 32, (base + 5) % 2 ^ 32, (base + 6) % 2 ^ 32, (base + 7) % 2 ^ 32] ++
    (if cnt > 8 then
      [(base + 8) % 2 ^ 32, (base + 9) % 2 ^ 32, (base + 10) % 2 ^ 32, (base + 11) % 2 ^ 32,
       (base + 12) % 2 ^ 32, (base + 13) % 2 ^ 32, (base + 14) % 2 ^ 32, (base + 15) % 2 ^ 32]
     else []) ++
    (if cnt > 16 then flatten_loop_slots 64 ((base + 16) % 2 ^ 32, clear_lowest^[16] bits)
     else [])
  else []

/-- The slots one iteration of the tail loop stores into. -/
def tail_body_slots (buf : Nat → Nat) (enable_crlf : Bool) (s : ScanState) : List Nat :=
  flatten_bits_slots s.base
    (classify_chunk buf enable_crlf s.idx s.prev_iter_inside_quote s.prev_iter_cr_end).1

/-- The slots the tail loop stores into, in order. -/
def tail_loop_slots (undef : Nat) (buf : Nat → Nat) (enable_crlf : Bool) (lenminus64 : Nat) :
    Nat → ScanState → List Nat
  | 0, _ => []
  | fuel + 1, s =>
    if s.idx < lenminus64 then
      tail_body_slots buf enable_crlf s ++
        tail_loop_slots undef buf enable_crlf lenminus64 fuel (tail_body undef buf enable_crlf s)
    else []

/-- The slots one iteration of the buffered loop stores into: those of its `G` calls of
`flatten_bits`, in order. -/
def buffered_body_slots (undef G : Nat) (buf : Nat → Nat) (enable_crlf : Bool)
    (s : ScanState) : List Nat :=
  let c := (List.range G).foldl
    (fun (acc : (Nat → Nat) × Nat × Nat) b =>
      let internal_idx := 64 * b + s.idx
      let r := classify_chunk buf enable_crlf internal_idx acc.2.1 acc.2.2
      (store acc.1 b r.1, r.2.1, r.2.2))
    (fun _ => 0, s.prev_iter_inside_quote, s.prev_iter_cr_end)
  let fields := c.1
  ((List.range G).foldl
    (fun (acc : ((Nat → Nat) × Nat) × List Nat) b =>
      let internal_idx := 64 * b + s.idx
      (flatten_bits undef acc.1.1 acc.1.2 (internal_idx % 2 ^ 32) (fields b),
       acc.2 ++ flatten_bits_slots acc.1.2 (fields b)))
    ((s.base_ptr, s.base), [])).2

/-- The slots the buffered loop stores into, in order. -/
def buffered_loop_slots (undef G : Nat) (buf : Nat → Nat) (enable_crlf : Bool)
    (lenminus64 : Nat) : Nat → ScanState → List Nat
  | 0, _ => []
  | fuel + 1, s =>
    if s.idx < lenminus64 - 64 * G + 1 then
      buffered_body_slots undef G buf enable_crlf s ++
        buffered_loop_slots undef G buf enable_crlf lenminus64 fuel
          (buffered_body undef G buf enable_crlf s)
    else []

/-- Every slot of `pcsv->indexes` that `find_indexes`, with group depth `G`, stores into,
in the order of the stores. -/
def find_indexes_slots_with (G undef : Nat) (buf : Nat → Nat) (len : Nat) (pcsv : ParsedCSV)
    (enable_crlf : Bool) : List Nat :=
  let lenminus64 := if len < 64 then 0 else len - 64
  let s := initial_state pcsv
  let w :=
    if lenminus64 > 64 * G then buffered_loop_slots undef G buf enable_crlf lenminus64 len s
    else []
  let s :=
    if lenminus64 > 64 * G then buffered_loop undef G buf enable_crlf lenminus64 len s
    else s
  w ++ tail_loop_slots undef buf enable_crlf lenminus64 len s

/-- Every slot of `pcsv->indexes` that `find_indexes` stores into. -/
def find_indexes_slots (undef : Nat) (buf : Nat → Nat) (len : Nat) (pcsv : ParsedCSV)
    (enable_crlf : Bool) : List Nat :=
  find_indexes_slots_with SIMDCSV_BUFFERSIZE undef buf len pcsv enable_crlf

/-- The slots that `n` consecutive iterations of the tail loop store into, from the state
`s` on. -/
def iterate_slots (undef : Nat) (buf : Nat → Nat) (enable_crlf : Bool) :
    Nat → ScanState → List Nat
  | 0, _ => []
  | n + 1, s =>
    tail_body_slots buf enable_crlf s ++
      iterate_slots undef buf enable_crlf n (tail_body undef buf enable_crlf s)

end Baseops

namespace Runtime

open Baseops

/-! # The partitioned reducer of `ker_runner.c` and `ker_lib.c`

Conventions of the embedding.

* The mapped file, seen through an `int32_t *`, is a function `Nat → Int` from element
  number to element; `int32_t`, `int64_t` and `int` values are integers.
* `size_t` values are natural numbers, with an explicit `% 2 ^ 64` after every operation
  that can leave the range.
* `reduce` and `kernel` are embedded with the two constants of `reduce`, `num_parts = 48`
  and `part_len_c0 = 1464781690`, as parameters; `kernel` uses the same worker count in its
  three loops.
* The worker threads of `kernel` read the same read-only array and each writes only the
  `ret` field of its own `struct Args`, which `kernel` reads after joining all of them; the
  embedding runs `reduce` once per `struct Args` and records the calls that create and join
  the threads.
* The sum `kernel` returns and the calls after its first `pthread_create` describe the runs
  in which `mmap` returned a mapping. When `mmap` returns `MAP_FAILED` the workers read
  through an invalid pointer, and of such a run the embedding describes only the calls up
  to and including the first `pthread_create`.
-/

/-- The worker count `num_parts` of `reduce`, also the bound of the loops of `kernel`. -/
def NUM_PARTS : Nat := 48

/-- The element count `part_len_c0` of `reduce` in `ker_runner.c`. -/
def PART_LEN_C0 : Nat := 1464781690

/-- The C `struct Args`. -/
structure Args where
  part_raw_c0 : Nat → Int
  id : Int
  ret : Int

/-- The value `span = part_len_c0 / num_parts` of `reduce`, a `size_t` division. -/
def span (num_parts : Int) (part_len_c0 : Nat) : Nat :=
  part_len_c0 / toUInt64 num_parts

/-- The element number `id * span` at which the block of worker `id` starts: the offset of
`blk_c0 = part_raw_c0 + id * span`, a `size_t` product. -/
def blk_start (num_parts : Int) (part_len_c0 : Nat) (id : Int) : Nat :=
  (toUInt64 id * span num_parts part_len_c0) % 2 ^ 64

/-- The value `blk_len_c0 = id == num_parts - 1 ? (part_len_c0 - id * span) : span`. -/
def blk_len (num_parts : Int) (part_len_c0 : Nat) (id : Int) : Nat :=
  if id = num_parts - 1 then
    (part_len_c0 + 2 ^ 64 - blk_start num_parts part_len_c0 id) % 2 ^ 64
  else span num_parts part_len_c0

/-- The function `reduce(args)` for the given constants: returns `*args` after the call.
The accumulator `s` is a `size_t`; each `int32_t` element is converted to `size_t` before
it is added, and `s` is converted to `int64_t` when it is stored into `ret`. -/
def reduce_with (num_parts : Int) (part_len_c0 : Nat) (a : Args) : Args :=
  let id := a.id
  let part_raw_c0 := a.part_raw_c0
  let blk_len_c0 := blk_len num_parts part_len_c0 id
  let blk_c0 := fun i => part_raw_c0 (blk_start num_parts part_len_c0 id + i)
  let s := (List.range blk_len_c0).foldl
    (fun (s : Nat) i =>
      let c0 := blk_c0 i
      (s + toUInt64 c0) % 2 ^ 64)
    0
  { a with ret := toInt64 s }

/-- The function `reduce` of `ker_runner.c`. -/
def reduce (a : Args) : Args := reduce_with NUM_PARTS PART_LEN_C0 a

/-- What the operating system answers to the calls `ker_scan` makes for its path. -/
structure FileView where
  /-- The value `stat` returns. -/
  status : Int
  /-- The field `fbuf.st_size` after the call of `stat`; when `stat` fails this is
  whatever the uninitialised `struct stat` holds. -/
  st_size : Nat
  /-- The value `open` returns. -/
  fd : Int
  /-- The `int32_t` elements seen through the pointer `mmap` returns, when it returns a
  mapping. -/
  data : Nat → Int

/-- The calls with an effect outside the process that `ker_scan` and `kernel` make. -/
inductive Event where
  | stat
  | printf_status (status : Int)
  | perror
  | open_file
  | mmap (flen : Nat) (fd : Int)
  | pthread_create (i : Nat)
  | pthread_join (i : Nat)
  deriving DecidableEq

/-- The function `ker_scan(data_out, fpath)`: returns the calls it makes, in order, and the
array left in `*data_out`. It has no return value and no other output. -/
def ker_scan (f : FileView) : List Event × (Nat → Int) :=
  let status := f.status
  let log := [Event.stat]
  let log := if status < 0 then log ++ [Event.printf_status status, Event.perror] else log
  let flen := f.st_size
  let fd := f.fd
  let log := log ++ [Event.open_file]
  let log := log ++ [Event.mmap flen fd]
  (log, f.data)

/-- Two's complement wrap of an integer into the `int64_t` range. -/
def wrapInt64 (x : Int) : Int := toInt64 (toUInt64 x)

/-- The function `kernel()` for the given constants: returns the calls made, in order, and
the returned sum. The `int64_t` additions of the last loop wrap. -/
def kernel_with (num_parts : Nat) (part_len_c0 : Nat) (f : FileView) : List Event × Int :=
  let r := ker_scan f
  let blk_raw_c0 := r.2
  let s : Nat → Args := fun i =>
    { part_raw_c0 := blk_raw_c0, id := toInt32 i, ret := 0 }
  let log := r.1 ++ (List.range num_parts).map Event.pthread_create
  let s : Nat → Args := fun i => reduce_with num_parts part_len_c0 (s i)
  let log := log ++ (List.range num_parts).map Event.pthread_join
  let sum := (List.range num_parts).foldl (fun (sum : Int) i => wrapInt64 (sum + (s i).ret)) 0
  (log, sum)

/-- The function `kernel` of `ker_runner.c`. -/
def kernel (f : FileView) : List Event × Int := kernel_with NUM_PARTS PART_LEN_C0 f

/-! ## Reference notions for the reducer -/

/-- The exact sum `a[start] + ... + a[start + n - 1]`, as an integer. -/
def rangeSum (a : Nat → Int) (start : Nat) : Nat → Int
  | 0 => 0
  | n + 1 => rangeSum a start n + a (start + n)

/-- One naive left-to-right pass over `a[0..total)` with an `int64_t` accumulator. -/
def naive_sum (a : Nat → Int) (total : Nat) : Int :=
  (List.range total).foldl (fun (acc : Int) i => wrapInt64 (acc + a i)) 0

/-- The array that holds the elements of `l` from element 0 on, followed by zeros. -/
def arrayOfList (l : List Int) : Nat → Int := fun i => l.getD i 0

/-- A mapped file of four elements, `1, -2, 3, 4`. -/
def sampleFile : FileView :=
  { status := 0, st_size := 16, fd := 3, data := arrayOfList [1, -2, 3, 4] }

/-! # The compress test of `basic_check_c_lib.h`

An `int64_t` array is a function `Nat → Int` from element number to element; the arrays `A`
and `B` of `test_compress_intri` are distinct. A `__m512i` register is seen as its 8 lanes
of 64 bits (lane `k` is element `k` in memory order), a `__mmask8` as a number below 256.
The cursor `j` counts stored elements, never more than `SIZE`, and is a natural number.
-/

/-- The array length `#define SIZE 1024`. -/
def SIZE : Nat := 1024

/-- A 512-bit register as 8 lanes of `int64_t`. -/
abbrev m512i := Nat → Int

/-- `_mm512_set1_epi64(x)`: every lane holds `x`. -/
def mm512_set1_epi64 (x : Int) : m512i := fun _ => x

/-- `_mm512_load_epi64(&A[i])`: the 8 elements from `A[i]` on. -/
def mm512_load_epi64 (A : Nat → Int) (i : Nat) : m512i := fun k => A (i + k)

/-- `_mm512_cmpgt_epi64_mask(a, b)`: bit `k` of the mask is set iff lane `k` of `a` is
greater than lane `k` of `b`, as signed numbers. -/
def mm512_cmpgt_epi64_mask (a b : m512i) : Nat :=
  maskOfLanes (fun k => decide (a k > b k)) 8

/-- `_mm512_mask2int(mask)`: the mask as an `int`. -/
def mm512_mask2int (mask : Nat) : Int := (mask : Int)

/-- `__builtin_popcount(x)`: the number of set bits of the `unsigned int` that `x` converts
to. -/
def builtin_popcount (x : Int) : Nat := popcount 32 (toUInt32 x)

/-- A store `B[k] = v` into an `int64_t` array. -/
def store64 (B : Nat → Int) (k : Nat) (v : Int) : Nat → Int :=
  fun s => if s = k then v else B s

/-- `_mm512_mask_compressstoreu_epi64(&B[j], mask, a)`: the lanes of `a` whose mask bit is
set are stored one after the other from `B[j]` on, in lane order; nothing else is stored. -/
def mm512_mask_compressstoreu_epi64 (B : Nat → Int) (j : Nat) (mask : Nat) (a : m512i) :
    Nat → Int :=
  ((List.range 8).foldl
    (fun (acc : (Nat → Int) × Nat) k =>
      if mask.testBit k then (store64 acc.1 (j + acc.2) (a k), acc.2 + 1) else acc)
    (B, 0)).1

/-- One iteration of the loop of `test_compress_intri`, at index `i`, on `B` and `j`. -/
def compress_body (A : Nat → Int) (i : Nat) (st : (Nat → Int) × Nat) : (Nat → Int) × Nat :=
  let thr := mm512_set1_epi64 255
  let vin := mm512_load_epi64 A i
  let mask := mm512_cmpgt_epi64_mask vin thr
  let B := mm512_mask_compressstoreu_epi64 st.1 st.2 mask vin
  (B, st.2 + builtin_popcount (mm512_mask2int mask))

/-- The loop `for (int i = 0; i < SIZE; i += 8)` of `test_compress_intri`; `fuel` bounds the
number of iterations. -/
def compress_loop (A : Nat → Int) : Nat → Nat → (Nat → Int) × Nat → (Nat → Int) × Nat
  | 0, _, st => st
  | fuel + 1, i, st =>
    if i < SIZE then compress_loop A fuel (i + 8) (compress_body A i st) else st

/-- The function `test_compress_intri(A, B)`: returns the array `B` after the call and the
returned count `j`. The loop gets `SIZE` iterations of fuel. -/
def test_compress_intri (A B : Nat → Int) : (Nat → Int) × Int :=
  let r := compress_loop A SIZE 0 (B, 0)
  (r.1, (r.2 : Int))

/-- The scalar filter loop `if (a[i] > 255) b[j++] = a[i]` over the first `n` elements:
returns the array `b` and the count `j`. This is the loop of the scalar reference
`test_compress` that `basic_check_c_src.c` keeps in a comment, for `n = SIZE`. -/
def test_compress_loop (a : Nat → Int) (n : Nat) (b : Nat → Int) : (Nat → Int) × Nat :=
  (List.range n).foldl
    (fun (acc : (Nat → Int) × Nat) i =>
      if a i > 255 then (store64 acc.1 acc.2 (a i), acc.2 + 1) else acc)
    (b, 0)

/-- The array `a` that `main` of `basic_check_c_src.c` fills: 256 at every index that is a
multiple of 3 and 0 elsewhere. -/
def testArray : Nat → Int := fun i => if i % 3 = 0 then 256 else 0

end Runtime

/-! # Theorems -/

namespace Baseops

theorem toUInt32_toInt32 (M : Nat) (h : M < 2 ^ 32) : toUInt32 (toInt32 M) = M := by
  unfold toUInt32 toInt32
  split <;> omega

theorem toUInt64_toInt32 (M : Nat) (h : M < 2 ^ 32) :
    toUInt64 (toInt32 M) = if M < 2 ^ 31 then M else M + (2 ^ 64 - 2 ^ 32) := by
  unfold toUInt64 toInt32
  split <;> split <;> omega

theorem toUInt64_toInt64 (M : Nat) (h : M < 2 ^ 64) : toUInt64 (toInt64 M) = M := by
  unfold toUInt64 toInt64
  split <;> omega

theorem testBit_maskOfLanes (f : Nat → Bool) (n i : Nat) :
    (maskOfLanes f n).testBit i = (decide (i < n) && f i) := by
  induction n with
  | zero => simp [maskOfLanes]
  | succ n ih =>
    simp only [maskOfLanes, Nat.testBit_or, ih]
    by_cases hf : f n
    · simp only [hf, if_true, Nat.testBit_two_pow]
      by_cases h : n = i
      · subst h; simp [hf]
      · have : (decide (i < n + 1)) = decide (i < n) := by
          simp only [decide_eq_decide]; omega
        simp [h, this]
    · simp only [hf, Bool.false_eq_true, if_false, Nat.zero_testBit, Bool.or_false]
      by_cases h : n = i
      · subst h; simp [hf]
      · have : (decide (i < n + 1)) = decide (i < n) := by
          simp only [decide_eq_decide]; omega
        simp [this]

theorem maskOfLanes_lt (f : Nat → Bool) (n : Nat) : maskOfLanes f n < 2 ^ n := by
  apply Nat.lt_pow_two_of_testBit
  intro i hi
  rw [testBit_maskOfLanes]
  simp; intro h; omega

/-- The top bit of a lane of a byte comparison tells whether the bytes were equal. -/
theorem cmpeq_top_bit (a : m256i) (m i : Nat) :
    ((mm256_cmpeq_epi8 a (mm256_set1_epi8 m)) i).testBit 7 = decide (a i = m) := by
  unfold mm256_cmpeq_epi8 mm256_set1_epi8
  by_cases h : a i = m
  · simp [h]; decide
  · simp [h]

/-- The sign-extended high movemask, shifted left by 32 in 64-bit arithmetic, is the
movemask shifted left by 32: the extension bits fall off. -/
theorem widen_shift (M : Nat) (h : M < 2 ^ 32) :
    (toUInt64 (toInt32 M) <<< 32) % 2 ^ 64 = M <<< 32 := by
  rw [toUInt64_toInt32 M h, Nat.shiftLeft_eq, Nat.shiftLeft_eq]
  split <;> omega

/-- Bit `i` of `cmp_mask_against_input` tells whether byte `i` of the window is `m`. -/
theorem testBit_cmp_mask (inp : simd_input) (m i : Nat) :
    (cmp_mask_against_input inp m).testBit i =
      if i < 32 then decide (inp.lo i = m)
      else if i < 64 then decide (inp.hi (i - 32) = m) else false := by
  unfold cmp_mask_against_input mm256_movemask_epi8
  simp only []
  rw [toUInt32_toInt32 _ (maskOfLanes_lt _ 32), widen_shift _ (maskOfLanes_lt _ 32),
    Nat.testBit_or, Nat.testBit_shiftLeft, testBit_maskOfLanes, testBit_maskOfLanes]
  simp only [cmpeq_top_bit]
  by_cases h1 : i < 32
  · have h2 : ¬ i ≥ 32 := by omega
    simp [h1, h2]
  · by_cases h3 : i < 64
    · have h2 : i ≥ 32 := by omega
      have h4 : i - 32 < 32 := by omega
      simp [h1, h2, h3, h4]
    · have h2 : i ≥ 32 := by omega
      have h4 : ¬ i - 32 < 32 := by omega
      simp [h1, h2, h3, h4]

theorem cmp_mask_lt (inp : simd_input) (m : Nat) : cmp_mask_against_input inp m < 2 ^ 64 := by
  apply Nat.lt_pow_two_of_testBit
  intro i hi
  rw [testBit_cmp_mask]
  have h1 : ¬ i < 32 := by omega
  have h2 : ¬ i < 64 := by omega
  simp [h1, h2]

/-- Bit `i` of the comparison mask of the chunk loaded at `idx`. -/
theorem testBit_cmp_chunk (buf : Nat → Nat) (idx m i : Nat) :
    (cmp_mask_against_input
      { lo := mm256_loadu_si256 buf (idx + 0), hi := mm256_loadu_si256 buf (idx + 32) } m).testBit i
      = (decide (i < 64) && decide (buf (idx + i) = m)) := by
  rw [testBit_cmp_mask]
  unfold mm256_loadu_si256
  by_cases h1 : i < 32
  · have : i < 64 := by omega
    simp [h1, this]
  · by_cases h3 : i < 64
    · have : idx + 32 + (i - 32) = idx + i := by omega
      simp [h1, h3, this]
    · simp [h1, h3]

theorem testBit_clmul (a b n i : Nat) :
    (clmul a b n).testBit i =
      prefixXor (fun j => a.testBit j && (decide (j ≤ i) && b.testBit (i - j))) n := by
  induction n with
  | zero => simp [clmul, prefixXor]
  | succ n ih =>
    simp only [clmul, prefixXor, Nat.testBit_xor, ih]
    congr 1
    by_cases h : a.testBit n
    · simp [h, Nat.testBit_shiftLeft]
    · simp [h]

theorem prefixXor_congr (f g : Nat → Bool) (n : Nat) (h : ∀ j, j < n → f j = g j) :
    prefixXor f n = prefixXor g n := by
  induction n with
  | zero => rfl
  | succ n ih =>
    simp only [prefixXor]
    rw [ih (fun j hj => h j (by omega)), h n (by omega)]

theorem prefixXor_false (f : Nat → Bool) (n m : Nat) (h : ∀ j, n ≤ j → f j = false) :
    prefixXor f (n + m) = prefixXor f n := by
  induction m with
  | zero => rfl
  | succ m ih =>
    rw [← Nat.add_assoc]
    simp only [prefixXor]
    rw [ih, h (n + m) (by omega)]
    simp

theorem prefixXor_stop (f : Nat → Bool) (n N : Nat) (hle : n ≤ N)
    (h : ∀ j, n ≤ j → f j = false) : prefixXor f N = prefixXor f n := by
  have := prefixXor_false f n (N - n) h
  rwa [Nat.add_sub_cancel' hle] at this

/-- Bit `i` of the low 64 bits of the carry-less product by the all-ones constant is the
exclusive or of the bits `0, ..., i` of the other factor. -/
theorem testBit_clmul_ones (a i : Nat) (hi : i < 64) :
    (clmul a (2 ^ 64 - 1) 64).testBit i = prefixXor a.testBit (i + 1) := by
  rw [testBit_clmul, prefixXor_stop _ (i + 1) 64 (by omega)]
  · apply prefixXor_congr
    intro j hj
    have h1 : j ≤ i := by omega
    have h2 : i - j < 64 := by omega
    rw [Nat.testBit_two_pow_sub_one]
    simp [h1, h2]
  · intro j hj
    have h1 : ¬ j ≤ i := by omega
    simp [h1]

theorem sar63 (q : Nat) (h : q < 2 ^ 64) :
    toUInt64 (toInt64 q >>> (63 : Nat)) = if q.testBit 63 then 2 ^ 64 - 1 else 0 := by
  have hb : q.testBit 63 = decide (2 ^ 63 ≤ q) := by
    rw [Nat.testBit_to_div_mod]
    simp only [decide_eq_decide]
    omega
  rw [hb, Int.shiftRight_eq_div_pow]
  unfold toUInt64 toInt64
  by_cases h1 : 2 ^ 63 ≤ q
  · simp only [h1, decide_True, if_true]
    split <;> omega
  · simp only [h1, decide_False, Bool.false_eq_true, if_false]
    split <;> omega

theorem testBit_cmp_byte (inp : simd_input) (m i : Nat) :
    (cmp_mask_against_input inp m).testBit i = (decide (i < 64) && decide (inp.byte i = m)) := by
  rw [testBit_cmp_mask]
  unfold simd_input.byte
  by_cases h1 : i < 32
  · have : i < 64 := by omega
    simp [h1, this]
  · by_cases h3 : i < 64 <;> simp [h1, h3]

/-- The quote mask before the carried state is applied: the low 64 bits of the carry-less
product of the is-quote mask by all ones. -/
theorem quote_clmul_eq (qb : Nat) (h : qb < 2 ^ 64) :
    toUInt64 (mm_cvtsi128_si64
      (mm_clmulepi64_si128 (mm_set_epi64x 0 qb) (mm_set1_epi8 0xFF) 0))
      = clmul qb (2 ^ 64 - 1) 64 % 2 ^ 64 := by
  have h1 : mm_set_epi64x 0 qb = qb := by
    unfold mm_set_epi64x; omega
  have h2 : mm_set1_epi8 0xFF % 2 ^ 64 = 2 ^ 64 - 1 := by decide
  have h3 : qb % 2 ^ 64 = qb := Nat.mod_eq_of_lt h
  have h4 : Nat.testBit 0 0 = false := by decide
  have h5 : Nat.testBit 0 4 = false := by decide
  unfold mm_cvtsi128_si64 mm_clmulepi64_si128
  simp only [h1, h2, h3, h4, h5, Bool.false_eq_true, if_false]
  rw [toUInt64_toInt64 _ (Nat.mod_lt _ (by decide))]

theorem prefixXor_quotes (inp : simd_input) (n : Nat) :
    prefixXor (fun j => decide (inp.byte j = 0x22)) n = decide (chunkQuotes inp n % 2 = 1) := by
  induction n with
  | zero => simp [prefixXor, chunkQuotes]
  | succ n ih =>
    simp only [prefixXor, chunkQuotes, ih]
    by_cases h : inp.byte n = 0x22
    · by_cases h2 : chunkQuotes inp n % 2 = 1
      · have : ¬ (chunkQuotes inp n + 1) % 2 = 1 := by omega
        simp [h, h2, this]
      · have : (chunkQuotes inp n + 1) % 2 = 1 := by omega
        simp [h, h2, this]
    · simp [h]

theorem find_quote_mask_fst (inp : simd_input) (prev : Nat) :
    (find_quote_mask inp prev).1 =
      (clmul (cmp_mask_against_input inp 0x22) (2 ^ 64 - 1) 64 % 2 ^ 64) ^^^ prev := by
  unfold find_quote_mask
  simp only []
  rw [quote_clmul_eq _ (cmp_mask_lt inp _)]

theorem find_quote_mask_snd (inp : simd_input) (prev : Nat) :
    (find_quote_mask inp prev).2 =
      toUInt64 (toInt64 (find_quote_mask inp prev).1 >>> (63 : Nat)) := rfl

theorem find_quote_mask_lt (inp : simd_input) (prev : Nat) (hp : prev < 2 ^ 64) :
    (find_quote_mask inp prev).1 < 2 ^ 64 := by
  rw [find_quote_mask_fst]
  exact Nat.xor_lt_two_pow (Nat.mod_lt _ (by decide)) hp

/-- Bit `i` of the quote mask: the carried state, toggled once for every quote byte at the
window positions `0, ..., i`. -/
theorem testBit_find_quote_mask (inp : simd_input) (prev i : Nat) (hi : i < 64) :
    (find_quote_mask inp prev).1.testBit i =
      xor (decide (chunkQuotes inp (i + 1) % 2 = 1)) (prev.testBit i) := by
  rw [find_quote_mask_fst, Nat.testBit_xor, Nat.testBit_mod_two_pow, testBit_clmul_ones _ _ hi]
  have : prefixXor (cmp_mask_against_input inp 0x22).testBit (i + 1)
      = prefixXor (fun j => decide (inp.byte j = 0x22)) (i + 1) := by
    apply prefixXor_congr
    intro j hj
    have : j < 64 := by omega
    rw [testBit_cmp_byte]
    simp [this]
  rw [this, prefixXor_quotes]
  simp [hi]

theorem find_quote_mask_state (inp : simd_input) (prev : Nat) (hp : prev < 2 ^ 64) :
    (find_quote_mask inp prev).2 =
      if (find_quote_mask inp prev).1.testBit 63 then 2 ^ 64 - 1 else 0 := by
  rw [find_quote_mask_snd, sar63 _ (find_quote_mask_lt inp prev hp)]

/-! ## Lowest set bit, clearing it, and the population count -/

theorem ctz_spec (w : Nat) : ∀ bits : Nat, 0 < bits → bits < 2 ^ w →
    ctz w bits < w ∧ bits.testBit (ctz w bits) = true ∧
      ∀ j, j < ctz w bits → bits.testBit j = false := by
  induction w with
  | zero => intro bits h0 h1; simp at h1; omega
  | succ w ih =>
    intro bits h0 h1
    unfold ctz
    by_cases hodd : bits % 2 = 1
    · simp [hodd, Nat.testBit_zero]
    · simp only [hodd, if_false]
      have hk0 : 0 < bits / 2 := by omega
      have hk1 : bits / 2 < 2 ^ w := by rw [Nat.pow_succ] at h1; omega
      obtain ⟨a, b, c⟩ := ih (bits / 2) hk0 hk1
      refine ⟨by omega, ?_, ?_⟩
      · rw [Nat.add_comm, Nat.testBit_succ]; exact b
      · intro j hj
        cases j with
        | zero => simp [Nat.testBit_zero, hodd]
        | succ j => rw [Nat.testBit_succ]; exact c j (by omega)

theorem testBit_pred (w : Nat) : ∀ bits : Nat, 0 < bits → bits < 2 ^ w → ∀ i,
    (bits - 1).testBit i =
      if i < ctz w bits then true else if i = ctz w bits then false else bits.testBit i := by
  induction w with
  | zero => intro bits h0 h1; simp at h1; omega
  | succ w ih =>
    intro bits h0 h1 i
    unfold ctz
    by_cases hodd : bits % 2 = 1
    · simp only [hodd, if_true]
      cases i with
      | zero =>
        have : ¬ (bits - 1) % 2 = 1 := by omega
        simp [Nat.testBit_zero, this]
      | succ i =>
        have : (bits - 1) / 2 = bits / 2 := by omega
        simp [Nat.testBit_succ, this]
    · simp only [hodd, if_false]
      have hk0 : 0 < bits / 2 := by omega
      have hk1 : bits / 2 < 2 ^ w := by rw [Nat.pow_succ] at h1; omega
      cases i with
      | zero =>
        have : (bits - 1) % 2 = 1 := by omega
        simp [Nat.testBit_zero, this]
      | succ i =>
        have h2 : (bits - 1) / 2 = bits / 2 - 1 := by omega
        rw [Nat.testBit_succ, Nat.testBit_succ, h2, ih (bits / 2) hk0 hk1 i]
        have e1 : (i + 1 < 1 + ctz w (bits / 2)) ↔ (i < ctz w (bits / 2)) := by omega
        have e2 : (i + 1 = 1 + ctz w (bits / 2)) ↔ (i = ctz w (bits / 2)) := by omega
        simp only [e1, e2]

theorem clear_lowest_zero : clear_lowest 0 = 0 := by decide

theorem testBit_clear_lowest (bits : Nat) (h0 : 0 < bits) (h1 : bits < 2 ^ 64) (i : Nat) :
    (clear_lowest bits).testBit i = (bits.testBit i && decide (i ≠ ctz 64 bits)) := by
  have hm : (bits + 2 ^ 64 - 1) % 2 ^ 64 = bits - 1 := by omega
  unfold clear_lowest
  rw [hm, Nat.testBit_and, testBit_pred 64 bits h0 h1 i]
  obtain ⟨_, b, c⟩ := ctz_spec 64 bits h0 h1
  by_cases hlt : i < ctz 64 bits
  · simp [hlt, c i hlt]
  · by_cases heq : i = ctz 64 bits
    · subst heq; simp
    · simp [hlt, heq]

theorem clear_lowest_le (bits : Nat) : clear_lowest bits ≤ bits := Nat.and_le_left

theorem clear_lowest_lt (bits : Nat) (h1 : bits < 2 ^ 64) : clear_lowest bits < 2 ^ 64 :=
  Nat.lt_of_le_of_lt (clear_lowest_le bits) h1

theorem bitPositions_zero : bitPositions 0 = [] := by
  unfold bitPositions
  simp

theorem mem_bitPositions (bits i : Nat) :
    i ∈ bitPositions bits ↔ i < 64 ∧ bits.testBit i = true := by
  unfold bitPositions
  simp

theorem bitPositions_sorted (bits : Nat) : (bitPositions bits).Sorted (· < ·) := by
  unfold bitPositions
  exact List.Pairwise.filter _ (List.pairwise_lt_range 64)

/-- Two strictly ascending lists with the same members are equal. -/
theorem sorted_ext (l₁ l₂ : List Nat) (h₁ : l₁.Sorted (· < ·)) (h₂ : l₂.Sorted (· < ·))
    (h : ∀ x, x ∈ l₁ ↔ x ∈ l₂) : l₁ = l₂ :=
  List.eq_of_perm_of_sorted ((List.perm_ext_iff_of_nodup h₁.nodup h₂.nodup).2 h) h₁ h₂

/-- The lowest set bit is the head of the ascending list of set bits; clearing it leaves
the tail. -/
theorem bitPositions_cons (bits : Nat) (h0 : 0 < bits) (h1 : bits < 2 ^ 64) :
    bitPositions bits = ctz 64 bits :: bitPositions (clear_lowest bits) := by
  obtain ⟨a, b, c⟩ := ctz_spec 64 bits h0 h1
  apply sorted_ext _ _ (bitPositions_sorted bits)
  · rw [List.Sorted, List.pairwise_cons]
    refine ⟨?_, bitPositions_sorted _⟩
    intro x hx
    rw [mem_bitPositions, testBit_clear_lowest bits h0 h1] at hx
    simp only [Bool.and_eq_true, decide_eq_true_eq] at hx
    by_contra hlt
    have : x < ctz 64 bits := by omega
    have := c x this
    simp [this] at hx
  · intro x
    rw [List.mem_cons, mem_bitPositions, mem_bitPositions, testBit_clear_lowest bits h0 h1]
    simp only [Bool.and_eq_true, decide_eq_true_eq]
    constructor
    · intro ⟨hx, hb⟩
      by_cases hxe : x = ctz 64 bits
      · exact Or.inl hxe
      · exact Or.inr ⟨hx, hb, hxe⟩
    · rintro (hxe | ⟨hx, hb, _⟩)
      · subst hxe; exact ⟨a, b⟩
      · exact ⟨hx, hb⟩

theorem popcount_eq_length (w : Nat) : ∀ bits : Nat,
    popcount w bits = ((List.range w).filter (fun i => bits.testBit i)).length := by
  induction w with
  | zero => intro bits; simp [popcount]
  | succ w ih =>
    intro bits
    rw [popcount, ih (bits / 2), List.range_succ_eq_map, List.filter_cons, List.filter_map,
      Nat.testBit_zero]
    have hc : ((fun i => bits.testBit i) ∘ Nat.succ) = (fun i => (bits / 2).testBit i) := by
      funext i
      simp [Function.comp, Nat.testBit_succ]
    rw [hc]
    by_cases hodd : bits % 2 = 1
    · simp [hodd]; omega
    · have : bits % 2 = 0 := by omega
      simp [this]

theorem hamming_eq_length (bits : Nat) : hamming bits = (bitPositions bits).length :=
  popcount_eq_length 64 bits

theorem bitPositions_length_le (bits : Nat) : (bitPositions bits).length ≤ 64 := by
  unfold bitPositions
  exact (List.length_filter_le _ _).trans (by simp)

theorem bitPositions_lt (bits i : Nat) (h : i ∈ bitPositions bits) : i < 64 :=
  ((mem_bitPositions bits i).1 h).1

theorem bitPositions_eq_nil (bits : Nat) (h1 : bits < 2 ^ 64) (h : bitPositions bits = []) :
    bits = 0 := by
  by_contra hne
  have := bitPositions_cons bits (Nat.pos_of_ne_zero hne) h1
  rw [h] at this
  exact List.noConfusion this

/-- The mask left after `k` rounds of clearing the lowest set bit. -/
theorem bitPositions_iterate (k : Nat) : ∀ bits : Nat, bits < 2 ^ 64 →
    clear_lowest^[k] bits < 2 ^ 64 ∧
    bitPositions (clear_lowest^[k] bits) = (bitPositions bits).drop k := by
  induction k with
  | zero => intro bits h; exact ⟨h, rfl⟩
  | succ k ih =>
    intro bits h1
    rw [Function.iterate_succ_apply]
    by_cases h0 : bits = 0
    · subst h0
      rw [clear_lowest_zero]
      have := ih 0 (by decide)
      refine ⟨this.1, ?_⟩
      rw [this.2, bitPositions_zero]; simp
    · have hc := bitPositions_cons bits (Nat.pos_of_ne_zero h0) h1
      have := ih (clear_lowest bits) (clear_lowest_lt bits h1)
      refine ⟨this.1, ?_⟩
      rw [this.2, hc, List.drop_succ_cons]

/-- While fewer than `popcount` bits have been cleared, `trailingzeroes` of the remaining
mask is the next entry of the ascending list of set bits. -/
theorem trailingzeroes_iterate (undef k bits : Nat) (h1 : bits < 2 ^ 64)
    (hk : k < (bitPositions bits).length) :
    trailingzeroes undef (clear_lowest^[k] bits) = (bitPositions bits).get ⟨k, hk⟩ := by
  obtain ⟨hlt, hd⟩ := bitPositions_iterate k bits h1
  have hne : clear_lowest^[k] bits ≠ 0 := by
    intro h0
    rw [h0, bitPositions_zero] at hd
    have := congrArg List.length hd
    simp at this
    omega
  unfold trailingzeroes
  rw [if_neg hne]
  have hc := bitPositions_cons _ (Nat.pos_of_ne_zero hne) hlt
  rw [hd] at hc
  have : ((bitPositions bits).drop k).head? = some (ctz 64 (clear_lowest^[k] bits)) := by
    rw [hc]; rfl
  rw [List.head?_drop] at this
  rw [List.get_eq_getElem]
  rw [List.getElem?_eq_getElem hk] at this
  exact (Option.some.inj this).symm

theorem iterate_clear_zero (k bits : Nat) (h1 : bits < 2 ^ 64)
    (hk : (bitPositions bits).length ≤ k) : clear_lowest^[k] bits = 0 := by
  obtain ⟨hlt, hd⟩ := bitPositions_iterate k bits h1
  apply bitPositions_eq_nil _ hlt
  rw [hd, List.drop_eq_nil_iff]
  exact hk

theorem iterate_clear_ne_zero (k bits : Nat) (h1 : bits < 2 ^ 64)
    (hk : k < (bitPositions bits).length) : clear_lowest^[k] bits ≠ 0 := by
  obtain ⟨hlt, hd⟩ := bitPositions_iterate k bits h1
  intro h0
  rw [h0, bitPositions_zero] at hd
  have := congrArg List.length hd
  simp at this
  omega

/-! ## `flatten_bits` -/

theorem flatten_run_snd (undef base idx : Nat) (n : Nat) : ∀ (k : Nat) (st : (Nat → Nat) × Nat),
    (flatten_run undef base idx k n st).2 = clear_lowest^[n] st.2 := by
  induction n with
  | zero => intro k st; rfl
  | succ n ih =>
    intro k st
    rw [flatten_run, ih, Function.iterate_succ_apply]
    rfl

theorem store_eq (m : Nat → Nat) (k v : Nat) : store m k v k = v := by
  simp [store]

theorem store_ne (m : Nat → Nat) (k v s : Nat) (h : s ≠ k) : store m k v s = m s := by
  simp [store, h]

theorem flatten_store_fst (undef base idx k : Nat) (st : (Nat → Nat) × Nat)
    (h : base + k < 2 ^ 32) :
    (flatten_store undef base idx k st).1 =
      store st.1 (base + k) ((idx + trailingzeroes undef st.2) % 2 ^ 32) := by
  unfold flatten_store
  rw [Nat.mod_eq_of_lt h]

theorem flatten_store_snd (undef base idx k : Nat) (st : (Nat → Nat) × Nat) :
    (flatten_store undef base idx k st).2 = clear_lowest st.2 := rfl

theorem flatten_run_fst (undef base idx : Nat) (n : Nat) :
    ∀ (k : Nat) (st : (Nat → Nat) × Nat), base + k + n ≤ 2 ^ 32 → ∀ s,
    (flatten_run undef base idx k n st).1 s =
      if base + k ≤ s ∧ s < base + k + n then
        (idx + trailingzeroes undef (clear_lowest^[s - (base + k)] st.2)) % 2 ^ 32
      else st.1 s := by
  induction n with
  | zero =>
    intro k st _ s
    have : ¬ (base + k ≤ s ∧ s < base + k + 0) := by omega
    rw [if_neg this]; rfl
  | succ n ih =>
    intro k st hle s
    rw [flatten_run, ih (k + 1) _ (by omega) s]
    rw [flatten_store_fst undef base idx k st (by omega), flatten_store_snd]
    by_cases h1 : base + (k + 1) ≤ s ∧ s < base + (k + 1) + n
    · have h2 : base + k ≤ s ∧ s < base + k + (n + 1) := by omega
      rw [if_pos h1, if_pos h2]
      have : s - (base + k) = (s - (base + (k + 1))) + 1 := by omega
      rw [this, Function.iterate_succ_apply]
    · rw [if_neg h1]
      by_cases h3 : s = base + k
      · have h2 : base + k ≤ s ∧ s < base + k + (n + 1) := by omega
        rw [if_pos h2]
        subst h3
        rw [store_eq, Nat.sub_self]
        rfl
      · have h2 : ¬ (base + k ≤ s ∧ s < base + k + (n + 1)) := by omega
        rw [if_neg h2, store_ne _ _ _ _ h3]

theorem flatten_run_add (undef base idx : Nat) (n m : Nat) :
    ∀ (k : Nat) (st : (Nat → Nat) × Nat),
    flatten_run undef base idx (k + n) m (flatten_run undef base idx k n st)
      = flatten_run undef base idx k (n + m) st := by
  induction n with
  | zero => intro k st; simp [flatten_run]
  | succ n ih =>
    intro k st
    have e1 : k + (n + 1) = (k + 1) + n := by omega
    have e2 : n + 1 + m = (n + m) + 1 := by omega
    rw [e1, e2, flatten_run, flatten_run, ih]

/-- The `do ... while` loop of `flatten_bits`, entered with a non-zero mask and enough
fuel, stores one entry per set bit and leaves by its own exit test, with `bits = 0`. -/
theorem flatten_loop_spec (undef idx : Nat) (fuel : Nat) :
    ∀ (m : Nat → Nat) (base bits : Nat), 0 < bits → bits < 2 ^ 64 →
    (bitPositions bits).length ≤ fuel → base + (bitPositions bits).length ≤ 2 ^ 32 →
    (flatten_loop undef idx fuel (m, base, bits)).2.2 = 0 ∧
    ∀ s, (flatten_loop undef idx fuel (m, base, bits)).1 s =
      if base ≤ s ∧ s < base + (bitPositions bits).length then
        (idx + trailingzeroes undef (clear_lowest^[s - base] bits)) % 2 ^ 32
      else m s := by
  induction fuel with
  | zero =>
    intro m base bits h0 h1 hf _
    have := bitPositions_cons bits h0 h1
    rw [this] at hf
    simp at hf
  | succ fuel ih =>
    intro m base bits h0 h1 hf hb
    have hc := bitPositions_cons bits h0 h1
    have hlen : (bitPositions bits).length = (bitPositions (clear_lowest bits)).length + 1 := by
      rw [hc]; simp
    rw [flatten_loop]
    by_cases hz : clear_lowest bits = 0
    · have hl0 : (bitPositions (clear_lowest bits)).length = 0 := by
        rw [hz, bitPositions_zero]; rfl
      simp only [hz, ne_eq, not_true_eq_false, if_false, true_and]
      intro s
      by_cases hs : s = base
      · have h2 : base ≤ s ∧ s < base + (bitPositions bits).length := by omega
        rw [if_pos h2]
        subst hs
        rw [store_eq, Nat.sub_self]
        rfl
      · have h2 : ¬ (base ≤ s ∧ s < base + (bitPositions bits).length) := by omega
        rw [if_neg h2, store_ne _ _ _ _ hs]
    · have hpos : 0 < clear_lowest bits := Nat.pos_of_ne_zero hz
      have hl1 : 0 < (bitPositions (clear_lowest bits)).length := by
        have := bitPositions_cons _ hpos (clear_lowest_lt bits h1)
        rw [this]; simp
      have hmod : (base + 1) % 2 ^ 32 = base + 1 := Nat.mod_eq_of_lt (by omega)
      simp only [ne_eq, hz, not_false_eq_true, if_true, hmod]
      obtain ⟨e, f⟩ := ih (store m base ((idx + trailingzeroes undef bits) % 2 ^ 32)) (base + 1)
        (clear_lowest bits) hpos (clear_lowest_lt bits h1) (by omega) (by omega)
      refine ⟨e, ?_⟩
      intro s
      rw [f s]
      by_cases h3 : base + 1 ≤ s ∧ s < base + 1 + (bitPositions (clear_lowest bits)).length
      · have h2 : base ≤ s ∧ s < base + (bitPositions bits).length := by omega
        rw [if_pos h3, if_pos h2]
        have : s - base = (s - (base + 1)) + 1 := by omega
        rw [this, Function.iterate_succ_apply]
      · rw [if_neg h3]
        by_cases hs : s = base
        · have h2 : base ≤ s ∧ s < base + (bitPositions bits).length := by omega
          rw [if_pos h2]
          subst hs
          simp [store]
        · have h2 : ¬ (base ≤ s ∧ s < base + (bitPositions bits).length) := by omega
          rw [if_neg h2]
          simp [store, hs]

theorem flatten_bits_unroll (undef : Nat) (base_ptr : Nat → Nat) (base idx bits : Nat)
    (h : bits ≠ 0) :
    flatten_bits undef base_ptr base idx bits =
      (if hamming bits > 16 then
          (flatten_loop undef idx 64
            ((flatten_run undef base idx 0 16 (base_ptr, bits)).1, (base + 16) % 2 ^ 32,
             (flatten_run undef base idx 0 16 (base_ptr, bits)).2)).1
        else if hamming bits > 8 then (flatten_run undef base idx 0 16 (base_ptr, bits)).1
        else (flatten_run undef base idx 0 8 (base_ptr, bits)).1,
       (base + hamming bits) % 2 ^ 32) := by
  have e8 : ∀ st, flatten_store undef base idx 7 (flatten_store undef base idx 6
      (flatten_store undef base idx 5 (flatten_store undef base idx 4
      (flatten_store undef base idx 3 (flatten_store undef base idx 2
      (flatten_store undef base idx 1 (flatten_store undef base idx 0 st)))))))
      = flatten_run undef base idx 0 8 st := fun _ => rfl
  have e16 : ∀ st, flatten_store undef base idx 15 (flatten_store undef base idx 14
      (flatten_store undef base idx 13 (flatten_store undef base idx 12
      (flatten_store undef base idx 11 (flatten_store undef base idx 10
      (flatten_store undef base idx 9 (flatten_store undef base idx 8 st)))))))
      = flatten_run undef base idx 8 8 st := fun _ => rfl
  unfold flatten_bits
  simp only [h, ne_eq, not_false_eq_true, if_true, e8, e16]
  by_cases h16 : hamming bits > 16
  · have h8 : hamming bits > 8 := by omega
    simp only [h16, h8, if_true]
    rw [← flatten_run_add undef base idx 8 8 0]
  · by_cases h8 : hamming bits > 8
    · simp only [h16, h8, if_true, if_false]
      rw [← flatten_run_add undef base idx 8 8 0]
    · simp only [h16, h8, if_false]

/-- Every slot of the array after `flatten_bits` on a non-zero mask, when the cursor is at
least 64 slots away from the end of the 32-bit range: slot `base + j` holds the value
computed from the mask after `j` clearings, for `j` below `flatten_span`, and every other
slot is unchanged. -/
theorem flatten_bits_mem (undef : Nat) (m : Nat → Nat) (base idx bits : Nat)
    (h0 : bits ≠ 0) (h1 : bits < 2 ^ 64) (hbase : base + 64 ≤ 2 ^ 32) (s : Nat) :
    (flatten_bits undef m base idx bits).1 s =
      if base ≤ s ∧ s < base + flatten_span (bitPositions bits).length then
        (idx + trailingzeroes undef (clear_lowest^[s - base] bits)) % 2 ^ 32
      else m s := by
  have hlen := bitPositions_length_le bits
  rw [flatten_bits_unroll undef m base idx bits h0, hamming_eq_length]
  unfold flatten_span
  by_cases h16 : (bitPositions bits).length > 16
  · have n8 : ¬ (bitPositions bits).length ≤ 8 := by omega
    have n16 : ¬ (bitPositions bits).length ≤ 16 := by omega
    simp only [h16, if_true, n8, n16, if_false]
    have hmod : (base + 16) % 2 ^ 32 = base + 16 := Nat.mod_eq_of_lt (by omega)
    rw [hmod, flatten_run_snd]
    obtain ⟨hlt, hd⟩ := bitPositions_iterate 16 bits h1
    have hne := iterate_clear_ne_zero 16 bits h1 h16
    have hl : (bitPositions (clear_lowest^[16] bits)).length = (bitPositions bits).length - 16 := by
      rw [hd, List.length_drop]
    obtain ⟨_, f⟩ := flatten_loop_spec undef idx 64
      (flatten_run undef base idx 0 16 (m, bits)).1 (base + 16) (clear_lowest^[16] bits)
      (Nat.pos_of_ne_zero hne) hlt (by omega) (by omega)
    show (flatten_loop undef idx 64 ((flatten_run undef base idx 0 16 (m, bits)).1, base + 16,
      clear_lowest^[16] bits)).1 s = _
    rw [f s, hl, flatten_run_fst undef base idx 16 0 (m, bits) (by omega) s]
    by_cases c1 : base + 16 ≤ s ∧ s < base + 16 + ((bitPositions bits).length - 16)
    · have c2 : base ≤ s ∧ s < base + (bitPositions bits).length := by omega
      rw [if_pos c1, if_pos c2, ← Function.iterate_add_apply]
      have : s - (base + 16) + 16 = s - base := by omega
      rw [this]
    · rw [if_neg c1]
      by_cases c3 : base + 0 ≤ s ∧ s < base + 0 + 16
      · have c2 : base ≤ s ∧ s < base + (bitPositions bits).length := by omega
        rw [if_pos c3, if_pos c2]
        rfl
      · have c2 : ¬ (base ≤ s ∧ s < base + (bitPositions bits).length) := by omega
        rw [if_neg c3, if_neg c2]
  · by_cases h8 : (bitPositions bits).length > 8
    · have n8 : ¬ (bitPositions bits).length ≤ 8 := by omega
      have n16 : (bitPositions bits).length ≤ 16 := by omega
      simp only [h16, h8, if_true, n8, n16, if_false]
      rw [flatten_run_fst undef base idx 16 0 (m, bits) (by omega) s]
      rfl
    · have n8 : (bitPositions bits).length ≤ 8 := by omega
      simp only [h16, h8, n8, if_true, if_false]
      rw [flatten_run_fst undef base idx 8 0 (m, bits) (by omega) s]
      rfl

theorem flatten_span_ge (cnt : Nat) : cnt ≤ flatten_span cnt := by
  unfold flatten_span
  split
  · omega
  · split <;> omega

/-- What `flatten_bits` leaves behind when the cursor is at least 64 slots away from the end
of the 32-bit range: the cursor advanced by the number of set bits, the positions of the
set bits appended in ascending order, and every slot below the old cursor unchanged. -/
theorem flatten_bits_spec (undef : Nat) (m : Nat → Nat) (base idx bits : Nat)
    (h1 : bits < 2 ^ 64) (hbase : base + 64 < 2 ^ 32) :
    (flatten_bits undef m base idx bits).2 = base + (bitPositions bits).length ∧
    (∀ j (hj : j < (bitPositions bits).length),
      (flatten_bits undef m base idx bits).1 (base + j)
        = (idx + (bitPositions bits).get ⟨j, hj⟩) % 2 ^ 32) ∧
    (∀ s, s < base → (flatten_bits undef m base idx bits).1 s = m s) := by
  by_cases h0 : bits = 0
  · subst h0
    simp [flatten_bits, bitPositions_zero]
  · have hlen := bitPositions_length_le bits
    refine ⟨?_, ?_, ?_⟩
    · rw [flatten_bits_unroll undef m base idx bits h0, hamming_eq_length]
      exact Nat.mod_eq_of_lt (by omega)
    · intro j hj
      have hsp := flatten_span_ge (bitPositions bits).length
      rw [flatten_bits_mem undef m base idx bits h0 h1 (by omega),
        if_pos ⟨by omega, by omega⟩, Nat.add_sub_cancel_left,
        trailingzeroes_iterate undef j bits h1 hj]
    · intro s hs
      rw [flatten_bits_mem undef m base idx bits h0 h1 (by omega), if_neg (by omega)]

/-! ## One chunk of `find_indexes` -/

theorem chunkAt_byte (buf : Nat → Nat) (idx j : Nat) (hj : j < 64) :
    (chunkAt buf idx).byte j = buf (idx + j) := by
  unfold chunkAt simd_input.byte mm256_loadu_si256
  by_cases h : j < 32
  · simp [h]
  · have : idx + 32 + (j - 32) = idx + j := by omega
    simp [h, this]

theorem quoteCount_chunk (buf : Nat → Nat) (idx n : Nat) (hn : n ≤ 64) :
    quoteCount buf (idx + n) = quoteCount buf idx + chunkQuotes (chunkAt buf idx) n := by
  induction n with
  | zero => rfl
  | succ n ih =>
    rw [← Nat.add_assoc, quoteCount, chunkQuotes, ih (by omega), chunkAt_byte buf idx n (by omega)]
    omega

theorem testBit_quoteCarry (buf : Nat → Nat) (idx i : Nat) (hi : i < 64) :
    (quoteCarry buf idx).testBit i = decide (quoteCount buf idx % 2 = 1) := by
  unfold quoteCarry
  by_cases h : quoteCount buf idx % 2 = 1
  · rw [if_pos h, Nat.testBit_two_pow_sub_one]
    simp [hi, h]
  · rw [if_neg h]
    simp [h]

theorem quoteCarry_lt (buf : Nat → Nat) (idx : Nat) : quoteCarry buf idx < 2 ^ 64 := by
  unfold quoteCarry
  split <;> decide

/-- Bit `i` of the quote mask of the chunk at `idx`, entered with the right carried state:
the number of quote bytes in `buf[0..idx + i]` is odd. -/
theorem testBit_quote_mask_chunk (buf : Nat → Nat) (idx i : Nat) (hi : i < 64) :
    (find_quote_mask (chunkAt buf idx) (quoteCarry buf idx)).1.testBit i
      = decide (quoteCount buf (idx + i + 1) % 2 = 1) := by
  rw [testBit_find_quote_mask _ _ _ hi, testBit_quoteCarry _ _ _ hi, Nat.add_assoc,
    quoteCount_chunk buf idx (i + 1) (by omega)]
  by_cases h1 : chunkQuotes (chunkAt buf idx) (i + 1) % 2 = 1 <;>
  by_cases h2 : quoteCount buf idx % 2 = 1
  · have : ¬ (quoteCount buf idx + chunkQuotes (chunkAt buf idx) (i + 1)) % 2 = 1 := by omega
    simp [h1, h2, this]
  · have : (quoteCount buf idx + chunkQuotes (chunkAt buf idx) (i + 1)) % 2 = 1 := by omega
    simp [h1, h2, this]
  · have : (quoteCount buf idx + chunkQuotes (chunkAt buf idx) (i + 1)) % 2 = 1 := by omega
    simp [h1, h2, this]
  · have : ¬ (quoteCount buf idx + chunkQuotes (chunkAt buf idx) (i + 1)) % 2 = 1 := by omega
    simp [h1, h2, this]

/-- The carried quote state after the chunk at `idx` is the one the next chunk expects. -/
theorem quote_state_chunk (buf : Nat → Nat) (idx : Nat) :
    (find_quote_mask (chunkAt buf idx) (quoteCarry buf idx)).2 = quoteCarry buf (idx + 64) := by
  rw [find_quote_mask_state _ _ (quoteCarry_lt buf idx),
    testBit_quote_mask_chunk buf idx 63 (by decide)]
  unfold quoteCarry
  by_cases h : quoteCount buf (idx + 63 + 1) % 2 = 1
  · simp [h]
  · simp [h]

theorem testBit_not64 (x i : Nat) :
    (not64 x).testBit i = (decide (i < 64) && !x.testBit i) := by
  unfold not64
  rw [Nat.testBit_xor, Nat.testBit_two_pow_sub_one, Nat.testBit_mod_two_pow]
  by_cases h : i < 64 <;> simp [h]

theorem testBit_chunk_cmp (buf : Nat → Nat) (idx m i : Nat) :
    (cmp_mask_against_input (chunkAt buf idx) m).testBit i
      = (decide (i < 64) && decide (buf (idx + i) = m)) :=
  testBit_cmp_chunk buf idx m i

theorem testBit_crCarry (enable_crlf : Bool) (buf : Nat → Nat) (idx i : Nat) :
    (crCarry enable_crlf buf idx).testBit i =
      (decide (i = 0) && (enable_crlf && (decide (1 ≤ idx) && decide (buf (idx - 1) = 0x0d)))) := by
  unfold crCarry
  by_cases h : enable_crlf = true ∧ 1 ≤ idx ∧ buf (idx - 1) = 0x0d
  · rw [if_pos h]
    obtain ⟨a, b, c⟩ := h
    cases i with
    | zero => simp [a, b, c]
    | succ i => simp [Nat.testBit_succ]
  · rw [if_neg h]
    simp only [Nat.zero_testBit]
    by_cases a : enable_crlf = true
    · by_cases b : 1 ≤ idx
      · by_cases c : buf (idx - 1) = 0x0d
        · exact absurd ⟨a, b, c⟩ h
        · simp [c]
      · simp [b]
    · simp [a]

theorem classify_chunk_eq (buf : Nat → Nat) (enable_crlf : Bool) (idx q c : Nat) :
    classify_chunk buf enable_crlf idx q c =
      (((if enable_crlf then
            cmp_mask_against_input (chunkAt buf idx) 0x0a &&&
              (((cmp_mask_against_input (chunkAt buf idx) 0x0d <<< 1) % 2 ^ 64) ||| c)
          else cmp_mask_against_input (chunkAt buf idx) 0x0a)
          ||| cmp_mask_against_input (chunkAt buf idx) 0x2c)
          &&& not64 (find_quote_mask (chunkAt buf idx) q).1,
        (find_quote_mask (chunkAt buf idx) q).2,
        if enable_crlf then cmp_mask_against_input (chunkAt buf idx) 0x0d >>> 63 else c) := by
  cases enable_crlf <;> rfl

theorem cr_shift_carry (buf : Nat → Nat) (idx : Nat) :
    cmp_mask_against_input (chunkAt buf idx) 0x0d >>> 63 = crCarry true buf (idx + 64) := by
  apply Nat.eq_of_testBit_eq
  intro j
  rw [Nat.testBit_shiftRight, testBit_chunk_cmp, testBit_crCarry]
  cases j with
  | zero => simp
  | succ j =>
    have : ¬ 63 + (j + 1) < 64 := by omega
    simp [this]

/-- Bit `i` of the line-terminator mask of the chunk at `idx`. -/
theorem testBit_end_mask (buf : Nat → Nat) (enable_crlf : Bool) (idx i : Nat) :
    (if enable_crlf then
        cmp_mask_against_input (chunkAt buf idx) 0x0a &&&
          (((cmp_mask_against_input (chunkAt buf idx) 0x0d <<< 1) % 2 ^ 64) |||
            crCarry enable_crlf buf idx)
      else cmp_mask_against_input (chunkAt buf idx) 0x0a).testBit i
      = (decide (i < 64) && isLineEnd enable_crlf buf (idx + i)) := by
  cases enable_crlf with
  | false => simp [isLineEnd, testBit_chunk_cmp]
  | true =>
    simp only [if_true, isLineEnd]
    rw [Nat.testBit_and, Nat.testBit_or, Nat.testBit_mod_two_pow, Nat.testBit_shiftLeft,
      testBit_chunk_cmp, testBit_chunk_cmp, testBit_crCarry]
    by_cases hi : i < 64
    · cases i with
      | zero =>
        simp
      | succ i =>
        have h1 : i < 64 := by omega
        have h2 : 1 ≤ idx + (i + 1) := by omega
        simp [hi, h1, h2]
    · simp [hi]

/-- The chunk at `idx`, classified from the carried states the invariant prescribes: the cut
mask has bit `i` set exactly when `idx + i` is a cut position, and the carried states are
those the chunk at `idx + 64` expects. -/
theorem classify_chunk_spec (buf : Nat → Nat) (enable_crlf : Bool) (idx : Nat) :
    (∀ i, (classify_chunk buf enable_crlf idx (quoteCarry buf idx)
        (crCarry enable_crlf buf idx)).1.testBit i
        = (decide (i < 64) && isCut enable_crlf buf (idx + i))) ∧
    (classify_chunk buf enable_crlf idx (quoteCarry buf idx)
        (crCarry enable_crlf buf idx)).2.1 = quoteCarry buf (idx + 64) ∧
    (classify_chunk buf enable_crlf idx (quoteCarry buf idx)
        (crCarry enable_crlf buf idx)).2.2 = crCarry enable_crlf buf (idx + 64) := by
  rw [classify_chunk_eq]
  refine ⟨?_, quote_state_chunk buf idx, ?_⟩
  · intro i
    simp only []
    rw [Nat.testBit_and, Nat.testBit_or, testBit_end_mask, testBit_not64, testBit_chunk_cmp]
    by_cases hi : i < 64
    · rw [testBit_quote_mask_chunk buf idx i hi]
      unfold isCut
      by_cases hq : quoteCount buf (idx + i + 1) % 2 = 1
      · have : ¬ quoteCount buf (idx + i + 1) % 2 = 0 := by omega
        simp [hi, hq]
      · have : quoteCount buf (idx + i + 1) % 2 = 0 := by omega
        simp [hi, this]
        exact Bool.or_comm _ _
    · simp [hi]
  · cases enable_crlf with
    | false => simp [crCarry]
    | true => exact cr_shift_carry buf idx

theorem classify_chunk_lt (buf : Nat → Nat) (enable_crlf : Bool) (idx : Nat) :
    (classify_chunk buf enable_crlf idx (quoteCarry buf idx)
        (crCarry enable_crlf buf idx)).1 < 2 ^ 64 := by
  apply Nat.lt_pow_two_of_testBit
  intro i hi
  rw [(classify_chunk_spec buf enable_crlf idx).1 i]
  have : ¬ i < 64 := by omega
  simp [this]

/-! ## The two loops of `find_indexes` -/

theorem tail_body_idx (undef : Nat) (buf : Nat → Nat) (enable_crlf : Bool) (s : ScanState) :
    (tail_body undef buf enable_crlf s).idx = s.idx + 64 := rfl

theorem iterate_tail_idx (undef : Nat) (buf : Nat → Nat) (enable_crlf : Bool) (n : Nat)
    (s : ScanState) : ((tail_body undef buf enable_crlf)^[n] s).idx = s.idx + 64 * n := by
  induction n with
  | zero => rfl
  | succ n ih =>
    rw [Function.iterate_succ_apply', tail_body_idx, ih]
    omega

/-- The classifying inner loop of a group threads the carried states exactly as `n` tail
iterations do, and leaves in `fields[b]` the cut mask the `b`-th of them computes. -/
theorem classify_pass (undef : Nat) (buf : Nat → Nat) (enable_crlf : Bool) (s : ScanState)
    (n : Nat) :
    ((List.range n).foldl
      (fun (acc : (Nat → Nat) × Nat × Nat) b =>
        (store acc.1 b (classify_chunk buf enable_crlf (64 * b + s.idx) acc.2.1 acc.2.2).1,
         (classify_chunk buf enable_crlf (64 * b + s.idx) acc.2.1 acc.2.2).2.1,
         (classify_chunk buf enable_crlf (64 * b + s.idx) acc.2.1 acc.2.2).2.2))
      (fun _ => 0, s.prev_iter_inside_quote, s.prev_iter_cr_end)).2
      = (((tail_body undef buf enable_crlf)^[n] s).prev_iter_inside_quote,
         ((tail_body undef buf enable_crlf)^[n] s).prev_iter_cr_end) ∧
    ∀ b, b < n →
      ((List.range n).foldl
        (fun (acc : (Nat → Nat) × Nat × Nat) b =>
          (store acc.1 b (classify_chunk buf enable_crlf (64 * b + s.idx) acc.2.1 acc.2.2).1,
           (classify_chunk buf enable_crlf (64 * b + s.idx) acc.2.1 acc.2.2).2.1,
           (classify_chunk buf enable_crlf (64 * b + s.idx) acc.2.1 acc.2.2).2.2))
        (fun _ => 0, s.prev_iter_inside_quote, s.prev_iter_cr_end)).1 b
      = (classify_chunk buf enable_crlf ((tail_body undef buf enable_crlf)^[b] s).idx
          ((tail_body undef buf enable_crlf)^[b] s).prev_iter_inside_quote
          ((tail_body undef buf enable_crlf)^[b] s).prev_iter_cr_end).1 := by
  induction n with
  | zero => exact ⟨rfl, fun b hb => absurd hb (Nat.not_lt_zero b)⟩
  | succ n ih =>
    obtain ⟨h1, h2⟩ := ih
    rw [List.range_succ, List.foldl_append]
    simp only [List.foldl_cons, List.foldl_nil]
    have hq := congrArg Prod.fst h1
    have hc := congrArg Prod.snd h1
    simp only [] at hq hc
    have hidx : 64 * n + s.idx = ((tail_body undef buf enable_crlf)^[n] s).idx := by
      rw [iterate_tail_idx]; omega
    rw [hq, hc, hidx]
    constructor
    · rw [Function.iterate_succ_apply']
      rfl
    · intro b hb
      by_cases hbn : b = n
      · subst hbn
        rw [store_eq]
      · rw [store_ne _ _ _ _ hbn]
        exact h2 b (by omega)

/-- The flattening inner loop of a group, reading masks that agree with those of the tail
iterations, leaves the array and the cursor as `n` tail iterations do. -/
theorem flatten_pass (undef : Nat) (buf : Nat → Nat) (enable_crlf : Bool) (s : ScanState)
    (fields : Nat → Nat) (n : Nat)
    (hf : ∀ b, b < n → fields b =
      (classify_chunk buf enable_crlf ((tail_body undef buf enable_crlf)^[b] s).idx
          ((tail_body undef buf enable_crlf)^[b] s).prev_iter_inside_quote
          ((tail_body undef buf enable_crlf)^[b] s).prev_iter_cr_end).1) :
    (List.range n).foldl
      (fun (acc : (Nat → Nat) × Nat) b =>
        flatten_bits undef acc.1 acc.2 ((64 * b + s.idx) % 2 ^ 32) (fields b))
      (s.base_ptr, s.base)
      = (((tail_body undef buf enable_crlf)^[n] s).base_ptr,
         ((tail_body undef buf enable_crlf)^[n] s).base) := by
  induction n with
  | zero => rfl
  | succ n ih =>
    rw [List.range_succ, List.foldl_append, ih (fun b hb => hf b (by omega))]
    simp only [List.foldl_cons, List.foldl_nil]
    rw [hf n (by omega), Function.iterate_succ_apply']
    have hidx : 64 * n + s.idx = ((tail_body undef buf enable_crlf)^[n] s).idx := by
      rw [iterate_tail_idx]; omega
    rw [hidx]
    rfl

/-- One iteration of the buffered loop is `G` iterations of the tail loop. -/
theorem buffered_body_eq (undef G : Nat) (buf : Nat → Nat) (enable_crlf : Bool)
    (s : ScanState) :
    buffered_body undef G buf enable_crlf s = (tail_body undef buf enable_crlf)^[G] s := by
  obtain ⟨h1, h2⟩ := classify_pass undef buf enable_crlf s G
  have h3 := flatten_pass undef buf enable_crlf s _ G h2
  have hq := congrArg Prod.fst h1
  have hc := congrArg Prod.snd h1
  simp only [] at hq hc
  have hm := congrArg Prod.fst h3
  have hb := congrArg Prod.snd h3
  simp only [] at hm hb
  have hi := iterate_tail_idx undef buf enable_crlf G s
  unfold buffered_body
  simp only []
  rw [hq, hc, hm, hb, ← hi]

/-- The tail loop, given at least as much fuel as there are chunk starts left below
`lenminus64`, runs the tail iteration once per such chunk start. -/
theorem tail_loop_eq (undef : Nat) (buf : Nat → Nat) (enable_crlf : Bool) (L : Nat)
    (fuel : Nat) : ∀ s : ScanState, (L - s.idx + 63) / 64 ≤ fuel →
    tail_loop undef buf enable_crlf L fuel s
      = (tail_body undef buf enable_crlf)^[(L - s.idx + 63) / 64] s := by
  induction fuel with
  | zero =>
    intro s h
    have : (L - s.idx + 63) / 64 = 0 := by omega
    rw [this]; rfl
  | succ fuel ih =>
    intro s h
    rw [tail_loop]
    by_cases hlt : s.idx < L
    · rw [if_pos hlt, ih _ (by rw [tail_body_idx]; omega), tail_body_idx]
      have : (L - s.idx + 63) / 64 = (L - (s.idx + 64) + 63) / 64 + 1 := by omega
      rw [this, Function.iterate_succ_apply]
    · rw [if_neg hlt]
      have : (L - s.idx + 63) / 64 = 0 := by omega
      rw [this]; rfl

/-- The buffered loop runs some number of tail iterations and stops with `idx` at most
`lenminus64`. -/
theorem buffered_loop_eq (undef G : Nat) (buf : Nat → Nat) (enable_crlf : Bool) (L : Nat)
    (hL : 64 * G ≤ L) (fuel : Nat) : ∀ s : ScanState, s.idx ≤ L →
    ∃ m, buffered_loop undef G buf enable_crlf L fuel s
        = (tail_body undef buf enable_crlf)^[m] s ∧ s.idx + 64 * m ≤ L := by
  induction fuel with
  | zero => intro s h; exact ⟨0, rfl, by omega⟩
  | succ fuel ih =>
    intro s h
    rw [buffered_loop]
    by_cases hlt : s.idx < L - 64 * G + 1
    · rw [if_pos hlt, buffered_body_eq]
      have hidx := iterate_tail_idx undef buf enable_crlf G s
      obtain ⟨m, e, hm⟩ := ih ((tail_body undef buf enable_crlf)^[G] s) (by rw [hidx]; omega)
      refine ⟨m + G, ?_, ?_⟩
      · rw [e, Function.iterate_add_apply]
      · rw [hidx] at hm; omega
    · rw [if_neg hlt]
      exact ⟨0, rfl, by omega⟩

/-- The buffered loop, with `lenminus64` iterations of fuel and a group depth of at least
one, stops because its own test fails. -/
theorem buffered_loop_exit (undef G : Nat) (hG : 1 ≤ G) (buf : Nat → Nat)
    (enable_crlf : Bool) (L : Nat) (hL : 64 * G ≤ L) (fuel : Nat) :
    ∀ s : ScanState, L ≤ s.idx + 64 * fuel →
    ¬ (buffered_loop undef G buf enable_crlf L fuel s).idx < L - 64 * G + 1 := by
  induction fuel with
  | zero =>
    intro s h
    rw [buffered_loop]
    omega
  | succ fuel ih =>
    intro s h
    rw [buffered_loop]
    by_cases hlt : s.idx < L - 64 * G + 1
    · rw [if_pos hlt]
      apply ih
      rw [buffered_body_eq, iterate_tail_idx]
      have : 64 * 1 ≤ 64 * G := Nat.mul_le_mul_left 64 hG
      omega
    · rw [if_neg hlt]
      exact hlt

/-- For every group depth, `find_indexes` leaves what `chunkCount len` tail iterations leave,
started from the initial state. -/
theorem find_indexes_with_eq (G undef : Nat) (buf : Nat → Nat) (len : Nat) (pcsv : ParsedCSV)
    (enable_crlf : Bool) :
    find_indexes_with G undef buf len pcsv enable_crlf =
      (true,
       { n_indexes := ((tail_body undef buf enable_crlf)^[chunkCount len]
            (initial_state pcsv)).base,
         indexes := ((tail_body undef buf enable_crlf)^[chunkCount len]
            (initial_state pcsv)).base_ptr }) := by
  have hL : (if len < 64 then 0 else len - 64) = len - 64 := by
    split <;> omega
  unfold find_indexes_with
  simp only [hL]
  have key : tail_loop undef buf enable_crlf (len - 64) len
      (if len - 64 > 64 * G then
        buffered_loop undef G buf enable_crlf (len - 64) len (initial_state pcsv)
       else initial_state pcsv)
      = (tail_body undef buf enable_crlf)^[chunkCount len] (initial_state pcsv) := by
    by_cases hg : len - 64 > 64 * G
    · rw [if_pos hg]
      obtain ⟨m, e, hm⟩ := buffered_loop_eq undef G buf enable_crlf (len - 64) (by omega) len
        (initial_state pcsv) (Nat.zero_le _)
      have h0 : (initial_state pcsv).idx = 0 := rfl
      rw [h0] at hm
      have hidx := iterate_tail_idx undef buf enable_crlf m (initial_state pcsv)
      rw [h0] at hidx
      rw [e, tail_loop_eq _ _ _ _ _ _ (by rw [hidx]; omega), hidx, ← Function.iterate_add_apply]
      congr 1
      unfold chunkCount
      omega
    · rw [if_neg hg, tail_loop_eq _ _ _ _ _ _ (by show (len - 64 - 0 + 63) / 64 ≤ len; omega)]
      rfl
  rw [key]

theorem find_indexes_unbuffered_eq (undef : Nat) (buf : Nat → Nat) (len : Nat)
    (pcsv : ParsedCSV) (enable_crlf : Bool) :
    find_indexes_unbuffered undef buf len pcsv enable_crlf =
      (true,
       { n_indexes := ((tail_body undef buf enable_crlf)^[chunkCount len]
            (initial_state pcsv)).base,
         indexes := ((tail_body undef buf enable_crlf)^[chunkCount len]
            (initial_state pcsv)).base_ptr }) := by
  have hL : (if len < 64 then 0 else len - 64) = len - 64 := by
    split <;> omega
  unfold find_indexes_unbuffered
  simp only [hL]
  rw [tail_loop_eq _ _ _ _ _ _ (by show (len - 64 - 0 + 63) / 64 ≤ len; omega)]
  rfl

/-! ## The invariant of the chunk loop -/

theorem cutList_add (enable_crlf : Bool) (buf : Nat → Nat) (n m : Nat) :
    cutList enable_crlf buf (n + m) =
      cutList enable_crlf buf n ++
        ((List.range m).filter (fun i => isCut enable_crlf buf (n + i))).map (fun i => n + i) := by
  unfold cutList
  rw [List.range_add, List.filter_append, List.filter_map]
  rfl

theorem cutList_length_le (enable_crlf : Bool) (buf : Nat → Nat) (n : Nat) :
    (cutList enable_crlf buf n).length ≤ n := by
  unfold cutList
  exact (List.length_filter_le _ _).trans (by simp)

theorem cutList_length_mono (enable_crlf : Bool) (buf : Nat → Nat) (n m : Nat) (h : n ≤ m) :
    (cutList enable_crlf buf n).length ≤ (cutList enable_crlf buf m).length := by
  obtain ⟨d, rfl⟩ := Nat.exists_eq_add_of_le h
  rw [cutList_add, List.length_append]
  omega

/-- The set bits of the cut mask of the chunk at `idx` are the chunk-relative cut positions. -/
theorem bitPositions_classify (buf : Nat → Nat) (enable_crlf : Bool) (idx : Nat) :
    bitPositions (classify_chunk buf enable_crlf idx (quoteCarry buf idx)
        (crCarry enable_crlf buf idx)).1
      = (List.range 64).filter (fun i => isCut enable_crlf buf (idx + i)) := by
  unfold bitPositions
  apply List.filter_congr
  intro i hi
  rw [(classify_chunk_spec buf enable_crlf idx).1 i]
  simp [List.mem_range.1 hi]

/-- Reading `L.length` slots from `b` on gives `L.map g` when slot `b + j` holds `g` of the
`j`-th entry of `L`. -/
theorem map_range_slots (f : Nat → Nat) (b : Nat) (L : List Nat) (g : Nat → Nat)
    (h : ∀ j (hj : j < L.length), f (b + j) = g (L.get ⟨j, hj⟩)) :
    (List.range L.length).map (fun j => f (b + j)) = L.map g := by
  apply List.ext_getElem
  · simp
  · intro n h1 h2
    have hn : n < L.length := by simpa using h2
    rw [List.getElem_map, List.getElem_map, List.getElem_range]
    exact h n hn

/-- The loop invariant of `find_indexes` after `k` chunks, as long as the cursor stays more
than 64 slots away from the end of the 32-bit range: `idx` and both carried states are
those of offset `64 * k`, the cursor counts the cut positions below `64 * k`, and the array
holds their offsets, reduced modulo `2 ^ 32`, in ascending order of position. -/
theorem scan_invariant (undef : Nat) (buf : Nat → Nat) (pcsv : ParsedCSV) (enable_crlf : Bool)
    (k : Nat) (h : (cutList enable_crlf buf (64 * (k - 1))).length + 64 < 2 ^ 32) :
    ((tail_body undef buf enable_crlf)^[k] (initial_state pcsv)).idx = 64 * k ∧
    ((tail_body undef buf enable_crlf)^[k] (initial_state pcsv)).prev_iter_inside_quote
      = quoteCarry buf (64 * k) ∧
    ((tail_body undef buf enable_crlf)^[k] (initial_state pcsv)).prev_iter_cr_end
      = crCarry enable_crlf buf (64 * k) ∧
    ((tail_body undef buf enable_crlf)^[k] (initial_state pcsv)).base
      = (cutList enable_crlf buf (64 * k)).length ∧
    (List.range ((tail_body undef buf enable_crlf)^[k] (initial_state pcsv)).base).map
        ((tail_body undef buf enable_crlf)^[k] (initial_state pcsv)).base_ptr
      = (cutList enable_crlf buf (64 * k)).map (fun p => p % 2 ^ 32) := by
  induction k with
  | zero =>
    refine ⟨rfl, rfl, ?_, rfl, rfl⟩
    unfold crCarry initial_state
    simp
  | succ k ih =>
    have hk : (cutList enable_crlf buf (64 * k)).length + 64 < 2 ^ 32 := h
    have hmono := cutList_length_mono enable_crlf buf (64 * (k - 1)) (64 * k) (by omega)
    obtain ⟨hidx, hq, hc, hb, hm⟩ := ih (by omega)
    rw [Function.iterate_succ_apply']
    generalize (tail_body undef buf enable_crlf)^[k] (initial_state pcsv) = t at hidx hq hc hb hm
    have h64 : 64 * (k + 1) = 64 * k + 64 := by omega
    obtain ⟨_, sq, sc⟩ := classify_chunk_spec buf enable_crlf (64 * k)
    have hlt := classify_chunk_lt buf enable_crlf (64 * k)
    have hbp := bitPositions_classify buf enable_crlf (64 * k)
    obtain ⟨f1, f2, f3⟩ := flatten_bits_spec undef t.base_ptr t.base ((64 * k) % 2 ^ 32)
      (classify_chunk buf enable_crlf (64 * k) (quoteCarry buf (64 * k))
        (crCarry enable_crlf buf (64 * k))).1 hlt (by omega)
    unfold tail_body
    simp only []
    rw [hidx, hq, hc, h64, cutList_add, ← hbp]
    refine ⟨rfl, sq, sc, ?_, ?_⟩
    · rw [f1, hb, List.length_append, List.length_map]
    · rw [f1, List.range_add, List.map_append, List.map_map, List.map_append]
      congr 1
      · rw [← hm]
        apply List.map_congr_left
        intro s hs
        exact f3 s (List.mem_range.1 hs)
      · rw [List.map_map]
        apply map_range_slots
        intro j hj
        rw [f2 j hj]
        simp [Function.comp, Nat.add_mod]

/-! ## What `find_indexes` leaves in `pcsv` -/

theorem scannedLen_lt (len : Nat) (h : 64 < len) : scannedLen len < len := by
  unfold scannedLen chunkCount
  omega

theorem scannedLen_small (len : Nat) (h : len ≤ 64) : scannedLen len = 0 := by
  unfold scannedLen chunkCount
  omega

theorem mem_cutList (enable_crlf : Bool) (buf : Nat → Nat) (n p : Nat) :
    p ∈ cutList enable_crlf buf n ↔ p < n ∧ isCut enable_crlf buf p = true := by
  unfold cutList
  rw [List.mem_filter, List.mem_range]

theorem cutList_sorted (enable_crlf : Bool) (buf : Nat → Nat) (n : Nat) :
    (cutList enable_crlf buf n).Sorted (· < ·) := by
  unfold cutList
  exact List.Pairwise.filter _ (List.pairwise_lt_range n)

/-- The result of `find_indexes` as long as the cursor stays more than 64 slots away from the
end of the 32-bit range before the last chunk: the count is the number of cut positions in
the scanned prefix and the entries are their offsets modulo `2 ^ 32`, in ascending order of
position. -/
theorem find_indexes_result (undef : Nat) (buf : Nat → Nat) (len : Nat) (pcsv : ParsedCSV)
    (enable_crlf : Bool)
    (h : (cutList enable_crlf buf (scannedLen len - 64)).length + 64 < 2 ^ 32) :
    (find_indexes undef buf len pcsv enable_crlf).1 = true ∧
    (find_indexes undef buf len pcsv enable_crlf).2.n_indexes
      = (cutList enable_crlf buf (scannedLen len)).length ∧
    scan undef buf len pcsv enable_crlf
      = (cutList enable_crlf buf (scannedLen len)).map (fun p => p % 2 ^ 32) := by
  have hs : scannedLen len - 64 = 64 * (chunkCount len - 1) := by
    unfold scannedLen; omega
  rw [hs] at h
  obtain ⟨_, _, _, hb, hm⟩ := scan_invariant undef buf pcsv enable_crlf (chunkCount len) h
  unfold scan find_indexes
  rw [find_indexes_with_eq]
  exact ⟨rfl, hb, hm⟩

/-- For a buffer of at most `2 ^ 32` bytes, `find_indexes` leaves exactly the ascending list
of the cut positions of the scanned prefix. -/
theorem scan_eq_cutList (undef : Nat) (buf : Nat → Nat) (len : Nat) (pcsv : ParsedCSV)
    (enable_crlf : Bool) (hlen : len ≤ 2 ^ 32) :
    scan undef buf len pcsv enable_crlf = cutList enable_crlf buf (scannedLen len) := by
  have hS : scannedLen len < 2 ^ 32 ∧ scannedLen len - 64 + 64 < 2 ^ 32 := by
    by_cases h64 : len ≤ 64
    · rw [scannedLen_small len h64]; decide
    · have := scannedLen_lt len (by omega)
      have h1 : 64 ≤ scannedLen len := by
        unfold scannedLen chunkCount; omega
      omega
  have hc := cutList_length_le enable_crlf buf (scannedLen len - 64)
  rw [(find_indexes_result undef buf len pcsv enable_crlf (by omega)).2.2]
  conv => rhs; rw [← List.map_id (cutList enable_crlf buf (scannedLen len))]
  apply List.map_congr_left
  intro p hp
  have := ((mem_cutList _ _ _ _).1 hp).1
  exact Nat.mod_eq_of_lt (by omega)

theorem mem_scan (undef : Nat) (buf : Nat → Nat) (len : Nat) (pcsv : ParsedCSV)
    (enable_crlf : Bool) (hlen : len ≤ 2 ^ 32) (p : Nat) :
    p ∈ scan undef buf len pcsv enable_crlf ↔
      p < scannedLen len ∧ isCut enable_crlf buf p = true := by
  rw [scan_eq_cutList undef buf len pcsv enable_crlf hlen, mem_cutList]

/-! ## The quote mask against the naive automaton -/

theorem naive_quote_scan_spec (inp : simd_input) (inside : Bool) (n : Nat) :
    (naive_quote_scan inp inside n).2 = xor inside (decide (chunkQuotes inp n % 2 = 1)) ∧
    ∀ i, (naive_quote_scan inp inside n).1.testBit i =
      (decide (i < n) && xor inside (decide (chunkQuotes inp (i + 1) % 2 = 1))) := by
  induction n with
  | zero => simp [naive_quote_scan, chunkQuotes]
  | succ n ih =>
    obtain ⟨h1, h2⟩ := ih
    have hst : (if inp.byte n = 0x22 then !(naive_quote_scan inp inside n).2
        else (naive_quote_scan inp inside n).2)
        = xor inside (decide (chunkQuotes inp (n + 1) % 2 = 1)) := by
      rw [h1, chunkQuotes]
      by_cases hb : inp.byte n = 0x22
      · by_cases hp : chunkQuotes inp n % 2 = 1
        · have : ¬ (chunkQuotes inp n + 1) % 2 = 1 := by omega
          simp [hb, hp, this]
        · have : (chunkQuotes inp n + 1) % 2 = 1 := by omega
          simp [hb, hp, this]
      · simp [hb]
    constructor
    · rw [naive_quote_scan]
      exact hst
    · intro i
      rw [naive_quote_scan]
      simp only []
      rw [hst, Nat.testBit_or, h2 i]
      by_cases hin : i = n
      · subst hin
        by_cases hx : xor inside (decide (chunkQuotes inp (i + 1) % 2 = 1)) = true
        · simp [hx, Nat.testBit_two_pow]
        · simp [hx]
      · have e : decide (i < n + 1) = decide (i < n) := by
          simp only [decide_eq_decide]; omega
        rw [e]
        by_cases hx : xor inside (decide (chunkQuotes inp (n + 1) % 2 = 1)) = true
        · rw [if_pos hx, Nat.testBit_two_pow]
          have : ¬ n = i := fun h => hin h.symm
          simp [this]
        · rw [if_neg hx]
          simp

theorem testBit_carry (prev i : Nat) (h : prev = 0 ∨ prev = 2 ^ 64 - 1) (hi : i < 64) :
    prev.testBit i = decide (prev = 2 ^ 64 - 1) := by
  rcases h with h | h
  · subst h; simp
  · subst h
    rw [Nat.testBit_two_pow_sub_one]
    simp [hi]

theorem find_quote_mask_carry (inp : simd_input) (prev : Nat)
    (h : prev = 0 ∨ prev = 2 ^ 64 - 1) :
    (find_quote_mask inp prev).2 =
      if xor (decide (prev = 2 ^ 64 - 1)) (decide (chunkQuotes inp 64 % 2 = 1)) then 2 ^ 64 - 1
      else 0 := by
  have hp : prev < 2 ^ 64 := by
    rcases h with h | h <;> subst h <;> decide
  rw [find_quote_mask_state inp prev hp, testBit_find_quote_mask inp prev 63 (by decide),
    testBit_carry prev 63 h (by decide), Bool.xor_comm]

theorem carried_fold (chunks : List simd_input) : ∀ prev : Nat,
    (prev = 0 ∨ prev = 2 ^ 64 - 1) →
    (chunks.foldl (fun prev c => (find_quote_mask c prev).2) prev = 0 ∨
      chunks.foldl (fun prev c => (find_quote_mask c prev).2) prev = 2 ^ 64 - 1) ∧
    (chunks.foldl (fun prev c => (find_quote_mask c prev).2) prev = 2 ^ 64 - 1 ↔
      xor (decide (prev = 2 ^ 64 - 1)) (decide (totalQuotes chunks % 2 = 1)) = true) := by
  induction chunks with
  | nil =>
    intro prev h
    refine ⟨h, ?_⟩
    simp [totalQuotes]
  | cons c cs ih =>
    intro prev h
    rw [List.foldl_cons]
    have hc := find_quote_mask_carry c prev h
    have hnext : (find_quote_mask c prev).2 = 0 ∨ (find_quote_mask c prev).2 = 2 ^ 64 - 1 := by
      rw [hc]; split
      · exact Or.inr rfl
      · exact Or.inl rfl
    obtain ⟨a, b⟩ := ih _ hnext
    refine ⟨a, ?_⟩
    rw [b, hc]
    have ht : totalQuotes (c :: cs) = chunkQuotes c 64 + totalQuotes cs := by
      simp [totalQuotes]
    rw [ht]
    have hne : ¬ ((0 : Nat) = 2 ^ 64 - 1) := by decide
    by_cases p1 : prev = 2 ^ 64 - 1 <;> by_cases p2 : chunkQuotes c 64 % 2 = 1 <;>
      by_cases p3 : totalQuotes cs % 2 = 1
    all_goals
      first
      | (have p4 : (chunkQuotes c 64 + totalQuotes cs) % 2 = 1 := by omega
         simp [p1, p2, p3, p4, hne])
      | (have p4 : ¬ (chunkQuotes c 64 + totalQuotes cs) % 2 = 1 := by omega
         simp [p1, p2, p3, p4, hne])

/-! ## A buffer of more than 4 GiB -/

theorem quoteCount_eq_zero (buf : Nat → Nat) (n : Nat) (h : ∀ q, q < n → buf q ≠ 0x22) :
    quoteCount buf n = 0 := by
  induction n with
  | zero => rfl
  | succ n ih =>
    rw [quoteCount, ih (fun q hq => h q (by omega)), if_neg (h n (by omega))]

theorem bigBuf_ne_quote (p : Nat) : bigBuf p ≠ 0x22 := by
  unfold bigBuf
  split
  · decide
  · split
    · decide
    · split <;> decide

theorem isCut_bigBuf (enable_crlf : Bool) (p : Nat) :
    isCut enable_crlf bigBuf p = decide (p = 5 ∨ p = 2 ^ 32) := by
  have hq : quoteCount bigBuf (p + 1) = 0 :=
    quoteCount_eq_zero bigBuf (p + 1) (fun q _ => bigBuf_ne_quote q)
  have hlf : decide (bigBuf p = 0x0a) = false := by
    unfold bigBuf
    split
    · decide
    · split
      · decide
      · split <;> decide
  have hend : isLineEnd enable_crlf bigBuf p = false := by
    unfold isLineEnd
    cases enable_crlf <;> simp [hlf]
  unfold isCut
  rw [hq, hend]
  unfold bigBuf
  by_cases h0 : p = 0
  · subst h0; decide
  · by_cases h5 : p = 5
    · subst h5; decide
    · by_cases hb : p = 2 ^ 32
      · subst hb; decide
      · simp [h0, h5, hb]

theorem cutList_bigBuf (enable_crlf : Bool) :
    cutList enable_crlf bigBuf (2 ^ 32 + 64) = [5, 2 ^ 32] := by
  apply sorted_ext _ _ (cutList_sorted _ _ _)
  · simp [List.Sorted]
  · intro x
    rw [mem_cutList, isCut_bigBuf]
    simp only [decide_eq_true_eq, List.mem_cons, List.mem_singleton, List.not_mem_nil, or_false]
    omega

/-- On the buffer `bigBuf`, of `2 ^ 32 + 65` bytes, `find_indexes` reports the comma at
offset `2 ^ 32` as offset `0`: the chunk offset is cut down to 32 bits when it is passed to
`flatten_bits`. -/
theorem scan_bigBuf (undef : Nat) (pcsv : ParsedCSV) (enable_crlf : Bool) :
    scan undef bigBuf (2 ^ 32 + 65) pcsv enable_crlf = [5, 0] := by
  have hS : scannedLen (2 ^ 32 + 65) = 2 ^ 32 + 64 := by decide
  have hc := cutList_bigBuf enable_crlf
  have hmono := cutList_length_mono enable_crlf bigBuf (2 ^ 32 + 64 - 64) (2 ^ 32 + 64)
    (by omega)
  rw [hc] at hmono
  have hlen : (cutList enable_crlf bigBuf (scannedLen (2 ^ 32 + 65) - 64)).length + 64
      < 2 ^ 32 := by
    rw [hS]
    have : ([5, 2 ^ 32] : List Nat).length = 2 := rfl
    omega
  rw [(find_indexes_result undef bigBuf (2 ^ 32 + 65) pcsv enable_crlf hlen).2.2, hS, hc]
  decide

/-! # The claims about `find_indexes` -/

theorem scan_small (undef : Nat) (buf : Nat → Nat) (len : Nat) (pcsv : ParsedCSV)
    (enable_crlf : Bool) (h : len ≤ 64) : scan undef buf len pcsv enable_crlf = [] := by
  rw [scan_eq_cutList undef buf len pcsv enable_crlf (by omega), scannedLen_small len h]
  rfl

theorem toList_length (p : ParsedCSV) : p.toList.length = p.n_indexes := by
  simp [ParsedCSV.toList]

theorem find_indexes_sorted_aux (undef : Nat) (buf : Nat → Nat) (len : Nat) (pcsv : ParsedCSV)
    (enable_crlf : Bool) (hlen : len ≤ 2 ^ 32) :
    ((find_indexes undef buf len pcsv enable_crlf).2.toList).Sorted (· < ·) := by
  have h := scan_eq_cutList undef buf len pcsv enable_crlf hlen
  unfold scan at h
  rw [h]
  exact cutList_sorted enable_crlf buf (scannedLen len)

/-- Claim C1, counterexample. The three bytes `a , b` with `len = 3` hold no quote byte and
a comma at offset 1, yet `find_indexes` in non-CRLF mode reports nothing: no chunk starts
below `len - 64`. -/
theorem find_indexes_unquoted_counterexample :
    (∀ p, p < 3 → bufOfList [0x61, 0x2c, 0x62] p ≠ 0x22) ∧
    (List.range 3).filter (fun p => decide (bufOfList [0x61, 0x2c, 0x62] p = 0x2c) ||
      decide (bufOfList [0x61, 0x2c, 0x62] p = 0x0a)) = [1] ∧
    (∀ undef pcsv, scan undef (bufOfList [0x61, 0x2c, 0x62]) 3 pcsv false = []) :=
  ⟨by decide, by decide, fun undef pcsv => scan_small undef _ 3 pcsv false (by decide)⟩

/-- Claim C1, amended. For a buffer of at most `2 ^ 32` bytes with no quote byte in
`buf[0..len)`, `find_indexes` in non-CRLF mode leaves in `indexes[0..n_indexes)` the
ascending list of exactly the positions `p` below `scannedLen len` with `buf[p] = ','` or
`buf[p] = '\n'`, where `scannedLen len` is `64 * ceil((len - 64) / 64)`, the end of the last
chunk that starts below `len - 64`. -/
theorem find_indexes_unquoted (undef : Nat) (buf : Nat → Nat) (len : Nat) (pcsv : ParsedCSV)
    (hlen : len ≤ 2 ^ 32) (hq : ∀ p, p < len → buf p ≠ 0x22) :
    (find_indexes undef buf len pcsv false).2.toList =
      (List.range (scannedLen len)).filter
        (fun p => decide (buf p = 0x2c) || decide (buf p = 0x0a)) ∧
    (find_indexes undef buf len pcsv false).2.n_indexes =
      ((List.range (scannedLen len)).filter
        (fun p => decide (buf p = 0x2c) || decide (buf p = 0x0a))).length := by
  have key : (find_indexes undef buf len pcsv false).2.toList =
      (List.range (scannedLen len)).filter
        (fun p => decide (buf p = 0x2c) || decide (buf p = 0x0a)) := by
    show scan undef buf len pcsv false = _
    rw [scan_eq_cutList undef buf len pcsv false hlen]
    unfold cutList
    apply List.filter_congr
    intro p hp
    have hpS := List.mem_range.1 hp
    have hpl : p + 1 ≤ len := by
      by_cases h64 : len ≤ 64
      · rw [scannedLen_small len h64] at hpS; omega
      · have := scannedLen_lt len (by omega); omega
    have h0 : quoteCount buf (p + 1) = 0 :=
      quoteCount_eq_zero buf (p + 1) (fun q hq' => hq q (by omega))
    unfold isCut isLineEnd
    simp [h0]
  refine ⟨key, ?_⟩
  rw [← toList_length, key]

/-- Claim C1, amended: an instance, on the bytes `a , b` followed by zero bytes with `len = 70`. -/
theorem find_indexes_unquoted_witness :
    (find_indexes 64 (bufOfList [0x61, 0x2c, 0x62]) 70 emptyCSV false).2.toList =
      (List.range (scannedLen 70)).filter
        (fun p => decide (bufOfList [0x61, 0x2c, 0x62] p = 0x2c) ||
          decide (bufOfList [0x61, 0x2c, 0x62] p = 0x0a)) ∧
    (find_indexes 64 (bufOfList [0x61, 0x2c, 0x62]) 70 emptyCSV false).2.n_indexes =
      ((List.range (scannedLen 70)).filter
        (fun p => decide (bufOfList [0x61, 0x2c, 0x62] p = 0x2c) ||
          decide (bufOfList [0x61, 0x2c, 0x62] p = 0x0a))).length :=
  find_indexes_unquoted 64 (bufOfList [0x61, 0x2c, 0x62]) 70 emptyCSV (by decide) (by decide)

theorem isCut_sound (enable_crlf : Bool) (buf : Nat → Nat) (p : Nat)
    (h : isCut enable_crlf buf p = true) :
    (buf p = 0x2c ∨ buf p = 0x0a) ∧ quoteCount buf p % 2 = 0 ∧
    (enable_crlf = true → buf p ≠ 0x2c → buf p = 0x0a ∧ 1 ≤ p ∧ buf (p - 1) = 0x0d) := by
  unfold isCut at h
  rw [Bool.and_eq_true, Bool.or_eq_true, decide_eq_true_eq, decide_eq_true_eq] at h
  obtain ⟨h1, h2⟩ := h
  have hb : buf p = 0x2c ∨ buf p = 0x0a := by
    rcases h1 with h1 | h1
    · exact Or.inl h1
    · unfold isLineEnd at h1
      cases enable_crlf <;> simp at h1
      · exact Or.inr h1
      · exact Or.inr h1.1
  refine ⟨hb, ?_, ?_⟩
  · rw [quoteCount] at h2
    have : buf p ≠ 0x22 := by
      rcases hb with hb | hb <;> rw [hb] <;> decide
    rw [if_neg this] at h2
    exact h2
  · intro hc hne
    rcases h1 with h1 | h1
    · exact absurd h1 hne
    · unfold isLineEnd at h1
      subst hc
      simp at h1
      exact ⟨h1.1, h1.2.1, h1.2.2⟩

theorem scan_lt_len (undef : Nat) (buf : Nat → Nat) (len : Nat) (pcsv : ParsedCSV)
    (enable_crlf : Bool) (hlen : len ≤ 2 ^ 32) (p : Nat)
    (hp : p ∈ scan undef buf len pcsv enable_crlf) : p + 1 < len := by
  have hpS := ((mem_scan undef buf len pcsv enable_crlf hlen p).1 hp).1
  by_cases h64 : len ≤ 64
  · rw [scannedLen_small len h64] at hpS; omega
  · have := scannedLen_lt len (by omega); omega

/-- Claim C2, counterexample. On `bigBuf`, of `2 ^ 32 + 65` bytes, the index list holds the
offset `0`, where the buffer has a carriage return, neither a comma nor a line feed: the
comma at offset `2 ^ 32` is stored reduced modulo `2 ^ 32`. -/
theorem find_indexes_offsets_counterexample :
    0 ∈ scan 64 bigBuf (2 ^ 32 + 65) emptyCSV false ∧
    ¬ (bigBuf 0 = 0x2c ∨ bigBuf 0 = 0x0a) := by
  rw [scan_bigBuf]
  exact ⟨by decide, by decide⟩

/-- Claim C2, amended. For a buffer of at most `2 ^ 32` bytes and either CRLF mode, every
offset `p` in `indexes[0..n_indexes)` after `find_indexes` satisfies `p < len`, `buf[p]` is
`','` or `'\n'`, and the number of quote bytes in `buf[0..p)` is even. -/
theorem find_indexes_offsets (undef : Nat) (buf : Nat → Nat) (len : Nat) (pcsv : ParsedCSV)
    (enable_crlf : Bool) (hlen : len ≤ 2 ^ 32) (p : Nat)
    (hp : p ∈ (find_indexes undef buf len pcsv enable_crlf).2.toList) :
    p < len ∧ (buf p = 0x2c ∨ buf p = 0x0a) ∧ quoteCount buf p % 2 = 0 := by
  have hcut := ((mem_scan undef buf len pcsv enable_crlf hlen p).1 hp).2
  have hs := isCut_sound enable_crlf buf p hcut
  have hl := scan_lt_len undef buf len pcsv enable_crlf hlen p hp
  exact ⟨by omega, hs.1, hs.2.1⟩

set_option maxRecDepth 1000000 in
/-- Claim C2, amended: an instance, the offset 7 reported for the sample row in a buffer
with `len = 70`. -/
theorem find_indexes_offsets_witness :
    7 < 70 ∧ (bufOfList sampleRow 7 = 0x2c ∨ bufOfList sampleRow 7 = 0x0a) ∧
      quoteCount (bufOfList sampleRow) 7 % 2 = 0 :=
  find_indexes_offsets 64 (bufOfList sampleRow) 70 emptyCSV false (by decide) 7 (by decide)

/-- Claim C3, counterexample. On the ten bytes of the sample row with `len = 10`,
`find_indexes` in non-CRLF mode reports no offset at all, so neither offset 1 nor offset 9:
`lenminus64` is 0 and neither loop runs. -/
theorem sample_row_counterexample :
    (∀ undef pcsv, (find_indexes undef (bufOfList sampleRow) 10 pcsv false).2.toList = []) ∧
    (∀ undef pcsv, (find_indexes undef (bufOfList sampleRow) 10 pcsv false).2.n_indexes = 0) :=
  ⟨fun undef pcsv => scan_small undef _ 10 pcsv false (by decide),
   fun undef pcsv => by
    rw [← toList_length]
    exact congrArg List.length (scan_small undef _ 10 pcsv false (by decide))⟩

/-- Claim C3, amended. With `len = 10` the sample row yields no cut position, so offset 4 does
not appear and neither do offsets 1 and 9. When the same ten bytes start a buffer of length
`len` with `64 < len ≤ 2 ^ 32`, so that the first chunk is scanned, the offsets below 10 in
the index list are exactly 1, 7 and 9: offsets 1 and 9 are reported and offset 4, the comma
inside the quotes, is not. -/
theorem sample_row_cuts (undef : Nat) (buf : Nat → Nat) (len : Nat) (pcsv : ParsedCSV)
    (hbuf : ∀ i, i < 10 → buf i = sampleRow.getD i 0) (h64 : 64 < len) (hlen : len ≤ 2 ^ 32) :
    (find_indexes undef (bufOfList sampleRow) 10 pcsv false).2.toList = [] ∧
    ∀ p, p < 10 →
      (p ∈ (find_indexes undef buf len pcsv false).2.toList ↔ p = 1 ∨ p = 7 ∨ p = 9) := by
  refine ⟨scan_small undef _ 10 pcsv false (by decide), ?_⟩
  intro p hp
  have hS : 64 ≤ scannedLen len := by
    unfold scannedLen chunkCount; omega
  have hm := mem_scan undef buf len pcsv false hlen p
  unfold scan at hm
  rw [hm]
  have b0 := hbuf 0 (by decide)
  have b1 := hbuf 1 (by decide)
  have b2 := hbuf 2 (by decide)
  have b3 := hbuf 3 (by decide)
  have b4 := hbuf 4 (by decide)
  have b5 := hbuf 5 (by decide)
  have b6 := hbuf 6 (by decide)
  have b7 := hbuf 7 (by decide)
  have b8 := hbuf 8 (by decide)
  have b9 := hbuf 9 (by decide)
  simp only [sampleRow, List.getD_cons_zero, List.getD_cons_succ] at b0 b1 b2 b3 b4 b5 b6 b7 b8 b9
  have hlt : p < scannedLen len := by omega
  interval_cases p <;>
    simp [hlt, isCut, isLineEnd, quoteCount, b0, b1, b2, b3, b4, b5, b6, b7, b8, b9]

/-- Claim C3, amended: an instance, the sample row followed by zero bytes with `len = 70`. -/
theorem sample_row_cuts_witness :
    (find_indexes 64 (bufOfList sampleRow) 10 emptyCSV false).2.toList = [] ∧
    ∀ p, p < 10 →
      (p ∈ (find_indexes 64 (bufOfList sampleRow) 70 emptyCSV false).2.toList
        ↔ p = 1 ∨ p = 7 ∨ p = 9) :=
  sample_row_cuts 64 (bufOfList sampleRow) 70 emptyCSV (by decide) (by decide) (by decide)

/-- Claim C4, counterexample. On `bigBuf`, of `2 ^ 32 + 65` bytes, the index list is
`[5, 0]`, which is not increasing: the comma at offset `2 ^ 32` is stored as the 32-bit
value `0` after the comma at offset 5. -/
theorem find_indexes_increasing_counterexample :
    ¬ List.Pairwise (fun a b => a < b)
      (find_indexes 64 bigBuf (2 ^ 32 + 65) emptyCSV false).2.toList := by
  have h := scan_bigBuf 64 emptyCSV false
  unfold scan at h
  rw [h]
  decide

/-- Claim C4, amended. For a buffer of at most `2 ^ 32` bytes and either CRLF mode, the
offsets stored in `indexes[0..n_indexes)` by `find_indexes` are strictly increasing. -/
theorem find_indexes_increasing (undef : Nat) (buf : Nat → Nat) (len : Nat) (pcsv : ParsedCSV)
    (enable_crlf : Bool) (hlen : len ≤ 2 ^ 32) :
    List.Pairwise (fun a b => a < b)
      (find_indexes undef buf len pcsv enable_crlf).2.toList := by
  exact find_indexes_sorted_aux undef buf len pcsv enable_crlf hlen

/-- Claim C4, amended: an instance, the sample row followed by zero bytes with `len = 70`,
in CRLF mode. -/
theorem find_indexes_increasing_witness :
    List.Pairwise (fun a b => a < b)
      (find_indexes 64 (bufOfList sampleRow) 70 emptyCSV true).2.toList :=
  find_indexes_increasing 64 (bufOfList sampleRow) 70 emptyCSV true (by decide)

/-- With `len` iterations of fuel both loops of `find_indexes` stop because their own test
fails, for every group depth `G ≥ 1`: the fuel is never what ends them. -/
theorem find_indexes_loops_exit (G : Nat) (hG : 1 ≤ G) (undef : Nat) (buf : Nat → Nat)
    (len : Nat) (enable_crlf : Bool) (s : ScanState) :
    (64 * G ≤ len - 64 →
      ¬ (buffered_loop undef G buf enable_crlf (len - 64) len s).idx < len - 64 - 64 * G + 1) ∧
    ¬ (tail_loop undef buf enable_crlf (len - 64) len s).idx < len - 64 := by
  constructor
  · intro h
    exact buffered_loop_exit undef G hG buf enable_crlf (len - 64) h len s (by omega)
  · rw [tail_loop_eq undef buf enable_crlf (len - 64) len s (by omega), iterate_tail_idx]
    omega

/-- Claim C5. For every group depth `G ≥ 1`, and so for `SIMDCSV_BUFFERSIZE = 4`, on every
buffer, length and CRLF mode, `find_indexes` returns the same value and leaves the same
`n_indexes` and the same array as the unbuffered driver that runs only the tail loop; the
buffered loop, entered when `64 * G < len - 64`, ends because its own test fails. -/
theorem buffered_eq_unbuffered (G : Nat) (hG : 1 ≤ G) (undef : Nat) (buf : Nat → Nat)
    (len : Nat) (pcsv : ParsedCSV) (enable_crlf : Bool) :
    find_indexes_with G undef buf len pcsv enable_crlf
      = find_indexes_unbuffered undef buf len pcsv enable_crlf ∧
    find_indexes undef buf len pcsv enable_crlf
      = find_indexes_unbuffered undef buf len pcsv enable_crlf ∧
    (64 * G < len - 64 →
      ¬ (buffered_loop undef G buf enable_crlf (len - 64) len (initial_state pcsv)).idx
          < len - 64 - 64 * G + 1) := by
  refine ⟨?_, ?_, ?_⟩
  · rw [find_indexes_with_eq, find_indexes_unbuffered_eq]
  · unfold find_indexes
    rw [find_indexes_with_eq, find_indexes_unbuffered_eq]
  · intro h
    exact (find_indexes_loops_exit G hG undef buf len enable_crlf (initial_state pcsv)).1
      (by omega)

/-- Claim C5: an instance, group depth 2 on the sample row followed by zero bytes with
`len = 700`, in CRLF mode. -/
theorem buffered_eq_unbuffered_witness :
    find_indexes_with 2 64 (bufOfList sampleRow) 700 emptyCSV true
      = find_indexes_unbuffered 64 (bufOfList sampleRow) 700 emptyCSV true ∧
    find_indexes 64 (bufOfList sampleRow) 700 emptyCSV true
      = find_indexes_unbuffered 64 (bufOfList sampleRow) 700 emptyCSV true ∧
    (64 * 2 < 700 - 64 →
      ¬ (buffered_loop 64 2 (bufOfList sampleRow) true (700 - 64) 700
          (initial_state emptyCSV)).idx < 700 - 64 - 64 * 2 + 1) :=
  buffered_eq_unbuffered 2 (by decide) 64 (bufOfList sampleRow) 700 emptyCSV true

theorem cutList_splitCrlf : cutList true splitCrlfBuf 64 = [] := by decide

/-- Claim C6, counterexample. The buffer `splitCrlfBuf` with `len = 128` has a carriage
return at offset 63 and a line feed at offset 64, outside quotes, yet `find_indexes` in CRLF
mode reports nothing, so not offset 64: the chunk that starts at 64 is not below
`len - 64` and is never examined. -/
theorem crlf_split_counterexample :
    splitCrlfBuf (64 * 1 - 1) = 0x0d ∧ splitCrlfBuf (64 * 1) = 0x0a ∧
    quoteCount splitCrlfBuf (64 * 1) % 2 = 0 ∧
    (∀ undef pcsv, (find_indexes undef splitCrlfBuf 128 pcsv true).2.toList = []) := by
  refine ⟨by decide, by decide, by decide, ?_⟩
  intro undef pcsv
  have h := scan_eq_cutList undef splitCrlfBuf 128 pcsv true (by decide)
  have hS : scannedLen 128 = 64 := by decide
  rw [hS, cutList_splitCrlf] at h
  exact h

/-- Claim C6, amended. In CRLF mode, for every buffer of at most `2 ^ 32` bytes and every
`k ≥ 1` such that the chunk starting at `64 * k` is examined (`64 * k < len - 64`),
`buf[64k-1] = '\r'`, `buf[64k] = '\n'` and an even number of quote bytes precede position
`64 * k`, the index list contains offset `64 * k` exactly once and does not contain offset
`64 * k - 1`. -/
theorem crlf_split (undef : Nat) (buf : Nat → Nat) (len : Nat) (pcsv : ParsedCSV) (k : Nat)
    (hk : 1 ≤ k) (hcr : buf (64 * k - 1) = 0x0d) (hlf : buf (64 * k) = 0x0a)
    (hq : quoteCount buf (64 * k) % 2 = 0) (hscan : 64 * k + 64 < len) (hlen : len ≤ 2 ^ 32) :
    (find_indexes undef buf len pcsv true).2.toList.count (64 * k) = 1 ∧
    64 * k - 1 ∉ (find_indexes undef buf len pcsv true).2.toList := by
  have hS : 64 * k < scannedLen len := by
    unfold scannedLen chunkCount; omega
  have hsorted := find_indexes_sorted_aux undef buf len pcsv true hlen
  constructor
  · apply List.count_eq_one_of_mem hsorted.nodup
    apply (mem_scan undef buf len pcsv true hlen (64 * k)).2
    refine ⟨hS, ?_⟩
    have h1 : 1 ≤ 64 * k := by omega
    simp [isCut, isLineEnd, quoteCount, hlf, hcr, h1, hq]
  · intro hmem
    have hcut := ((mem_scan undef buf len pcsv true hlen (64 * k - 1)).1 hmem).2
    have := (isCut_sound true buf (64 * k - 1) hcut).1
    rw [hcr] at this
    revert this
    decide

/-- Claim C6, amended: an instance, `splitCrlfBuf` with `k = 1` and `len = 129`. -/
theorem crlf_split_witness :
    (find_indexes 64 splitCrlfBuf 129 emptyCSV true).2.toList.count (64 * 1) = 1 ∧
    64 * 1 - 1 ∉ (find_indexes 64 splitCrlfBuf 129 emptyCSV true).2.toList :=
  crlf_split 64 splitCrlfBuf 129 emptyCSV 1 (by decide) (by decide) (by decide) (by decide)
    (by decide) (by decide)

/-- Claim C7, counterexample. On `bigBuf`, of `2 ^ 32 + 65` bytes, in CRLF mode the index
list holds the offset `0`, and the byte at offset 0 is a carriage return: the comma at
offset `2 ^ 32` is stored reduced modulo `2 ^ 32`. -/
theorem crlf_offsets_counterexample :
    0 ∈ (find_indexes 64 bigBuf (2 ^ 32 + 65) emptyCSV true).2.toList ∧ bigBuf 0 = 0x0d := by
  have h := scan_bigBuf 64 emptyCSV true
  unfold scan at h
  rw [h]
  exact ⟨by decide, by decide⟩

/-- Claim C7, amended. In CRLF mode, for every buffer of at most `2 ^ 32` bytes, no offset
in the index list points at a `'\r'` byte, and every listed offset `p` whose byte is not
`','` has `buf[p] = '\n'` with `p ≥ 1` and `buf[p-1] = '\r'`; hence no position holding a
`'\r'` is listed, and no position holding a `'\n'` that is at offset 0 or not right after a
`'\r'` is listed. -/
theorem crlf_offsets (undef : Nat) (buf : Nat → Nat) (len : Nat) (pcsv : ParsedCSV)
    (hlen : len ≤ 2 ^ 32) :
    (∀ p, p ∈ (find_indexes undef buf len pcsv true).2.toList →
      buf p ≠ 0x0d ∧ (buf p ≠ 0x2c → buf p = 0x0a ∧ 1 ≤ p ∧ buf (p - 1) = 0x0d)) ∧
    (∀ p, buf p = 0x0d → p ∉ (find_indexes undef buf len pcsv true).2.toList) ∧
    (∀ p, buf p = 0x0a → (p = 0 ∨ buf (p - 1) ≠ 0x0d) →
      p ∉ (find_indexes undef buf len pcsv true).2.toList) := by
  have main : ∀ p, p ∈ (find_indexes undef buf len pcsv true).2.toList →
      buf p ≠ 0x0d ∧ (buf p ≠ 0x2c → buf p = 0x0a ∧ 1 ≤ p ∧ buf (p - 1) = 0x0d) := by
    intro p hp
    have hcut := ((mem_scan undef buf len pcsv true hlen p).1 hp).2
    obtain ⟨h1, _, h3⟩ := isCut_sound true buf p hcut
    refine ⟨?_, h3 rfl⟩
    rcases h1 with h1 | h1 <;> rw [h1] <;> decide
  refine ⟨main, ?_, ?_⟩
  · intro p hp hmem
    exact (main p hmem).1 hp
  · intro p hp hpre hmem
    have hne : buf p ≠ 0x2c := by rw [hp]; decide
    obtain ⟨_, h1, h2⟩ := (main p hmem).2 hne
    rcases hpre with hpre | hpre
    · omega
    · exact hpre h2

/-- Claim C7, amended: an instance, `splitCrlfBuf` with `len = 200`. -/
theorem crlf_offsets_witness :
    (∀ p, p ∈ (find_indexes 64 splitCrlfBuf 200 emptyCSV true).2.toList →
      splitCrlfBuf p ≠ 0x0d ∧
        (splitCrlfBuf p ≠ 0x2c → splitCrlfBuf p = 0x0a ∧ 1 ≤ p ∧ splitCrlfBuf (p - 1) = 0x0d)) ∧
    (∀ p, splitCrlfBuf p = 0x0d → p ∉ (find_indexes 64 splitCrlfBuf 200 emptyCSV true).2.toList) ∧
    (∀ p, splitCrlfBuf p = 0x0a → (p = 0 ∨ splitCrlfBuf (p - 1) ≠ 0x0d) →
      p ∉ (find_indexes 64 splitCrlfBuf 200 emptyCSV true).2.toList) :=
  crlf_offsets 64 splitCrlfBuf 200 emptyCSV (by decide)

/-! # The claims about `find_quote_mask` and `flatten_bits` -/

/-- Claim C8. For every 64-byte chunk and every carried state in `{0, 2 ^ 64 - 1}`, the mask
returned by `find_quote_mask` is the mask of the naive left-to-right toggle automaton, and
its bit `i`, for `i` in `0..63`, is set iff exactly one of these holds: the carried state is
all ones, the number of quote bytes at the chunk positions `0..i` is odd. -/
theorem find_quote_mask_eq_naive (inp : simd_input) (prev : Nat)
    (h : prev = 0 ∨ prev = 2 ^ 64 - 1) :
    (find_quote_mask inp prev).1 = (naive_quote_scan inp (decide (prev = 2 ^ 64 - 1)) 64).1 ∧
    ∀ i, i < 64 →
      ((find_quote_mask inp prev).1.testBit i = true ↔
        xor (decide (prev = 2 ^ 64 - 1)) (decide (chunkQuotes inp (i + 1) % 2 = 1)) = true) := by
  have hp : prev < 2 ^ 64 := by
    rcases h with h | h <;> subst h <;> decide
  have bit : ∀ i, i < 64 → (find_quote_mask inp prev).1.testBit i =
      xor (decide (prev = 2 ^ 64 - 1)) (decide (chunkQuotes inp (i + 1) % 2 = 1)) := by
    intro i hi
    rw [testBit_find_quote_mask inp prev i hi, testBit_carry prev i h hi, Bool.xor_comm]
  constructor
  · apply Nat.eq_of_testBit_eq
    intro i
    rw [(naive_quote_scan_spec inp _ 64).2 i]
    by_cases hi : i < 64
    · rw [bit i hi]
      simp [hi]
    · have hlt : (find_quote_mask inp prev).1 < 2 ^ i :=
        Nat.lt_of_lt_of_le (find_quote_mask_lt inp prev hp)
          (Nat.pow_le_pow_right (by decide) (by omega))
      rw [Nat.testBit_lt_two_pow hlt]
      simp [hi]
  · intro i hi
    rw [bit i hi]

set_option maxRecDepth 1000000 in
/-- Claim C8: an instance, the chunk that starts with the sample row, entered inside quotes. -/
theorem find_quote_mask_eq_naive_witness :
    (find_quote_mask (chunkAt (bufOfList sampleRow) 0) (2 ^ 64 - 1)).1
      = (naive_quote_scan (chunkAt (bufOfList sampleRow) 0)
          (decide (2 ^ 64 - 1 = 2 ^ 64 - 1)) 64).1 ∧
    ∀ i, i < 64 →
      ((find_quote_mask (chunkAt (bufOfList sampleRow) 0) (2 ^ 64 - 1)).1.testBit i = true ↔
        xor (decide (2 ^ 64 - 1 = 2 ^ 64 - 1))
          (decide (chunkQuotes (chunkAt (bufOfList sampleRow) 0) (i + 1) % 2 = 1)) = true) :=
  find_quote_mask_eq_naive (chunkAt (bufOfList sampleRow) 0) (2 ^ 64 - 1) (Or.inr rfl)

/-- Claim C9. Starting from `prev_iter_inside_quote = 0`, after `find_quote_mask` has been
applied to any sequence of chunks the carried state is `0` or `2 ^ 64 - 1`, and it is
`2 ^ 64 - 1` iff the number of quote bytes in all the chunks processed so far is odd; after
one more chunk `c` it is bit 63 of the mask just returned for `c`, broadcast to all 64 bits. -/
theorem carried_quote_state_spec (chunks : List simd_input) (c : simd_input) :
    (carried_quote_state chunks = 0 ∨ carried_quote_state chunks = 2 ^ 64 - 1) ∧
    (carried_quote_state chunks = 2 ^ 64 - 1 ↔ totalQuotes chunks % 2 = 1) ∧
    carried_quote_state (chunks ++ [c]) =
      (if (find_quote_mask c (carried_quote_state chunks)).1.testBit 63 then 2 ^ 64 - 1
       else 0) ∧
    (carried_quote_state (chunks ++ [c]) = 2 ^ 64 - 1 ↔
      totalQuotes (chunks ++ [c]) % 2 = 1) := by
  have hne : ¬ ((0 : Nat) = 2 ^ 64 - 1) := by decide
  have all : ∀ l : List simd_input,
      (carried_quote_state l = 0 ∨ carried_quote_state l = 2 ^ 64 - 1) ∧
      (carried_quote_state l = 2 ^ 64 - 1 ↔ totalQuotes l % 2 = 1) := by
    intro l
    obtain ⟨a, b⟩ := carried_fold l 0 (Or.inl rfl)
    refine ⟨a, ?_⟩
    unfold carried_quote_state
    rw [b]
    simp [hne]
  obtain ⟨a, b⟩ := all chunks
  refine ⟨a, b, ?_, (all (chunks ++ [c])).2⟩
  have hp : carried_quote_state chunks < 2 ^ 64 := by
    rcases a with a | a <;> rw [a] <;> decide
  have step : carried_quote_state (chunks ++ [c])
      = (find_quote_mask c (carried_quote_state chunks)).2 := by
    unfold carried_quote_state
    rw [List.foldl_append]
    rfl
  rw [step, find_quote_mask_state c _ hp]

theorem trailingzeroes_three (undef : Nat) : trailingzeroes undef 3 = 0 := rfl

theorem trailingzeroes_two (undef : Nat) : trailingzeroes undef 2 = 1 := rfl

theorem clear_lowest_three : clear_lowest 3 = 2 := by decide

theorem clear_lowest_two : clear_lowest 2 = 0 := by decide

theorem flatten_bits_wrap_slot (undef : Nat) :
    (flatten_bits undef (fun _ => 0) (2 ^ 32 - 1) 0 3).1 0 = 1 := by
  rw [flatten_bits_unroll _ _ _ _ _ (by decide)]
  have h : hamming 3 = 2 := rfl
  simp only [h, flatten_run, flatten_store, clear_lowest_three, clear_lowest_two,
    clear_lowest_zero, trailingzeroes_three, trailingzeroes_two]
  simp [store]

/-- Claim C10, counterexample. With the cursor at `2 ^ 32 - 1` and the mask `3`,
`flatten_bits` leaves the cursor at `1`, not at `2 ^ 32 - 1 + 2`, and overwrites slot `0`,
which lies below the incoming cursor: the cursor and the slot number are 32-bit values. -/
theorem flatten_bits_counterexample :
    (∀ undef, (flatten_bits undef (fun _ => 0) (2 ^ 32 - 1) 0 3).2 = 1) ∧
    (∀ undef, (flatten_bits undef (fun _ => 0) (2 ^ 32 - 1) 0 3).1 0 = 1) ∧
    hamming 3 = 2 ∧ (0 : Nat) < 2 ^ 32 - 1 :=
  ⟨fun _ => rfl, flatten_bits_wrap_slot, rfl, by decide⟩

/-- Claim C10, amended. For every 64-bit mask `bits`, chunk offset `idx` and cursor value
`b` with `b + 64 < 2 ^ 32`, after `flatten_bits` the cursor is `b + popcount(bits)`, for
every `j < popcount(bits)` the slot `b + j` holds `idx` plus the position of the `j`-th
lowest set bit of `bits`, reduced modulo `2 ^ 32` (and not reduced at all when
`idx + 64 ≤ 2 ^ 32`), and every slot below `b` is unchanged; this holds for every popcount
from 0 to 64, so on all three paths. -/
theorem flatten_bits_appends (undef : Nat) (base_ptr : Nat → Nat) (b idx bits : Nat)
    (hbits : bits < 2 ^ 64) (hb : b + 64 < 2 ^ 32) :
    (flatten_bits undef base_ptr b idx bits).2 = b + hamming bits ∧
    hamming bits = (bitPositions bits).length ∧
    (∀ j, j < hamming bits →
      (flatten_bits undef base_ptr b idx bits).1 (b + j)
        = (idx + (bitPositions bits).getD j 0) % 2 ^ 32) ∧
    (idx + 64 ≤ 2 ^ 32 → ∀ j, j < hamming bits →
      (flatten_bits undef base_ptr b idx bits).1 (b + j) = idx + (bitPositions bits).getD j 0) ∧
    (∀ s, s < b → (flatten_bits undef base_ptr b idx bits).1 s = base_ptr s) := by
  obtain ⟨f1, f2, f3⟩ := flatten_bits_spec undef base_ptr b idx bits hbits hb
  have hl := hamming_eq_length bits
  have val : ∀ j, j < hamming bits →
      (flatten_bits undef base_ptr b idx bits).1 (b + j)
        = (idx + (bitPositions bits).getD j 0) % 2 ^ 32 := by
    intro j hj
    have hj' : j < (bitPositions bits).length := by omega
    rw [f2 j hj', List.getD_eq_getElem _ _ hj', List.get_eq_getElem]
  refine ⟨by rw [f1, hl], hl, val, ?_, f3⟩
  intro hidx j hj
  rw [val j hj]
  have hj' : j < (bitPositions bits).length := by omega
  have hlt : (bitPositions bits).getD j 0 < 64 := by
    rw [List.getD_eq_getElem _ _ hj']
    exact bitPositions_lt bits _ (List.getElem_mem _)
  exact Nat.mod_eq_of_lt (by omega)

/-- Claim C10, amended: an instance, the mask `0b1010` at chunk offset 64 with the cursor
at 0. -/
theorem flatten_bits_appends_witness :
    (flatten_bits 64 (fun _ => 0) 0 64 10).2 = 0 + hamming 10 ∧
    hamming 10 = (bitPositions 10).length ∧
    (∀ j, j < hamming 10 →
      (flatten_bits 64 (fun _ => 0) 0 64 10).1 (0 + j)
        = (64 + (bitPositions 10).getD j 0) % 2 ^ 32) ∧
    (64 + 64 ≤ 2 ^ 32 → ∀ j, j < hamming 10 →
      (flatten_bits 64 (fun _ => 0) 0 64 10).1 (0 + j) = 64 + (bitPositions 10).getD j 0) ∧
    (∀ s, s < 0 → (flatten_bits 64 (fun _ => 0) 0 64 10).1 s = (fun _ => 0) s) :=
  flatten_bits_appends 64 (fun _ => 0) 0 64 10 (by decide) (by decide)

/-! ## Where `flatten_bits` stores -/

theorem flatten_loop_slots_lt (fuel : Nat) : ∀ (base bits : Nat), base < 2 ^ 32 →
    ∀ s, s ∈ flatten_loop_slots fuel (base, bits) → s < 2 ^ 32 := by
  induction fuel with
  | zero => intro base bits _ s hs; simp [flatten_loop_slots] at hs
  | succ fuel ih =>
    intro base bits hb s hs
    rw [flatten_loop_slots] at hs
    rcases List.mem_cons.1 hs with h | h
    · omega
    · by_cases hz : clear_lowest bits ≠ 0
      · rw [if_pos hz] at h
        exact ih _ _ (Nat.mod_lt _ (by decide)) s h
      · rw [if_neg hz] at h
        simp at h

/-- Every slot `flatten_bits` stores into is a 32-bit value. -/
theorem flatten_bits_slots_lt (base bits s : Nat) (hs : s ∈ flatten_bits_slots base bits) :
    s < 2 ^ 32 := by
  unfold flatten_bits_slots at hs
  by_cases h0 : bits ≠ 0
  · rw [if_pos h0] at hs
    simp only [List.mem_append] at hs
    have hm : ∀ k, (base + k) % 2 ^ 32 < 2 ^ 32 := fun k => Nat.mod_lt _ (by decide)
    rcases hs with (hs | hs) | hs
    · simp only [List.mem_cons, List.mem_singleton, List.not_mem_nil, or_false] at hs
      rcases hs with h | h | h | h | h | h | h | h <;> rw [h] <;> exact hm _
    · by_cases h8 : hamming bits > 8
      · rw [if_pos h8] at hs
        simp only [List.mem_cons, List.mem_singleton, List.not_mem_nil, or_false] at hs
        rcases hs with h | h | h | h | h | h | h | h <;> rw [h] <;> exact hm _
      · rw [if_neg h8] at hs
        simp at hs
    · by_cases h16 : hamming bits > 16
      · rw [if_pos h16] at hs
        exact flatten_loop_slots_lt 64 _ _ (hm 16) s hs
      · rw [if_neg h16] at hs
        simp at hs
  · rw [if_neg h0] at hs
    simp at hs

/-- The slots of the `do ... while` loop when nothing wraps: one per set bit, from the
cursor on. -/
theorem flatten_loop_slots_eq (fuel : Nat) : ∀ (base bits : Nat), 0 < bits → bits < 2 ^ 64 →
    (bitPositions bits).length ≤ fuel → base + (bitPositions bits).length ≤ 2 ^ 32 →
    flatten_loop_slots fuel (base, bits)
      = (List.range (bitPositions bits).length).map (fun j => base + j) := by
  induction fuel with
  | zero =>
    intro base bits h0 h1 hf _
    have := bitPositions_cons bits h0 h1
    rw [this] at hf
    simp at hf
  | succ fuel ih =>
    intro base bits h0 h1 hf hb
    have hc := bitPositions_cons bits h0 h1
    have hlen : (bitPositions bits).length = (bitPositions (clear_lowest bits)).length + 1 := by
      rw [hc]; simp
    rw [flatten_loop_slots, hlen, List.range_succ_eq_map, List.map_cons, List.map_map]
    congr 1
    by_cases hz : clear_lowest bits = 0
    · have hl0 : (bitPositions (clear_lowest bits)).length = 0 := by
        rw [hz, bitPositions_zero]; rfl
      rw [hl0]
      simp [hz]
    · have hpos : 0 < clear_lowest bits := Nat.pos_of_ne_zero hz
      have hl1 : 0 < (bitPositions (clear_lowest bits)).length := by
        have := bitPositions_cons _ hpos (clear_lowest_lt bits h1)
        rw [this]; simp
      have hmod : (base + 1) % 2 ^ 32 = base + 1 := Nat.mod_eq_of_lt (by omega)
      rw [if_pos hz, hmod, ih (base + 1) (clear_lowest bits) hpos (clear_lowest_lt bits h1)
        (by omega) (by omega)]
      apply List.map_congr_left
      intro j _
      simp only [Function.comp, Nat.succ_eq_add_one]
      omega

/-- The slots `flatten_bits` stores into when the cursor is at least 64 slots away from the
end of the 32-bit range: the `flatten_span` slots from the cursor on, for a non-zero mask. -/
theorem flatten_bits_slots_eq (base bits : Nat) (h0 : bits ≠ 0) (h1 : bits < 2 ^ 64)
    (hbase : base + 64 ≤ 2 ^ 32) :
    flatten_bits_slots base bits
      = (List.range (flatten_span (bitPositions bits).length)).map (fun j => base + j) := by
  have hlen := bitPositions_length_le bits
  have hm : ∀ k, k < 64 → (base + k) % 2 ^ 32 = base + k :=
    fun k hk => Nat.mod_eq_of_lt (by omega)
  unfold flatten_bits_slots flatten_span
  rw [if_pos h0, hamming_eq_length]
  simp only [hm 0 (by decide), hm 1 (by decide), hm 2 (by decide), hm 3 (by decide),
    hm 4 (by decide), hm 5 (by decide), hm 6 (by decide), hm 7 (by decide), hm 8 (by decide),
    hm 9 (by decide), hm 10 (by decide), hm 11 (by decide), hm 12 (by decide),
    hm 13 (by decide), hm 14 (by decide), hm 15 (by decide), hm 16 (by decide)]
  by_cases h16 : (bitPositions bits).length > 16
  · have n8 : ¬ (bitPositions bits).length ≤ 8 := by omega
    have n16 : ¬ (bitPositions bits).length ≤ 16 := by omega
    have g8 : (bitPositions bits).length > 8 := by omega
    rw [if_pos h16, if_pos g8, if_neg n8, if_neg n16]
    obtain ⟨hlt, hd⟩ := bitPositions_iterate 16 bits h1
    have hne := iterate_clear_ne_zero 16 bits h1 h16
    have hl : (bitPositions (clear_lowest^[16] bits)).length = (bitPositions bits).length - 16 := by
      rw [hd, List.length_drop]
    rw [flatten_loop_slots_eq 64 (base + 16) _ (Nat.pos_of_ne_zero hne) hlt (by omega)
      (by omega), hl]
    have e : (bitPositions bits).length = 16 + ((bitPositions bits).length - 16) := by omega
    conv => rhs; rw [e, List.range_add, List.map_append, List.map_map]
    congr 1
    apply List.map_congr_left
    intro j _
    simp only [Function.comp]
    omega
  · by_cases h8 : (bitPositions bits).length > 8
    · have n8 : ¬ (bitPositions bits).length ≤ 8 := by omega
      have n16 : (bitPositions bits).length ≤ 16 := by omega
      rw [if_neg h16, if_pos h8, if_neg n8, if_pos n16]
      rfl
    · have n8 : (bitPositions bits).length ≤ 8 := by omega
      rw [if_neg h16, if_neg h8, if_pos n8]
      rfl

theorem flatten_run_frame (undef base idx : Nat) (n : Nat) :
    ∀ (k : Nat) (st : (Nat → Nat) × Nat) (s : Nat),
    (∀ j, j < n → s ≠ (base + (k + j)) % 2 ^ 32) →
    (flatten_run undef base idx k n st).1 s = st.1 s := by
  induction n with
  | zero => intro k st s _; rfl
  | succ n ih =>
    intro k st s h
    rw [flatten_run, ih (k + 1) _ s (fun j hj => by
      have := h (j + 1) (by omega)
      rwa [show k + (j + 1) = k + 1 + j by omega] at this)]
    have h0 := h 0 (by omega)
    exact store_ne _ _ _ _ h0

theorem flatten_loop_frame (undef idx : Nat) (fuel : Nat) :
    ∀ (m : Nat → Nat) (base bits s : Nat), s ∉ flatten_loop_slots fuel (base, bits) →
    (flatten_loop undef idx fuel (m, base, bits)).1 s = m s := by
  induction fuel with
  | zero => intro m base bits s _; rfl
  | succ fuel ih =>
    intro m base bits s h
    rw [flatten_loop_slots, List.mem_cons, not_or] at h
    rw [flatten_loop]
    by_cases hz : clear_lowest bits ≠ 0
    · rw [if_pos hz] at h
      rw [if_pos hz, ih _ _ _ s h.2]
      exact store_ne _ _ _ _ h.1
    · rw [if_neg hz]
      exact store_ne _ _ _ _ h.1

/-- A slot that is not among `flatten_bits_slots` keeps its value across `flatten_bits`:
the list names every store of the call. -/
theorem flatten_bits_frame (undef : Nat) (m : Nat → Nat) (base idx bits s : Nat)
    (h : s ∉ flatten_bits_slots base bits) :
    (flatten_bits undef m base idx bits).1 s = m s := by
  by_cases h0 : bits = 0
  · subst h0; rfl
  · rw [flatten_bits_unroll undef m base idx bits h0]
    unfold flatten_bits_slots at h
    rw [if_pos h0] at h
    simp only [List.mem_append, not_or] at h
    obtain ⟨⟨ha, hb⟩, hc⟩ := h
    simp only [List.mem_cons, List.mem_singleton, List.not_mem_nil, or_false, not_or] at ha
    have f8 : ∀ j, j < 8 → s ≠ (base + (0 + j)) % 2 ^ 32 := by
      intro j hj
      rw [Nat.zero_add]
      interval_cases j
      · exact ha.1
      · exact ha.2.1
      · exact ha.2.2.1
      · exact ha.2.2.2.1
      · exact ha.2.2.2.2.1
      · exact ha.2.2.2.2.2.1
      · exact ha.2.2.2.2.2.2.1
      · exact ha.2.2.2.2.2.2.2
    by_cases h8 : hamming bits > 8
    · rw [if_pos h8] at hb
      simp only [List.mem_cons, List.mem_singleton, List.not_mem_nil, or_false, not_or] at hb
      have f16 : ∀ j, j < 16 → s ≠ (base + (0 + j)) % 2 ^ 32 := by
        intro j hj
        by_cases hj8 : j < 8
        · exact f8 j hj8
        · rw [Nat.zero_add]
          have : j = 8 ∨ j = 9 ∨ j = 10 ∨ j = 11 ∨ j = 12 ∨ j = 13 ∨ j = 14 ∨ j = 15 := by
            omega
          rcases this with e | e | e | e | e | e | e | e <;> subst e
          · exact hb.1
          · exact hb.2.1
          · exact hb.2.2.1
          · exact hb.2.2.2.1
          · exact hb.2.2.2.2.1
          · exact hb.2.2.2.2.2.1
          · exact hb.2.2.2.2.2.2.1
          · exact hb.2.2.2.2.2.2.2
      by_cases h16 : hamming bits > 16
      · rw [if_pos h16] at hc
        simp only [h16, if_true]
        rw [flatten_run_snd] at *
        rw [flatten_loop_frame undef idx 64 _ _ _ s hc]
        exact flatten_run_frame undef base idx 16 0 (m, bits) s f16
      · simp only [h16, h8, if_true, if_false]
        exact flatten_run_frame undef base idx 16 0 (m, bits) s f16
    · have h16 : ¬ hamming bits > 16 := by omega
      simp only [h16, h8, if_false]
      exact flatten_run_frame undef base idx 8 0 (m, bits) s f8

theorem flatten_bits_base_lt (undef : Nat) (m : Nat → Nat) (base idx bits : Nat)
    (hb : base < 2 ^ 32) : (flatten_bits undef m base idx bits).2 < 2 ^ 32 := by
  by_cases h0 : bits = 0
  · subst h0; exact hb
  · rw [flatten_bits_unroll undef m base idx bits h0]
    exact Nat.mod_lt _ (by decide)

/-! ## Where `find_indexes` stores -/

theorem iterate_slots_add (undef : Nat) (buf : Nat → Nat) (enable_crlf : Bool) (n m : Nat) :
    ∀ s : ScanState,
    iterate_slots undef buf enable_crlf (n + m) s =
      iterate_slots undef buf enable_crlf n s ++
        iterate_slots undef buf enable_crlf m ((tail_body undef buf enable_crlf)^[n] s) := by
  induction n with
  | zero => intro s; simp [iterate_slots]
  | succ n ih =>
    intro s
    rw [show n + 1 + m = (n + m) + 1 by omega, iterate_slots, iterate_slots, ih,
      Function.iterate_succ_apply, List.append_assoc]

theorem iterate_slots_succ (undef : Nat) (buf : Nat → Nat) (enable_crlf : Bool) (n : Nat)
    (s : ScanState) :
    iterate_slots undef buf enable_crlf (n + 1) s =
      iterate_slots undef buf enable_crlf n s ++
        tail_body_slots buf enable_crlf ((tail_body undef buf enable_crlf)^[n] s) := by
  rw [iterate_slots_add]
  simp [iterate_slots]

theorem mem_iterate_slots (undef : Nat) (buf : Nat → Nat) (enable_crlf : Bool) (n : Nat)
    (s : ScanState) (x : Nat) (h : x ∈ iterate_slots undef buf enable_crlf n s) :
    ∃ k, k < n ∧ x ∈ tail_body_slots buf enable_crlf ((tail_body undef buf enable_crlf)^[k] s) := by
  induction n with
  | zero => simp [iterate_slots] at h
  | succ n ih =>
    rw [iterate_slots_succ, List.mem_append] at h
    rcases h with h | h
    · obtain ⟨k, hk, hx⟩ := ih h
      exact ⟨k, by omega, hx⟩
    · exact ⟨n, by omega, h⟩

/-- The flattening inner loop of a group stores into the slots `n` tail iterations store
into. -/
theorem flatten_pass_slots (undef : Nat) (buf : Nat → Nat) (enable_crlf : Bool) (s : ScanState)
    (fields : Nat → Nat) (n : Nat)
    (hf : ∀ b, b < n → fields b =
      (classify_chunk buf enable_crlf ((tail_body undef buf enable_crlf)^[b] s).idx
          ((tail_body undef buf enable_crlf)^[b] s).prev_iter_inside_quote
          ((tail_body undef buf enable_crlf)^[b] s).prev_iter_cr_end).1) :
    (List.range n).foldl
      (fun (acc : ((Nat → Nat) × Nat) × List Nat) b =>
        (flatten_bits undef acc.1.1 acc.1.2 ((64 * b + s.idx) % 2 ^ 32) (fields b),
         acc.2 ++ flatten_bits_slots acc.1.2 (fields b)))
      ((s.base_ptr, s.base), [])
      = ((((tail_body undef buf enable_crlf)^[n] s).base_ptr,
          ((tail_body undef buf enable_crlf)^[n] s).base),
         iterate_slots undef buf enable_crlf n s) := by
  induction n with
  | zero => rfl
  | succ n ih =>
    rw [List.range_succ, List.foldl_append, ih (fun b hb => hf b (by omega))]
    simp only [List.foldl_cons, List.foldl_nil]
    rw [hf n (by omega), iterate_slots_succ, Function.iterate_succ_apply']
    have hidx : 64 * n + s.idx = ((tail_body undef buf enable_crlf)^[n] s).idx := by
      rw [iterate_tail_idx]; omega
    rw [hidx]
    rfl

theorem buffered_body_slots_eq (undef G : Nat) (buf : Nat → Nat) (enable_crlf : Bool)
    (s : ScanState) :
    buffered_body_slots undef G buf enable_crlf s = iterate_slots undef buf enable_crlf G s := by
  obtain ⟨_, h2⟩ := classify_pass undef buf enable_crlf s G
  have h3 := flatten_pass_slots undef buf enable_crlf s _ G h2
  unfold buffered_body_slots
  simp only []
  rw [h3]

theorem tail_loop_slots_eq (undef : Nat) (buf : Nat → Nat) (enable_crlf : Bool) (L : Nat)
    (fuel : Nat) : ∀ s : ScanState, (L - s.idx + 63) / 64 ≤ fuel →
    tail_loop_slots undef buf enable_crlf L fuel s
      = iterate_slots undef buf enable_crlf ((L - s.idx + 63) / 64) s := by
  induction fuel with
  | zero =>
    intro s h
    have : (L - s.idx + 63) / 64 = 0 := by omega
    rw [this]; rfl
  | succ fuel ih =>
    intro s h
    rw [tail_loop_slots]
    by_cases hlt : s.idx < L
    · rw [if_pos hlt, ih _ (by rw [tail_body_idx]; omega), tail_body_idx]
      have : (L - s.idx + 63) / 64 = (L - (s.idx + 64) + 63) / 64 + 1 := by omega
      rw [this, iterate_slots]
    · rw [if_neg hlt]
      have : (L - s.idx + 63) / 64 = 0 := by omega
      rw [this]; rfl

theorem buffered_loop_slots_eq (undef G : Nat) (buf : Nat → Nat) (enable_crlf : Bool) (L : Nat)
    (hL : 64 * G ≤ L) (fuel : Nat) : ∀ s : ScanState, s.idx ≤ L →
    ∃ m, buffered_loop undef G buf enable_crlf L fuel s
        = (tail_body undef buf enable_crlf)^[m] s ∧
      buffered_loop_slots undef G buf enable_crlf L fuel s
        = iterate_slots undef buf enable_crlf m s ∧ s.idx + 64 * m ≤ L := by
  induction fuel with
  | zero => intro s h; exact ⟨0, rfl, rfl, by omega⟩
  | succ fuel ih =>
    intro s h
    rw [buffered_loop, buffered_loop_slots]
    by_cases hlt : s.idx < L - 64 * G + 1
    · rw [if_pos hlt, if_pos hlt, buffered_body_eq, buffered_body_slots_eq]
      have hidx := iterate_tail_idx undef buf enable_crlf G s
      obtain ⟨m, e, es, hm⟩ := ih ((tail_body undef buf enable_crlf)^[G] s)
        (by rw [hidx]; omega)
      refine ⟨G + m, ?_, ?_, ?_⟩
      · rw [e, Nat.add_comm G m, Function.iterate_add_apply]
      · rw [es, iterate_slots_add]
      · rw [hidx] at hm; omega
    · rw [if_neg hlt, if_neg hlt]
      exact ⟨0, rfl, rfl, by omega⟩

/-- For every group depth, the slots `find_indexes` stores into are those of
`chunkCount len` tail iterations from the initial state, in the same order. -/
theorem find_indexes_slots_with_eq (G undef : Nat) (buf : Nat → Nat) (len : Nat)
    (pcsv : ParsedCSV) (enable_crlf : Bool) :
    find_indexes_slots_with G undef buf len pcsv enable_crlf =
      iterate_slots undef buf enable_crlf (chunkCount len) (initial_state pcsv) := by
  have hL : (if len < 64 then 0 else len - 64) = len - 64 := by
    split <;> omega
  unfold find_indexes_slots_with
  simp only [hL]
  by_cases hg : len - 64 > 64 * G
  · rw [if_pos hg, if_pos hg]
    obtain ⟨m, e, es, hm⟩ := buffered_loop_slots_eq undef G buf enable_crlf (len - 64)
      (by omega) len (initial_state pcsv) (Nat.zero_le _)
    have h0 : (initial_state pcsv).idx = 0 := rfl
    rw [h0] at hm
    have hidx := iterate_tail_idx undef buf enable_crlf m (initial_state pcsv)
    rw [h0] at hidx
    rw [e, es, tail_loop_slots_eq _ _ _ _ _ _ (by rw [hidx]; omega), hidx,
      ← iterate_slots_add]
    congr 1
    unfold chunkCount
    omega
  · rw [if_neg hg, if_neg hg, List.nil_append,
      tail_loop_slots_eq _ _ _ _ _ _ (by show (len - 64 - 0 + 63) / 64 ≤ len; omega)]
    rfl

/-- The carried states after `k` chunks, whatever the cursor does: `idx` is `64 * k` and
the quote and carriage-return states are those of offset `64 * k`. -/
theorem scan_carried (undef : Nat) (buf : Nat → Nat) (pcsv : ParsedCSV) (enable_crlf : Bool)
    (k : Nat) :
    ((tail_body undef buf enable_crlf)^[k] (initial_state pcsv)).idx = 64 * k ∧
    ((tail_body undef buf enable_crlf)^[k] (initial_state pcsv)).prev_iter_inside_quote
      = quoteCarry buf (64 * k) ∧
    ((tail_body undef buf enable_crlf)^[k] (initial_state pcsv)).prev_iter_cr_end
      = crCarry enable_crlf buf (64 * k) ∧
    ((tail_body undef buf enable_crlf)^[k] (initial_state pcsv)).base < 2 ^ 32 := by
  induction k with
  | zero =>
    refine ⟨rfl, rfl, ?_, ?_⟩
    · unfold crCarry initial_state
      simp
    · show 0 < 2 ^ 32
      decide
  | succ k ih =>
    obtain ⟨hidx, hq, hc, hb⟩ := ih
    rw [Function.iterate_succ_apply']
    generalize (tail_body undef buf enable_crlf)^[k] (initial_state pcsv) = t at hidx hq hc hb
    obtain ⟨_, sq, sc⟩ := classify_chunk_spec buf enable_crlf (64 * k)
    unfold tail_body
    simp only []
    rw [hidx, hq, hc]
    exact ⟨by omega, sq, sc, flatten_bits_base_lt _ _ _ _ _ hb⟩

theorem iterate_frame (undef : Nat) (buf : Nat → Nat) (enable_crlf : Bool) (n : Nat) :
    ∀ (s : ScanState) (x : Nat), x ∉ iterate_slots undef buf enable_crlf n s →
    ((tail_body undef buf enable_crlf)^[n] s).base_ptr x = s.base_ptr x := by
  induction n with
  | zero => intro s x _; rfl
  | succ n ih =>
    intro s x h
    rw [iterate_slots, List.mem_append, not_or] at h
    rw [Function.iterate_succ_apply, ih _ x h.2]
    exact flatten_bits_frame undef _ _ _ _ x h.1

theorem flatten_span_le (cnt : Nat) (h : cnt ≤ 64) : flatten_span cnt ≤ 64 := by
  unfold flatten_span
  split
  · omega
  · split <;> omega

theorem scannedLen_le (len : Nat) : scannedLen len ≤ len := by
  by_cases h : len ≤ 64
  · rw [scannedLen_small len h]; omega
  · exact Nat.le_of_lt (scannedLen_lt len (by omega))

/-- The cursor before chunk `k` of a buffer of at most `2 ^ 32` bytes: the number of cut
positions below `64 * k`, so at most `64 * k`. -/
theorem cursor_le (undef : Nat) (buf : Nat → Nat) (len : Nat) (pcsv : ParsedCSV)
    (enable_crlf : Bool) (hlen : len ≤ 2 ^ 32) (k : Nat) (hk : k ≤ chunkCount len) :
    ((tail_body undef buf enable_crlf)^[k] (initial_state pcsv)).base
      = (cutList enable_crlf buf (64 * k)).length ∧
    ((tail_body undef buf enable_crlf)^[k] (initial_state pcsv)).base ≤ 64 * k := by
  have hS := scannedLen_le len
  have hS' : 64 < len → scannedLen len < len := scannedLen_lt len
  have hle := cutList_length_le enable_crlf buf (64 * (k - 1))
  have hh : (cutList enable_crlf buf (64 * (k - 1))).length + 64 < 2 ^ 32 := by
    unfold scannedLen at hS hS'
    by_cases hk0 : k = 0
    · subst hk0
      have : (cutList enable_crlf buf (64 * (0 - 1))).length = 0 := rfl
      omega
    · have : 64 < len := by
        unfold chunkCount at hk; omega
      have := hS' this
      omega
  obtain ⟨_, _, _, hb, _⟩ := scan_invariant undef buf pcsv enable_crlf k hh
  rw [hb]
  exact ⟨rfl, cutList_length_le enable_crlf buf (64 * k)⟩

/-- Claim C11. For every buffer, length `len` and CRLF mode, every store `find_indexes`
performs into `pcsv->indexes`, the stores `flatten_bits` makes past the valid entries
included, is to a slot below `len`; the final `n_indexes` is at most `len`; and every slot
that is not stored into, so every slot from `len` on, keeps its value. -/
theorem find_indexes_stores_in_span (undef : Nat) (buf : Nat → Nat) (len : Nat)
    (pcsv : ParsedCSV) (enable_crlf : Bool) :
    (∀ slot, slot ∈ find_indexes_slots undef buf len pcsv enable_crlf → slot < len) ∧
    (find_indexes undef buf len pcsv enable_crlf).2.n_indexes ≤ len ∧
    (∀ slot, slot ∉ find_indexes_slots undef buf len pcsv enable_crlf →
      (find_indexes undef buf len pcsv enable_crlf).2.indexes slot = pcsv.indexes slot) ∧
    (∀ slot, len ≤ slot →
      (find_indexes undef buf len pcsv enable_crlf).2.indexes slot = pcsv.indexes slot) := by
  have hslots : find_indexes_slots undef buf len pcsv enable_crlf =
      iterate_slots undef buf enable_crlf (chunkCount len) (initial_state pcsv) := by
    unfold find_indexes_slots
    exact find_indexes_slots_with_eq _ _ _ _ _ _
  have hres := find_indexes_with_eq SIMDCSV_BUFFERSIZE undef buf len pcsv enable_crlf
  have hin : ∀ slot, slot ∈ find_indexes_slots undef buf len pcsv enable_crlf → slot < len := by
    intro slot hs
    rw [hslots] at hs
    obtain ⟨k, hk, hx⟩ := mem_iterate_slots undef buf enable_crlf _ _ slot hs
    have h32 := flatten_bits_slots_lt _ _ slot hx
    by_cases hlen : len ≤ 2 ^ 32
    · obtain ⟨hidx, hq, hc, _⟩ := scan_carried undef buf pcsv enable_crlf k
      obtain ⟨_, hb⟩ := cursor_le undef buf len pcsv enable_crlf hlen k (by omega)
      unfold tail_body_slots at hx
      rw [hidx, hq, hc] at hx
      have hlt := classify_chunk_lt buf enable_crlf (64 * k)
      have h64 : 64 < len := by
        unfold chunkCount at hk; omega
      have hS := scannedLen_lt len h64
      unfold scannedLen at hS
      by_cases h0 : (classify_chunk buf enable_crlf (64 * k) (quoteCarry buf (64 * k))
          (crCarry enable_crlf buf (64 * k))).1 = 0
      · rw [h0] at hx
        simp [flatten_bits_slots] at hx
      · rw [flatten_bits_slots_eq _ _ h0 hlt (by omega), List.mem_map] at hx
        obtain ⟨j, hj, rfl⟩ := hx
        have := flatten_span_le _ (bitPositions_length_le
          (classify_chunk buf enable_crlf (64 * k) (quoteCarry buf (64 * k))
            (crCarry enable_crlf buf (64 * k))).1)
        have := List.mem_range.1 hj
        omega
    · omega
  have hframe : ∀ slot, slot ∉ find_indexes_slots undef buf len pcsv enable_crlf →
      (find_indexes undef buf len pcsv enable_crlf).2.indexes slot = pcsv.indexes slot := by
    intro slot hs
    rw [hslots] at hs
    unfold find_indexes
    rw [hres]
    exact iterate_frame undef buf enable_crlf _ _ slot hs
  refine ⟨hin, ?_, hframe, ?_⟩
  · unfold find_indexes
    rw [hres]
    show ((tail_body undef buf enable_crlf)^[chunkCount len] (initial_state pcsv)).base ≤ len
    by_cases hlen : len ≤ 2 ^ 32
    · obtain ⟨_, hb⟩ := cursor_le undef buf len pcsv enable_crlf hlen (chunkCount len)
        (Nat.le_refl _)
      have := scannedLen_le len
      unfold scannedLen at this
      omega
    · have := (scan_carried undef buf pcsv enable_crlf (chunkCount len)).2.2.2
      omega
  · intro slot hs
    apply hframe
    intro hmem
    have := hin slot hmem
    omega

/-- Claim C15. For every 64-byte window and every target byte `m`,
`cmp_mask_against_input` returns a 64-bit value whose bit `i`, for `i` in `0..63`, is set
iff byte `i` of the window equals `m`; this includes the case where byte 63 matches, in
which the movemask of the high half is negative and is widened to 64 bits with its sign
before the shift by 32. -/
theorem cmp_mask_against_input_bits (inp : simd_input) (m : Nat) :
    cmp_mask_against_input inp m < 2 ^ 64 ∧
    (∀ i, i < 64 → ((cmp_mask_against_input inp m).testBit i = true ↔ inp.byte i = m)) ∧
    (inp.byte 63 = m →
      mm256_movemask_epi8 (mm256_cmpeq_epi8 inp.hi (mm256_set1_epi8 m)) < 0 ∧
      2 ^ 63 ≤ toUInt64 (mm256_movemask_epi8 (mm256_cmpeq_epi8 inp.hi (mm256_set1_epi8 m))) ∧
      (cmp_mask_against_input inp m).testBit 63 = true) := by
  refine ⟨cmp_mask_lt inp m, ?_, ?_⟩
  · intro i hi
    rw [testBit_cmp_byte]
    simp [hi]
  · intro h63
    have hb : (maskOfLanes (fun i => ((mm256_cmpeq_epi8 inp.hi (mm256_set1_epi8 m)) i).testBit 7)
        32).testBit 31 = true := by
      rw [testBit_maskOfLanes, cmpeq_top_bit]
      have : inp.hi 31 = m := by
        unfold simd_input.byte at h63
        simpa using h63
      simp [this]
    have hge := Nat.testBit_implies_ge hb
    have hlt := maskOfLanes_lt
      (fun i => ((mm256_cmpeq_epi8 inp.hi (mm256_set1_epi8 m)) i).testBit 7) 32
    refine ⟨?_, ?_, ?_⟩
    · unfold mm256_movemask_epi8 toInt32
      split <;> omega
    · unfold mm256_movemask_epi8
      rw [toUInt64_toInt32 _ hlt]
      split <;> omega
    · rw [testBit_cmp_byte]
      simp [h63]

/-- Claim C15: an instance, a window whose last byte is the only comma. -/
theorem cmp_mask_against_input_bits_witness :
    mm256_movemask_epi8 (mm256_cmpeq_epi8
      (simd_input.mk (fun _ => 0x61) (fun i => if i = 31 then 0x2c else 0x61)).hi
      (mm256_set1_epi8 0x2c)) < 0 ∧
    2 ^ 63 ≤ toUInt64 (mm256_movemask_epi8 (mm256_cmpeq_epi8
      (simd_input.mk (fun _ => 0x61) (fun i => if i = 31 then 0x2c else 0x61)).hi
      (mm256_set1_epi8 0x2c))) ∧
    (cmp_mask_against_input
      (simd_input.mk (fun _ => 0x61) (fun i => if i = 31 then 0x2c else 0x61)) 0x2c).testBit 63
      = true :=
  (cmp_mask_against_input_bits
    (simd_input.mk (fun _ => 0x61) (fun i => if i = 31 then 0x2c else 0x61)) 0x2c).2.2
    (by decide)

set_option maxRecDepth 1000000 in
/-- Claim C16, counterexample. With the cursor at `2 ^ 32 - 4` and the mask `0xFF`,
`flatten_bits` stores into the slots `0, 1, 2, 3`, which lie below the incoming cursor, and
slot 0 of an array of zeros ends up holding 4: the slot expressions `(*base) + k` are 32-bit
values and wrap. -/
theorem flatten_bits_slots_counterexample :
    flatten_bits_slots (2 ^ 32 - 4) 0xFF
      = [2 ^ 32 - 4, 2 ^ 32 - 3, 2 ^ 32 - 2, 2 ^ 32 - 1, 0, 1, 2, 3] ∧
    (0 : Nat) < 2 ^ 32 - 4 ∧ (0xFF : Nat) ≠ 0 ∧
    (flatten_bits 64 (fun _ => 0) (2 ^ 32 - 4) 0 0xFF).1 0 = 4 := by
  refine ⟨by decide, by decide, by decide, by decide⟩

/-- Claim C16, amended. For every 64-bit mask `bits ≠ 0`, every `idx` and every cursor
value `b` with `b + 64 ≤ 2 ^ 32`, `flatten_bits` stores exactly into the slots
`b, ..., b + m - 1`, in that order, where `m` is 8 if `popcount(bits) ≤ 8`, 16 if
`9 ≤ popcount(bits) ≤ 16` and `popcount(bits)` otherwise; `m` is at most 64 and at least
`popcount(bits)`, and every slot below `b` or from `b + m` on keeps its value. For
`bits = 0` and every cursor value it stores nothing and leaves the array and the cursor
unchanged. -/
theorem flatten_bits_store_span (undef : Nat) (base_ptr : Nat → Nat) (b idx bits : Nat)
    (h0 : bits ≠ 0) (hbits : bits < 2 ^ 64) (hb : b + 64 ≤ 2 ^ 32) :
    flatten_bits_slots b bits
      = (List.range (if hamming bits ≤ 8 then 8 else if hamming bits ≤ 16 then 16
          else hamming bits)).map (fun j => b + j) ∧
    (if hamming bits ≤ 8 then 8 else if hamming bits ≤ 16 then 16 else hamming bits) ≤ 64 ∧
    hamming bits ≤
      (if hamming bits ≤ 8 then 8 else if hamming bits ≤ 16 then 16 else hamming bits) ∧
    (∀ s, s < b ∨
        b + (if hamming bits ≤ 8 then 8 else if hamming bits ≤ 16 then 16 else hamming bits) ≤ s →
      (flatten_bits undef base_ptr b idx bits).1 s = base_ptr s) ∧
    flatten_bits_slots b 0 = [] ∧
    flatten_bits undef base_ptr b idx 0 = (base_ptr, b) := by
  have hl := hamming_eq_length bits
  have hsp : (if hamming bits ≤ 8 then 8 else if hamming bits ≤ 16 then 16 else hamming bits)
      = flatten_span (bitPositions bits).length := by
    rw [hl]; rfl
  rw [hsp]
  have hle := bitPositions_length_le bits
  refine ⟨flatten_bits_slots_eq b bits h0 hbits hb, flatten_span_le _ hle, ?_, ?_, rfl, rfl⟩
  · rw [hl]; exact flatten_span_ge _
  · intro s hs
    apply flatten_bits_frame
    rw [flatten_bits_slots_eq b bits h0 hbits hb, List.mem_map]
    rintro ⟨j, hj, rfl⟩
    have := List.mem_range.1 hj
    omega

/-- Claim C16, amended: an instance, the mask `0b1010` with the cursor at 5. -/
theorem flatten_bits_store_span_witness :
    flatten_bits_slots 5 10
      = (List.range (if hamming 10 ≤ 8 then 8 else if hamming 10 ≤ 16 then 16
          else hamming 10)).map (fun j => 5 + j) ∧
    (if hamming 10 ≤ 8 then 8 else if hamming 10 ≤ 16 then 16 else hamming 10) ≤ 64 ∧
    hamming 10 ≤
      (if hamming 10 ≤ 8 then 8 else if hamming 10 ≤ 16 then 16 else hamming 10) ∧
    (∀ s, s < 5 ∨
        5 + (if hamming 10 ≤ 8 then 8 else if hamming 10 ≤ 16 then 16 else hamming 10) ≤ s →
      (flatten_bits 64 (fun _ => 0) 5 64 10).1 s = (fun _ => 0) s) ∧
    flatten_bits_slots 5 0 = [] ∧
    flatten_bits 64 (fun _ => 0) 5 64 0 = (fun _ => 0, 5) :=
  flatten_bits_store_span 64 (fun _ => 0) 5 64 10 (by decide) (by decide) (by decide)

theorem cmp_chunk_congr (buf buf' : Nat → Nat) (idx m : Nat)
    (h : ∀ i, i < 64 → buf' (idx + i) = buf (idx + i)) :
    cmp_mask_against_input (chunkAt buf' idx) m = cmp_mask_against_input (chunkAt buf idx) m := by
  apply Nat.eq_of_testBit_eq
  intro i
  rw [testBit_chunk_cmp, testBit_chunk_cmp]
  by_cases hi : i < 64
  · rw [h i hi]
  · simp [hi]

theorem classify_chunk_congr (buf buf' : Nat → Nat) (enable_crlf : Bool) (idx q c : Nat)
    (h : ∀ i, i < 64 → buf' (idx + i) = buf (idx + i)) :
    classify_chunk buf' enable_crlf idx q c = classify_chunk buf enable_crlf idx q c := by
  have hq : find_quote_mask (chunkAt buf' idx) q = find_quote_mask (chunkAt buf idx) q := by
    unfold find_quote_mask
    rw [cmp_chunk_congr buf buf' idx _ h]
  rw [classify_chunk_eq, classify_chunk_eq, hq, cmp_chunk_congr buf buf' idx 0x0a h,
    cmp_chunk_congr buf buf' idx 0x0d h, cmp_chunk_congr buf buf' idx 0x2c h]

theorem tail_body_congr (undef : Nat) (buf buf' : Nat → Nat) (enable_crlf : Bool)
    (s : ScanState) (h : ∀ i, i < 64 → buf' (s.idx + i) = buf (s.idx + i)) :
    tail_body undef buf' enable_crlf s = tail_body undef buf enable_crlf s := by
  unfold tail_body
  rw [classify_chunk_congr buf buf' enable_crlf _ _ _ h]

/-- Two buffers that agree below `64 * n` drive the first `n` chunk iterations alike. -/
theorem iterate_congr (undef : Nat) (buf buf' : Nat → Nat) (enable_crlf : Bool)
    (pcsv : ParsedCSV) (n : Nat) (h : ∀ p, p < 64 * n → buf' p = buf p) :
    (tail_body undef buf' enable_crlf)^[n] (initial_state pcsv)
      = (tail_body undef buf enable_crlf)^[n] (initial_state pcsv) := by
  induction n with
  | zero => rw [Function.iterate_zero_apply, Function.iterate_zero_apply]
  | succ n ih =>
    have ih' := ih (fun p hp => h p (by omega))
    have hidx := (scan_carried undef buf pcsv enable_crlf n).1
    rw [Function.iterate_succ_apply', Function.iterate_succ_apply', ih']
    generalize (tail_body undef buf enable_crlf)^[n] (initial_state pcsv) = t at hidx
    apply tail_body_congr
    intro i hi
    rw [hidx]
    exact h _ (by omega)

/-! ## The entries of the output array are 32-bit values -/

theorem store_bound (m : Nat → Nat) (k v : Nat) (hm : ∀ s, m s < 2 ^ 32) (hv : v < 2 ^ 32) :
    ∀ s, store m k v s < 2 ^ 32 := by
  intro s
  unfold store
  split
  · exact hv
  · exact hm s

theorem flatten_run_bound (undef base idx : Nat) (n : Nat) :
    ∀ (k : Nat) (st : (Nat → Nat) × Nat), (∀ s, st.1 s < 2 ^ 32) →
    ∀ s, (flatten_run undef base idx k n st).1 s < 2 ^ 32 := by
  induction n with
  | zero => intro k st h s; exact h s
  | succ n ih =>
    intro k st h s
    rw [flatten_run]
    exact ih (k + 1) _ (store_bound _ _ _ h (Nat.mod_lt _ (by decide))) s

theorem flatten_loop_bound (undef idx : Nat) (fuel : Nat) :
    ∀ (m : Nat → Nat) (base bits : Nat), (∀ s, m s < 2 ^ 32) →
    ∀ s, (flatten_loop undef idx fuel (m, base, bits)).1 s < 2 ^ 32 := by
  induction fuel with
  | zero => intro m base bits h s; exact h s
  | succ fuel ih =>
    intro m base bits h s
    rw [flatten_loop]
    have hs := store_bound m base ((idx + trailingzeroes undef bits) % 2 ^ 32) h
      (Nat.mod_lt _ (by decide))
    by_cases hz : clear_lowest bits ≠ 0
    · rw [if_pos hz]
      exact ih _ _ _ hs s
    · rw [if_neg hz]
      exact hs s

/-- `flatten_bits` stores 32-bit values only: an array of 32-bit values stays one. -/
theorem flatten_bits_bound (undef : Nat) (m : Nat → Nat) (base idx bits : Nat)
    (h : ∀ s, m s < 2 ^ 32) : ∀ s, (flatten_bits undef m base idx bits).1 s < 2 ^ 32 := by
  intro s
  by_cases h0 : bits = 0
  · subst h0; exact h s
  · rw [flatten_bits_unroll undef m base idx bits h0]
    simp only []
    split
    · exact flatten_loop_bound undef idx 64 _ _ _
        (flatten_run_bound undef base idx 16 0 (m, bits) h) s
    · split
      · exact flatten_run_bound undef base idx 16 0 (m, bits) h s
      · exact flatten_run_bound undef base idx 8 0 (m, bits) h s

theorem iterate_bound (undef : Nat) (buf : Nat → Nat) (enable_crlf : Bool) (n : Nat) :
    ∀ (s : ScanState), (∀ x, s.base_ptr x < 2 ^ 32) →
    ∀ x, ((tail_body undef buf enable_crlf)^[n] s).base_ptr x < 2 ^ 32 := by
  induction n with
  | zero => intro s h x; exact h x
  | succ n ih =>
    intro s h x
    rw [Function.iterate_succ_apply]
    exact ih _ (flatten_bits_bound undef _ _ _ _ h) x

/-- Claim C19, counterexample. On `bigBuf`, of `2 ^ 32 + 65` bytes, the scanned prefix ends
at `2 ^ 32 + 64` and its cut positions are `5` and `2 ^ 32`, but `find_indexes` leaves the
list `[5, 0]`: the offset of the second comma is stored as a 32-bit value. -/
theorem find_indexes_scans_chunks_counterexample :
    scannedLen (2 ^ 32 + 65) = 2 ^ 32 + 64 ∧
    cutList true bigBuf (scannedLen (2 ^ 32 + 65)) = [5, 2 ^ 32] ∧
    (find_indexes 64 bigBuf (2 ^ 32 + 65) emptyCSV true).2.toList = [5, 0] := by
  have hS : scannedLen (2 ^ 32 + 65) = 2 ^ 32 + 64 := by decide
  refine ⟨hS, ?_, scan_bigBuf 64 emptyCSV true⟩
  rw [hS]
  exact cutList_bigBuf true

/-- Claim C19, amended. For every buffer, length `len` and CRLF mode, `find_indexes` runs
one chunk iteration for each multiple of 64 strictly below `len - 64` and no other (none
when `len ≤ 64`), the `k`-th of them on the chunk at `64 * k`. With
`S = scannedLen len = 64 * ceil((len - 64) / 64)` (0 when `len ≤ 64`), its result does not
depend on the bytes `buf[S..len)`, `n_indexes = 0` whenever `len ≤ 64`, and between 1 and 64
trailing bytes of any non-empty input are never scanned. When `len ≤ 2 ^ 32`, its output is
the ascending list of all cut positions `p < S` of the prefix `buf[0..S)`. Every emitted
offset is below `len - 1`, for `len ≤ 2 ^ 32` and also for a longer buffer, the entries of
the array being 32-bit values. -/
theorem find_indexes_scans_chunks (undef : Nat) (buf : Nat → Nat) (len : Nat)
    (pcsv : ParsedCSV) (enable_crlf : Bool) :
    (∀ k, 64 * k < len - 64 ↔ k < chunkCount len) ∧
    find_indexes undef buf len pcsv enable_crlf =
      (true,
       { n_indexes := ((tail_body undef buf enable_crlf)^[chunkCount len]
            (initial_state pcsv)).base,
         indexes := ((tail_body undef buf enable_crlf)^[chunkCount len]
            (initial_state pcsv)).base_ptr }) ∧
    (∀ k, ((tail_body undef buf enable_crlf)^[k] (initial_state pcsv)).idx = 64 * k) ∧
    (∀ buf' : Nat → Nat, (∀ p, p < scannedLen len → buf' p = buf p) →
      find_indexes undef buf' len pcsv enable_crlf
        = find_indexes undef buf len pcsv enable_crlf) ∧
    (len ≤ 64 → (find_indexes undef buf len pcsv enable_crlf).2.n_indexes = 0) ∧
    (1 ≤ len → scannedLen len < len ∧ len ≤ scannedLen len + 64) ∧
    (len ≤ 2 ^ 32 →
      (find_indexes undef buf len pcsv enable_crlf).2.toList
        = cutList enable_crlf buf (scannedLen len)) ∧
    (len ≤ 2 ^ 32 ∨ (∀ s, pcsv.indexes s < 2 ^ 32) →
      ∀ p, p ∈ (find_indexes undef buf len pcsv enable_crlf).2.toList → p + 1 < len) := by
  have hres : ∀ b : Nat → Nat, find_indexes undef b len pcsv enable_crlf =
      (true,
       { n_indexes := ((tail_body undef b enable_crlf)^[chunkCount len]
            (initial_state pcsv)).base,
         indexes := ((tail_body undef b enable_crlf)^[chunkCount len]
            (initial_state pcsv)).base_ptr }) := by
    intro b
    unfold find_indexes
    exact find_indexes_with_eq _ _ _ _ _ _
  refine ⟨?_, hres buf, fun k => (scan_carried undef buf pcsv enable_crlf k).1, ?_, ?_, ?_,
    scan_eq_cutList undef buf len pcsv enable_crlf, ?_⟩
  · intro k
    unfold chunkCount
    omega
  · intro buf' h
    rw [hres buf', hres buf, iterate_congr undef buf buf' enable_crlf pcsv (chunkCount len) h]
  · intro h
    rw [← toList_length]
    exact congrArg List.length (scan_small undef buf len pcsv enable_crlf h)
  · intro h
    unfold scannedLen chunkCount
    omega
  · intro h p hp
    by_cases hlen : len ≤ 2 ^ 32
    · exact scan_lt_len undef buf len pcsv enable_crlf hlen p hp
    · have hty : ∀ s, pcsv.indexes s < 2 ^ 32 := by
        rcases h with h | h
        · exact absurd h hlen
        · exact h
      rw [hres buf] at hp
      unfold ParsedCSV.toList at hp
      obtain ⟨x, _, rfl⟩ := List.mem_map.1 hp
      have := iterate_bound undef buf enable_crlf (chunkCount len) (initial_state pcsv) hty x
      show ((tail_body undef buf enable_crlf)^[chunkCount len] (initial_state pcsv)).base_ptr x
        + 1 < len
      omega

/-- Claim C19, amended: an instance, the output for the sample row followed by zero bytes
with `len = 70`. -/
theorem find_indexes_scans_chunks_witness :
    (find_indexes 64 (bufOfList sampleRow) 70 emptyCSV false).2.toList
        = cutList false (bufOfList sampleRow) (scannedLen 70) :=
  (find_indexes_scans_chunks 64 (bufOfList sampleRow) 70 emptyCSV false).2.2.2.2.2.2.1
    (by decide)

end Baseops

namespace Runtime

open Baseops

/-! ## The partition of `reduce` -/

theorem toUInt64_natCast (n : Nat) (h : n < 2 ^ 64) : toUInt64 (n : Int) = n := by
  unfold toUInt64
  omega

theorem toInt32_natCast (n : Nat) (h : n < 2 ^ 31) : toInt32 n = (n : Int) := by
  unfold toInt32
  split <;> omega

theorem span_eq (N total : Nat) (hN : N < 2 ^ 64) : span (N : Int) total = total / N := by
  unfold span
  rw [toUInt64_natCast N hN]

theorem mul_span_le (N total id : Nat) (hid : id ≤ N) : id * (total / N) ≤ total :=
  (Nat.mul_le_mul_right _ hid).trans (Nat.mul_div_le total N)

theorem blk_start_eq (N total id : Nat) (hN : N < 2 ^ 64) (ht : total < 2 ^ 64)
    (hid : id ≤ N) : blk_start (N : Int) total (id : Int) = id * (total / N) := by
  unfold blk_start
  rw [span_eq N total hN, toUInt64_natCast id (by omega)]
  exact Nat.mod_eq_of_lt (Nat.lt_of_le_of_lt (mul_span_le N total id hid) ht)

theorem blk_len_eq (N total id : Nat) (hN : N < 2 ^ 64) (ht : total < 2 ^ 64)
    (hid : id < N) :
    blk_len (N : Int) total (id : Int) =
      if id + 1 = N then total - id * (total / N) else total / N := by
  unfold blk_len
  rw [blk_start_eq N total id hN ht (by omega), span_eq N total hN]
  have hle := mul_span_le N total id (by omega)
  by_cases h : id + 1 = N
  · have h' : (id : Int) = (N : Int) - 1 := by omega
    rw [if_pos h, if_pos h']
    omega
  · have h' : ¬ (id : Int) = (N : Int) - 1 := by omega
    rw [if_neg h, if_neg h']

/-- The block of every worker but the last one ends where the next one starts. -/
theorem blk_next (N total id : Nat) (hN : N < 2 ^ 64) (ht : total < 2 ^ 64)
    (hid : id + 1 < N) :
    blk_start (N : Int) total ((id + 1 : Nat) : Int) =
      blk_start (N : Int) total (id : Int) + blk_len (N : Int) total (id : Int) := by
  rw [blk_start_eq N total (id + 1) hN ht (by omega), blk_start_eq N total id hN ht (by omega),
    blk_len_eq N total id hN ht (by omega), if_neg (by omega), Nat.succ_mul]

/-- The block of the last worker ends at `total`. -/
theorem blk_last (N total : Nat) (hN1 : 1 ≤ N) (hN : N < 2 ^ 64) (ht : total < 2 ^ 64) :
    blk_start (N : Int) total ((N - 1 : Nat) : Int) + blk_len (N : Int) total ((N - 1 : Nat) : Int)
      = total := by
  rw [blk_start_eq N total (N - 1) hN ht (by omega),
    blk_len_eq N total (N - 1) hN ht (by omega), if_pos (by omega)]
  have := mul_span_le N total (N - 1) (by omega)
  omega

/-- Claim C12. For every element count `total` (a `size_t`) and worker count
`workers ≥ 1` (an `int32_t`), the blocks computed by the rule of `reduce` tile `[0, total)`:
worker 0 starts at 0, each worker starts where the previous one ends, the last one ends at
`total`, every worker but the last has length `total / workers`, the blocks are pairwise
disjoint, and every element below `total` lies in the block of some worker. -/
theorem partition_tiles (total workers : Nat) (hw : 1 ≤ workers) (hw32 : workers < 2 ^ 31)
    (ht : total < 2 ^ 64) :
    blk_start (workers : Int) total ((0 : Nat) : Int) = 0 ∧
    (∀ id : Nat, id + 1 < workers →
      blk_start (workers : Int) total ((id + 1 : Nat) : Int) =
        blk_start (workers : Int) total (id : Int) + blk_len (workers : Int) total (id : Int) ∧
      blk_len (workers : Int) total (id : Int) = total / workers) ∧
    blk_start (workers : Int) total ((workers - 1 : Nat) : Int) +
      blk_len (workers : Int) total ((workers - 1 : Nat) : Int) = total ∧
    (∀ i j : Nat, i < j → j < workers →
      blk_start (workers : Int) total (i : Int) + blk_len (workers : Int) total (i : Int)
        ≤ blk_start (workers : Int) total (j : Int)) ∧
    (∀ p, p < total → ∃ id : Nat, id < workers ∧
      blk_start (workers : Int) total (id : Int) ≤ p ∧
      p < blk_start (workers : Int) total (id : Int) + blk_len (workers : Int) total (id : Int)) := by
  have hN : workers < 2 ^ 64 := by omega
  refine ⟨?_, ?_, blk_last workers total hw hN ht, ?_, ?_⟩
  · rw [blk_start_eq workers total 0 hN ht (by omega)]
    omega
  · intro id hid
    refine ⟨blk_next workers total id hN ht hid, ?_⟩
    rw [blk_len_eq workers total id hN ht (by omega), if_neg (by omega)]
  · intro i j hij hj
    rw [blk_start_eq workers total i hN ht (by omega),
      blk_start_eq workers total j hN ht (by omega),
      blk_len_eq workers total i hN ht (by omega), if_neg (by omega), ← Nat.succ_mul]
    exact Nat.mul_le_mul_right _ (by omega)
  · intro p hp
    by_cases hlast : (workers - 1) * (total / workers) ≤ p
    · refine ⟨workers - 1, by omega, ?_, ?_⟩
      · rw [blk_start_eq workers total (workers - 1) hN ht (by omega)]
        exact hlast
      · have := blk_last workers total hw hN ht
        omega
    · have hspan : 0 < total / workers := by
        rcases Nat.eq_zero_or_pos (total / workers) with h0 | h0
        · rw [h0] at hlast; omega
        · exact h0
      have hq : p / (total / workers) < workers - 1 := by
        rw [Nat.div_lt_iff_lt_mul hspan]
        omega
      refine ⟨p / (total / workers), by omega, ?_, ?_⟩
      · rw [blk_start_eq workers total _ hN ht (by omega)]
        exact Nat.div_mul_le_self p _
      · rw [blk_start_eq workers total _ hN ht (by omega),
          blk_len_eq workers total _ hN ht (by omega), if_neg (by omega), ← Nat.succ_mul]
        have h1 : p / (total / workers) * (total / workers) + p % (total / workers) = p := by
          rw [Nat.mul_comm]
          exact Nat.div_add_mod p _
        have h2 := Nat.mod_lt p hspan
        rw [Nat.succ_mul]
        omega

/-- Claim C12: the instance in the code, 1464781690 elements and 48 workers. -/
theorem partition_tiles_witness :
    blk_start ((48 : Nat) : Int) 1464781690 ((0 : Nat) : Int) = 0 ∧
    (∀ id : Nat, id + 1 < 48 →
      blk_start ((48 : Nat) : Int) 1464781690 ((id + 1 : Nat) : Int) =
        blk_start ((48 : Nat) : Int) 1464781690 (id : Int) +
          blk_len ((48 : Nat) : Int) 1464781690 (id : Int) ∧
      blk_len ((48 : Nat) : Int) 1464781690 (id : Int) = 1464781690 / 48) ∧
    blk_start ((48 : Nat) : Int) 1464781690 ((48 - 1 : Nat) : Int) +
      blk_len ((48 : Nat) : Int) 1464781690 ((48 - 1 : Nat) : Int) = 1464781690 ∧
    (∀ i j : Nat, i < j → j < 48 →
      blk_start ((48 : Nat) : Int) 1464781690 (i : Int) +
          blk_len ((48 : Nat) : Int) 1464781690 (i : Int)
        ≤ blk_start ((48 : Nat) : Int) 1464781690 (j : Int)) ∧
    (∀ p, p < 1464781690 → ∃ id : Nat, id < 48 ∧
      blk_start ((48 : Nat) : Int) 1464781690 (id : Int) ≤ p ∧
      p < blk_start ((48 : Nat) : Int) 1464781690 (id : Int) +
        blk_len ((48 : Nat) : Int) 1464781690 (id : Int)) :=
  partition_tiles 1464781690 48 (by decide) (by decide) (by decide)

/-! ## The sums of `reduce` and `kernel` -/

theorem toUInt64_add (a b : Int) : (toUInt64 a + toUInt64 b) % 2 ^ 64 = toUInt64 (a + b) := by
  unfold toUInt64
  omega

theorem toUInt64_lt (a : Int) : toUInt64 a < 2 ^ 64 := by
  unfold toUInt64
  omega

theorem toUInt64_wrapInt64 (a : Int) : toUInt64 (wrapInt64 a) = toUInt64 a := by
  unfold wrapInt64
  exact Baseops.toUInt64_toInt64 _ (toUInt64_lt a)

theorem wrapInt64_add (a b : Int) : wrapInt64 (wrapInt64 a + b) = wrapInt64 (a + b) := by
  have h : toUInt64 (wrapInt64 a + b) = toUInt64 (a + b) := by
    rw [← toUInt64_add, toUInt64_wrapInt64, toUInt64_add]
  unfold wrapInt64 at h ⊢
  rw [h]

theorem wrapInt64_add_right (a b : Int) : wrapInt64 (a + wrapInt64 b) = wrapInt64 (a + b) := by
  rw [Int.add_comm, wrapInt64_add, Int.add_comm]

theorem wrapInt64_of_range (x : Int) (h1 : -(2 ^ 63) ≤ x) (h2 : x < 2 ^ 63) :
    wrapInt64 x = x := by
  unfold wrapInt64 toInt64 toUInt64
  split <;> omega

theorem rangeSum_add (a : Nat → Int) (s n m : Nat) :
    rangeSum a s (n + m) = rangeSum a s n + rangeSum a (s + n) m := by
  induction m with
  | zero => simp [rangeSum]
  | succ m ih =>
    rw [← Nat.add_assoc, rangeSum, rangeSum, ih, Nat.add_assoc s n m]
    omega

theorem rangeSum_add_zero (a : Nat → Int) (n m : Nat) :
    rangeSum a 0 (n + m) = rangeSum a 0 n + rangeSum a n m := by
  rw [rangeSum_add, Nat.zero_add]

/-- The sum of `n` elements of an `int32_t` array lies between `-2 ^ 31 * n` and
`(2 ^ 31 - 1) * n`. -/
theorem rangeSum_bounds (a : Nat → Int) (h : ∀ i, -(2 ^ 31) ≤ a i ∧ a i < 2 ^ 31) (s n : Nat) :
    -(2 ^ 31) * (n : Int) ≤ rangeSum a s n ∧ rangeSum a s n ≤ (2 ^ 31 - 1) * (n : Int) := by
  induction n with
  | zero => simp [rangeSum]
  | succ n ih =>
    rw [rangeSum]
    have := h (s + n)
    push_cast
    omega

/-- The `size_t` accumulator of `reduce` after `n` elements holds their exact sum modulo
`2 ^ 64`. -/
theorem accumulate_eq (g : Nat → Int) (n : Nat) :
    (List.range n).foldl (fun (s : Nat) i => (s + toUInt64 (g i)) % 2 ^ 64) 0
      = toUInt64 (rangeSum g 0 n) := by
  induction n with
  | zero => rfl
  | succ n ih =>
    rw [List.range_succ, List.foldl_append, ih]
    simp only [List.foldl_cons, List.foldl_nil]
    rw [toUInt64_add, rangeSum, Nat.zero_add]

theorem rangeSum_shift (a : Nat → Int) (s n : Nat) :
    rangeSum (fun i => a (s + i)) 0 n = rangeSum a s n := by
  induction n with
  | zero => rfl
  | succ n ih => rw [rangeSum, rangeSum, ih, Nat.zero_add]

/-- The value `reduce` stores in `ret`: the exact sum of the block, wrapped into the
`int64_t` range. -/
theorem reduce_ret (num_parts : Int) (part_len_c0 : Nat) (a : Args) :
    (reduce_with num_parts part_len_c0 a).ret =
      wrapInt64 (rangeSum a.part_raw_c0 (blk_start num_parts part_len_c0 a.id)
        (blk_len num_parts part_len_c0 a.id)) := by
  unfold reduce_with wrapInt64
  simp only []
  rw [accumulate_eq (fun i => a.part_raw_c0 (blk_start num_parts part_len_c0 a.id + i)),
    rangeSum_shift]

/-- The last loop of `kernel`, adding values that are wrapped exact sums, leaves the
wrapped sum of the exact sums. -/
theorem combine_eq (r x : Nat → Int) (n : Nat) (h : ∀ i, i < n → r i = wrapInt64 (x i)) :
    (List.range n).foldl (fun (sum : Int) i => wrapInt64 (sum + r i)) 0
      = wrapInt64 (rangeSum x 0 n) := by
  induction n with
  | zero => rfl
  | succ n ih =>
    rw [List.range_succ, List.foldl_append, ih (fun i hi => h i (by omega))]
    simp only [List.foldl_cons, List.foldl_nil]
    rw [h n (by omega), wrapInt64_add, wrapInt64_add_right, rangeSum, Nat.zero_add]

theorem naive_sum_eq (a : Nat → Int) (total : Nat) :
    naive_sum a total = wrapInt64 (rangeSum a 0 total) := by
  unfold naive_sum
  induction total with
  | zero => rfl
  | succ n ih =>
    rw [List.range_succ, List.foldl_append, ih]
    simp only [List.foldl_cons, List.foldl_nil]
    rw [wrapInt64_add, rangeSum, Nat.zero_add]

/-- The exact sums of the blocks of the first `k` workers add up to the exact sum of the
elements below the start of worker `k`. -/
theorem blocks_sum (a : Nat → Int) (N total : Nat) (hN : N < 2 ^ 64) (ht : total < 2 ^ 64)
    (k : Nat) (hk : k + 1 ≤ N) :
    rangeSum (fun i => rangeSum a (blk_start (N : Int) total (i : Int))
        (blk_len (N : Int) total (i : Int))) 0 k
      = rangeSum a 0 (blk_start (N : Int) total (k : Int)) := by
  induction k with
  | zero =>
    rw [blk_start_eq N total 0 hN ht (by omega), Nat.zero_mul]
    rfl
  | succ k ih =>
    rw [rangeSum, ih (by omega), Nat.zero_add, blk_next N total k hN ht (by omega),
      rangeSum_add, Nat.zero_add]

/-- The sum `kernel` returns, for `N ≥ 1` workers: the exact sum of the whole array wrapped
into the `int64_t` range. -/
theorem kernel_sum (N total : Nat) (hN : 1 ≤ N) (hN32 : N < 2 ^ 31) (ht : total < 2 ^ 64)
    (f : FileView) :
    (kernel_with N total f).2 = wrapInt64 (rangeSum f.data 0 total) := by
  have h64 : N < 2 ^ 64 := by omega
  have hx : ∀ i, i < N →
      (reduce_with (N : Int) total { part_raw_c0 := f.data, id := toInt32 i, ret := 0 }).ret
        = wrapInt64 (rangeSum f.data (blk_start (N : Int) total (i : Int))
            (blk_len (N : Int) total (i : Int))) := by
    intro i hi
    rw [reduce_ret, toInt32_natCast i (by omega)]
  have hc := combine_eq
    (fun i => (reduce_with (N : Int) total
      { part_raw_c0 := f.data, id := toInt32 i, ret := 0 }).ret)
    (fun i => rangeSum f.data (blk_start (N : Int) total (i : Int))
      (blk_len (N : Int) total (i : Int))) N hx
  have hsum : rangeSum (fun i => rangeSum f.data (blk_start (N : Int) total (i : Int))
      (blk_len (N : Int) total (i : Int))) 0 N = rangeSum f.data 0 total := by
    have hb := blocks_sum f.data N total h64 ht (N - 1) (by omega)
    have hl := blk_last N total hN h64 ht
    have hr : rangeSum (fun i => rangeSum f.data (blk_start (N : Int) total (i : Int))
        (blk_len (N : Int) total (i : Int))) 0 (N - 1 + 1)
        = rangeSum f.data 0 total := by
      rw [rangeSum, hb, Nat.zero_add, ← rangeSum_add_zero, hl]
    rwa [Nat.sub_add_cancel hN] at hr
  rw [hsum] at hc
  exact hc

/-! # The claims about the reducer -/

/-- Claim C13. For every array of `total` elements and every worker count `N ≥ 1` (also
when `N > total`), the value `kernel` returns, the per-worker results of `reduce` for the
ids `0..N-1` added in worker order, equals the sum computed by one naive left-to-right pass
over the whole array with an `int64_t` accumulator; it is the exact sum whenever that lies
in the `int64_t` range, so for every array of fewer than `2 ^ 32` `int32_t` elements. The
same holds for `kernel` with the constants of the code. -/
theorem kernel_eq_naive_sum (N total : Nat) (hN : 1 ≤ N) (hN32 : N < 2 ^ 31)
    (ht : total < 2 ^ 64) (f : FileView) :
    (kernel_with N total f).2 = naive_sum f.data total ∧
    (-(2 ^ 63) ≤ rangeSum f.data 0 total → rangeSum f.data 0 total < 2 ^ 63 →
      (kernel_with N total f).2 = rangeSum f.data 0 total) ∧
    ((∀ i, -(2 ^ 31) ≤ f.data i ∧ f.data i < 2 ^ 31) → total < 2 ^ 32 →
      (kernel_with N total f).2 = rangeSum f.data 0 total) ∧
    (kernel f).2 = naive_sum f.data PART_LEN_C0 := by
  have hk := kernel_sum N total hN hN32 ht f
  refine ⟨?_, ?_, ?_, ?_⟩
  · rw [hk, naive_sum_eq]
  · intro h1 h2
    rw [hk, wrapInt64_of_range _ h1 h2]
  · intro h32 ht32
    obtain ⟨b1, b2⟩ := rangeSum_bounds f.data h32 0 total
    rw [hk, wrapInt64_of_range _ (by omega) (by omega)]
  · unfold kernel
    rw [kernel_sum NUM_PARTS PART_LEN_C0 (by decide) (by decide) (by decide) f, naive_sum_eq]

/-- Claim C13: the instance of the specification, the array `[1, -2, 3, 4]` with 2 workers:
the blocks are `[0, 2)` and `[2, 4)`, the partial sums `-1` and `7`, the result `6`. -/
theorem kernel_eq_naive_sum_witness :
    ((kernel_with 2 4 sampleFile).2 = naive_sum sampleFile.data 4 ∧
      (-(2 ^ 63) ≤ rangeSum sampleFile.data 0 4 → rangeSum sampleFile.data 0 4 < 2 ^ 63 →
        (kernel_with 2 4 sampleFile).2 = rangeSum sampleFile.data 0 4) ∧
      ((∀ i, -(2 ^ 31) ≤ sampleFile.data i ∧ sampleFile.data i < 2 ^ 31) → 4 < 2 ^ 32 →
        (kernel_with 2 4 sampleFile).2 = rangeSum sampleFile.data 0 4) ∧
      (kernel sampleFile).2 = naive_sum sampleFile.data PART_LEN_C0) ∧
    (blk_start 2 4 0, blk_len 2 4 0, blk_start 2 4 1, blk_len 2 4 1) = (0, 2, 2, 2) ∧
    (reduce_with 2 4 { part_raw_c0 := sampleFile.data, id := 0, ret := 0 }).ret = -1 ∧
    (reduce_with 2 4 { part_raw_c0 := sampleFile.data, id := 1, ret := 0 }).ret = 7 ∧
    (kernel_with 2 4 sampleFile).2 = 6 :=
  ⟨kernel_eq_naive_sum 2 4 (by decide) (by decide) (by decide) sampleFile,
   by decide, by decide, by decide, by decide⟩

/-- Claim C14, the code after a failed `stat`. For every answer of the operating system,
`ker_scan` makes the same calls to `open` and `mmap` whether `stat` failed or not, the
length passed to `mmap` being the `st_size` found in the `struct stat`, which a failed
`stat` leaves uninitialised; a negative status adds only the two messages, printed before
`open`. The calls of `kernel` start with those of `ker_scan`, and the next one is the
`pthread_create` of worker 0: nothing stops `kernel` between the failed `stat` and the
first thread. -/
theorem ker_scan_stat_failure (f : FileView) :
    (ker_scan f).1 =
      (if f.status < 0 then [Event.stat, Event.printf_status f.status, Event.perror]
        else [Event.stat]) ++ [Event.open_file, Event.mmap f.st_size f.fd] ∧
    (∃ rest, (kernel f).1 = (ker_scan f).1 ++ Event.pthread_create 0 :: rest) := by
  refine ⟨?_, ?_⟩
  · unfold ker_scan
    by_cases h : f.status < 0
    · simp [h]
    · simp [h]
  · refine ⟨(List.range 47).map (fun i => Event.pthread_create (i + 1)) ++
      (List.range 48).map Event.pthread_join, ?_⟩
    show (ker_scan f).1 ++ (List.range 48).map Event.pthread_create ++
        (List.range 48).map Event.pthread_join = _
    rw [List.append_assoc]
    congr 1

/-- Claim C17. For every block of elements, the result `reduce` stores in `ret`,
accumulated in a `size_t` to which each element is added after conversion and then
converted to `int64_t`, is the exact sum of the block wrapped into the `int64_t` range; it
equals the exact sum whenever that lies in the `int64_t` range, in particular for every
block of fewer than `2 ^ 32` `int32_t` elements, negative elements and negative totals
included. The other fields of `*args` are unchanged. -/
theorem reduce_ret_exact (num_parts : Int) (part_len_c0 : Nat) (a : Args) :
    (reduce_with num_parts part_len_c0 a).ret =
      toInt64 (toUInt64 (rangeSum a.part_raw_c0 (blk_start num_parts part_len_c0 a.id)
        (blk_len num_parts part_len_c0 a.id))) ∧
    (-(2 ^ 63) ≤ rangeSum a.part_raw_c0 (blk_start num_parts part_len_c0 a.id)
        (blk_len num_parts part_len_c0 a.id) →
      rangeSum a.part_raw_c0 (blk_start num_parts part_len_c0 a.id)
        (blk_len num_parts part_len_c0 a.id) < 2 ^ 63 →
      (reduce_with num_parts part_len_c0 a).ret =
        rangeSum a.part_raw_c0 (blk_start num_parts part_len_c0 a.id)
          (blk_len num_parts part_len_c0 a.id)) ∧
    ((∀ i, -(2 ^ 31) ≤ a.part_raw_c0 i ∧ a.part_raw_c0 i < 2 ^ 31) →
      blk_len num_parts part_len_c0 a.id < 2 ^ 32 →
      (reduce_with num_parts part_len_c0 a).ret =
        rangeSum a.part_raw_c0 (blk_start num_parts part_len_c0 a.id)
          (blk_len num_parts part_len_c0 a.id)) ∧
    (reduce_with num_parts part_len_c0 a).id = a.id ∧
    (reduce_with num_parts part_len_c0 a).part_raw_c0 = a.part_raw_c0 := by
  have hr := reduce_ret num_parts part_len_c0 a
  refine ⟨hr, ?_, ?_, rfl, rfl⟩
  · intro h1 h2
    rw [hr, wrapInt64_of_range _ h1 h2]
  · intro h32 hlen
    obtain ⟨b1, b2⟩ := rangeSum_bounds a.part_raw_c0 h32
      (blk_start num_parts part_len_c0 a.id) (blk_len num_parts part_len_c0 a.id)
    rw [hr, wrapInt64_of_range _ (by omega) (by omega)]

/-- Claim C17: an instance with a negative total, worker 0 of 2 on `[1, -2, 3, 4]`. -/
theorem reduce_ret_exact_witness :
    (reduce_with 2 4 { part_raw_c0 := sampleFile.data, id := 0, ret := 0 }).ret =
      rangeSum sampleFile.data (blk_start 2 4 0) (blk_len 2 4 0) ∧
    rangeSum sampleFile.data (blk_start 2 4 0) (blk_len 2 4 0) = -1 :=
  ⟨(reduce_ret_exact 2 4 { part_raw_c0 := sampleFile.data, id := 0, ret := 0 }).2.1
    (by decide) (by decide), by decide⟩

/-! # The compress test -/

/-- One step of the scalar filter loop. -/
theorem test_compress_loop_succ (a : Nat → Int) (n : Nat) (b : Nat → Int) :
    test_compress_loop a (n + 1) b =
      if a n > 255 then
        (store64 (test_compress_loop a n b).1 (test_compress_loop a n b).2 (a n),
         (test_compress_loop a n b).2 + 1)
      else test_compress_loop a n b := by
  unfold test_compress_loop
  rw [List.range_succ, List.foldl_append]
  rfl

theorem store64_eq (B : Nat → Int) (k : Nat) (v : Int) : store64 B k v k = v := by
  simp [store64]

theorem store64_ne (B : Nat → Int) (k : Nat) (v : Int) (s : Nat) (h : s ≠ k) :
    store64 B k v s = B s := by
  simp [store64, h]

/-- What the scalar filter loop leaves: `b[0..j)` holds the elements greater than 255 of
`a[0..n)` in their order, `j` is their number, and `b` is unchanged from `j` on. -/
theorem test_compress_loop_spec (a : Nat → Int) (b : Nat → Int) (n : Nat) :
    (List.range (test_compress_loop a n b).2).map (test_compress_loop a n b).1
      = ((List.range n).map a).filter (fun x => decide (x > 255)) ∧
    (∀ m, (test_compress_loop a n b).2 ≤ m → (test_compress_loop a n b).1 m = b m) := by
  induction n with
  | zero => exact ⟨rfl, fun _ _ => rfl⟩
  | succ n ih =>
    obtain ⟨h1, h2⟩ := ih
    rw [test_compress_loop_succ, List.range_succ, List.map_append, List.filter_append]
    by_cases hgt : a n > 255
    · rw [if_pos hgt]
      constructor
      · simp only []
        rw [List.range_succ, List.map_append, ← h1]
        congr 1
        · apply List.map_congr_left
          intro m hm
          exact store64_ne _ _ _ _ (Nat.ne_of_lt (List.mem_range.1 hm))
        · simp [store64_eq, hgt]
      · intro m hm
        simp only [] at hm ⊢
        rw [store64_ne _ _ _ _ (by omega)]
        exact h2 m (by omega)
    · rw [if_neg hgt]
      refine ⟨?_, h2⟩
      rw [h1]
      simp [hgt]

/-- The compress store of one register does what the scalar loop does on its 8 elements. -/
theorem compress_lanes (A : Nat → Int) (i : Nat) (mask : Nat)
    (hmask : ∀ k, k < 8 → mask.testBit k = decide (A (i + k) > 255)) (j : Nat) (l : List Nat)
    (hl : ∀ k, k ∈ l → k < 8) : ∀ (B : Nat → Int) (c : Nat),
    (l.map (fun k => i + k)).foldl
      (fun (acc : (Nat → Int) × Nat) i =>
        if A i > 255 then (store64 acc.1 acc.2 (A i), acc.2 + 1) else acc)
      (B, j + c)
      = ((l.foldl
          (fun (acc : (Nat → Int) × Nat) k =>
            if mask.testBit k then
              (store64 acc.1 (j + acc.2) ((mm512_load_epi64 A i) k), acc.2 + 1)
            else acc)
          (B, c)).1,
         j + (l.foldl
          (fun (acc : (Nat → Int) × Nat) k =>
            if mask.testBit k then
              (store64 acc.1 (j + acc.2) ((mm512_load_epi64 A i) k), acc.2 + 1)
            else acc)
          (B, c)).2) := by
  induction l with
  | nil => intro B c; rfl
  | cons k l ih =>
    intro B c
    have hk := hmask k (hl k (List.mem_cons_self k l))
    have ih' := ih (fun x hx => hl x (List.mem_cons_of_mem k hx))
    simp only [List.map_cons, List.foldl_cons]
    by_cases hgt : A (i + k) > 255
    · have hb : mask.testBit k = true := by rw [hk]; simpa using hgt
      rw [if_pos hgt, if_pos hb]
      exact ih' _ (c + 1)
    · have hb : ¬ mask.testBit k = true := by rw [hk]; simpa using hgt
      rw [if_neg hgt, if_neg hb]
      exact ih' B c

/-- The number of lanes a compress store writes is the number of set bits among the low 8
bits of the mask. -/
theorem compress_count (j mask : Nat) (a : m512i) (l : List Nat) :
    ∀ (B : Nat → Int) (c : Nat),
    (l.foldl
      (fun (acc : (Nat → Int) × Nat) k =>
        if mask.testBit k then (store64 acc.1 (j + acc.2) (a k), acc.2 + 1) else acc)
      (B, c)).2 = c + (l.filter (fun k => mask.testBit k)).length := by
  induction l with
  | nil => intro B c; rfl
  | cons k l ih =>
    intro B c
    simp only [List.foldl_cons, List.filter_cons]
    by_cases hb : mask.testBit k = true
    · rw [if_pos hb, if_pos hb, ih, List.length_cons]
      omega
    · rw [if_neg hb, if_neg hb, ih]

theorem popcount_mask8 (mask : Nat) (h : mask < 2 ^ 8) :
    builtin_popcount (mm512_mask2int mask)
      = ((List.range 8).filter (fun k => mask.testBit k)).length := by
  have hu : toUInt32 (mm512_mask2int mask) = mask := by
    unfold toUInt32 mm512_mask2int
    omega
  unfold builtin_popcount
  rw [hu, Baseops.popcount_eq_length, show 32 = 8 + 24 from rfl, List.range_add,
    List.filter_append, List.length_append]
  have : (List.map (fun x => 8 + x) (List.range 24)).filter (fun k => mask.testBit k) = [] := by
    rw [List.filter_eq_nil_iff]
    intro x hx
    obtain ⟨y, _, rfl⟩ := List.mem_map.1 hx
    have hlt : mask < 2 ^ (8 + y) :=
      Nat.lt_of_lt_of_le h (Nat.pow_le_pow_right (by decide) (by omega))
    simp [Nat.testBit_lt_two_pow hlt]
  rw [this]
  rfl

/-- One iteration of the loop of `test_compress_intri` is 8 steps of the scalar loop. -/
theorem compress_body_eq (A : Nat → Int) (i : Nat) (B : Nat → Int) (j : Nat) :
    compress_body A i (B, j) =
      ((List.range 8).map (fun k => i + k)).foldl
        (fun (acc : (Nat → Int) × Nat) i =>
          if A i > 255 then (store64 acc.1 acc.2 (A i), acc.2 + 1) else acc)
        (B, j) := by
  have hmask : ∀ k, k < 8 →
      (mm512_cmpgt_epi64_mask (mm512_load_epi64 A i) (mm512_set1_epi64 255)).testBit k
        = decide (A (i + k) > 255) := by
    intro k hk
    unfold mm512_cmpgt_epi64_mask
    rw [Baseops.testBit_maskOfLanes]
    simp [hk, mm512_load_epi64, mm512_set1_epi64]
  have hlt : mm512_cmpgt_epi64_mask (mm512_load_epi64 A i) (mm512_set1_epi64 255) < 2 ^ 8 :=
    Baseops.maskOfLanes_lt _ 8
  have h := compress_lanes A i _ hmask j (List.range 8) (fun k hk => List.mem_range.1 hk) B 0
  rw [Nat.add_zero] at h
  rw [h]
  unfold compress_body mm512_mask_compressstoreu_epi64
  simp only []
  rw [popcount_mask8 _ hlt, compress_count, Nat.zero_add]

/-- The loop of `test_compress_intri`, entered at `i = 8 * t` with what the scalar loop
leaves after `8 * t` elements and with enough fuel, leaves what the scalar loop leaves
after `SIZE` elements. -/
theorem compress_loop_eq (A B : Nat → Int) (fuel : Nat) : ∀ t, 8 * t ≤ 1024 →
    128 ≤ t + fuel →
    compress_loop A fuel (8 * t) (test_compress_loop A (8 * t) B)
      = test_compress_loop A SIZE B := by
  induction fuel with
  | zero =>
    intro t h1 h2
    have : 8 * t = SIZE := by unfold SIZE; omega
    rw [compress_loop, this]
  | succ fuel ih =>
    intro t h1 h2
    rw [compress_loop]
    by_cases hlt : 8 * t < SIZE
    · rw [if_pos hlt]
      unfold SIZE at hlt
      have hstep : compress_body A (8 * t) (test_compress_loop A (8 * t) B)
          = test_compress_loop A (8 * (t + 1)) B := by
        rw [show test_compress_loop A (8 * t) B
          = ((test_compress_loop A (8 * t) B).1, (test_compress_loop A (8 * t) B).2) from rfl,
          compress_body_eq]
        unfold test_compress_loop
        rw [show 8 * (t + 1) = 8 * t + 8 by omega, List.range_add, List.foldl_append]
      rw [hstep, show 8 * t + 8 = 8 * (t + 1) by omega]
      exact ih (t + 1) (by omega) (by omega)
    · rw [if_neg hlt]
      have : 8 * t = SIZE := by unfold SIZE at hlt ⊢; omega
      rw [this]

theorem test_compress_intri_eq (A B : Nat → Int) :
    test_compress_intri A B =
      ((test_compress_loop A SIZE B).1, ((test_compress_loop A SIZE B).2 : Int)) := by
  have h := compress_loop_eq A B SIZE 0 (by decide) (by decide)
  have h0 : test_compress_loop A (8 * 0) B = (B, 0) := rfl
  rw [h0] at h
  unfold test_compress_intri
  simp only []
  rw [show (8 * 0 : Nat) = 0 from rfl] at h
  rw [h]

set_option maxRecDepth 1000000 in
theorem testArray_count :
    (((List.range SIZE).map testArray).filter (fun x => decide (x > 255))).length = 342 := by
  decide

/-- Claim C20. For every 1024-element array `A` of 64-bit signed integers and every array
`B`, `test_compress_intri(A, B)` does what the scalar filter loop
`if (a[i] > 255) b[j++] = a[i]` does: it returns the number `j` of elements of `A` that are
greater than 255, leaves `B[0..j)` equal to exactly those elements in their original
order, and leaves `B` unchanged from `j` on. On the array of the test, 256 at the multiples
of 3 and 0 elsewhere, `j = 342`. -/
theorem test_compress_intri_filters (A B : Nat → Int) :
    test_compress_intri A B =
      ((test_compress_loop A SIZE B).1, ((test_compress_loop A SIZE B).2 : Int)) ∧
    (test_compress_intri A B).2 =
      ((((List.range SIZE).map A).filter (fun x => decide (x > 255))).length : Int) ∧
    (List.range (((List.range SIZE).map A).filter (fun x => decide (x > 255))).length).map
        (test_compress_intri A B).1
      = ((List.range SIZE).map A).filter (fun x => decide (x > 255)) ∧
    (∀ m, (((List.range SIZE).map A).filter (fun x => decide (x > 255))).length ≤ m →
      (test_compress_intri A B).1 m = B m) ∧
    (test_compress_intri testArray B).2 = 342 := by
  have he := test_compress_intri_eq A B
  have hfst : (test_compress_intri A B).1 = (test_compress_loop A SIZE B).1 := by rw [he]
  have hsnd : (test_compress_intri A B).2 = ((test_compress_loop A SIZE B).2 : Int) := by
    rw [he]
  have ht : (test_compress_intri testArray B).2 = 342 := by
    obtain ⟨t1, _⟩ := test_compress_loop_spec testArray B SIZE
    have hl := congrArg List.length t1
    rw [List.length_map, List.length_range, testArray_count] at hl
    rw [test_compress_intri_eq testArray B]
    show ((test_compress_loop testArray SIZE B).2 : Int) = 342
    rw [hl]
    rfl
  obtain ⟨h1, h2⟩ := test_compress_loop_spec A B SIZE
  rw [hfst, hsnd]
  generalize ((List.range SIZE).map A).filter (fun x => decide (x > 255)) = F at h1 ⊢
  generalize test_compress_loop A SIZE B = r at h1 h2 he ⊢
  have hj : r.2 = F.length := by
    have := congrArg List.length h1
    simpa using this
  refine ⟨he, ?_, ?_, ?_, ht⟩
  · rw [hj]
  · rw [← hj]
    exact h1
  · intro m hm
    exact h2 m (by omega)

end Runtime
